import Mathlib

/-!
# ABruijn: chimera detection and haplotype resolution

A shallow embedding of `src/assemble/chimera.cpp` and
`src/repeat_graph/haplotype_resolver.cpp`, followed by theorems about it.

Conventions of the embedding:

* C++ `int` / `int32_t` values are `Int`; the theorems concern runs in which no
  signed overflow occurs (signed overflow is undefined in C++), and `/` on
  `int` is truncating division, `Int.tdiv`.
* Objects addressed through pointers (`GraphEdge*`, `GraphNode*`) are named by
  natural numbers; pointer equality is equality of these names.
* Collaborators whose code is not part of the two files (sequence container,
  overlap container, configuration, graph processor, aligner) appear as
  fields of an environment record and are universally quantified in theorems.
-/

namespace ABruijn

/-! ## Chimera detector (`src/assemble/chimera.cpp`) -/

/-- Value of a `FastaRecord::Id`. -/
abbrev ReadId := Nat

/-- The fields of `OverlapRange` read by the chimera detector. -/
structure OverlapRange where
  curId : ReadId
  curBegin : Int
  curEnd : Int
  extId : ReadId
  extEnd : Int
  extLen : Int
  deriving DecidableEq, Repr

/-- Collaborators and configuration of `ChimeraDetector`.

* `rc` is `FastaRecord::Id::rc`;
* `seqLen` is `_seqContainer.seqLen`;
* `lazySeqOverlaps`, `hasSelfOverlaps` are the calls on `_ovlpContainer`;
* `WINDOW`, `maximum_overhang`, `maximum_jump` are the values of
  `Config::get("chimera_window")`, `Config::get("maximum_overhang")`,
  `Config::get("maximum_jump")` converted to `int`;
* `roundDrop x` is the value of `std::round((float)x / MAX_DROP_RATE)` stored in
  an `int`, as a function of the `int` value `x`
  (`MAX_DROP_RATE = Config::get("max_coverage_drop_rate")`);
* `unevenCoverage` is `Parameters::get().unevenCoverage`;
* `median` is the `median` utility applied to a `std::vector<int32_t>`. -/
structure ChimeraEnv where
  rc : ReadId → ReadId
  seqLen : ReadId → Int
  lazySeqOverlaps : ReadId → List OverlapRange
  hasSelfOverlaps : ReadId → Bool
  WINDOW : Int
  maximum_overhang : Int
  maximum_jump : Int
  roundDrop : Int → Int
  unevenCoverage : Bool
  median : List Int → Int

/-- Modelled from the spec: the chimera cache `_chimeras` (its type is declared
in `chimera.h`), "a mapping from read id to a boolean verdict", kept as an
association list. -/
abbrev ChimeraCache := List (ReadId × Bool)

/-- The call `_chimeras.contains(id)`. -/
def ChimeraCache.contains (c : ChimeraCache) (id : ReadId) : Bool :=
  (c.lookup id).isSome

/-- The call `_chimeras.find(id)`; `none` when the key is absent. -/
def ChimeraCache.find (c : ChimeraCache) (id : ReadId) : Option Bool :=
  c.lookup id

/-- The call `_chimeras.insert(id, v)`: adds the pair when the key is absent and
leaves an existing entry as it is. -/
def ChimeraCache.insert (c : ChimeraCache) (id : ReadId) (v : Bool) : ChimeraCache :=
  if c.contains id then c else (id, v) :: c

/-- Mutable members of `ChimeraDetector`: `_chimeras` and `_overlapCoverage`. -/
structure ChimeraDetector where
  chimeras : ChimeraCache
  overlapCoverage : Int
  deriving DecidableEq, Repr

/-- The guard `pos - FLANK >= 0 && pos - FLANK < (int)coverage.size()` of
`getReadCoverage`, returning the index `pos - FLANK` that is incremented when
the guard holds. -/
def windowIndex (FLANK : Int) (size : Nat) (pos : Int) : Option Nat :=
  if 0 ≤ pos - FLANK ∧ pos - FLANK < (size : Int) then some (pos - FLANK).toNat else none

/-- The inner loop of `getReadCoverage`, `for (pos = ...; pos < ...; ++pos)`:
`n` iterations starting at `pos`. -/
def coverWindows (FLANK : Int) : Int → Nat → List Int → List Int
  | _, 0, coverage => coverage
  | pos, n + 1, coverage =>
    match windowIndex FLANK coverage.length pos with
    | some i => coverWindows FLANK (pos + 1) n (coverage.modify (· + 1) i)
    | none => coverWindows FLANK (pos + 1) n coverage

/-- Body of the loop over `readOverlaps` in `getReadCoverage`. -/
def coverOverlap (env : ChimeraEnv) (FLANK : Int) (coverage : List Int)
    (ovlp : OverlapRange) : List Int :=
  if ovlp.curId = env.rc ovlp.extId then coverage
  else
    coverWindows FLANK (Int.tdiv ovlp.curBegin env.WINDOW + 1)
      (Int.tdiv ovlp.curEnd env.WINDOW - (Int.tdiv ovlp.curBegin env.WINDOW + 1)).toNat
      coverage

/-- The method `ChimeraDetector::getReadCoverage`. -/
def getReadCoverage (env : ChimeraEnv) (readId : ReadId)
    (readOverlaps : List OverlapRange) : List Int :=
  let FLANK := Int.tdiv env.maximum_overhang env.WINDOW
  let numWindows := Int.tdiv (env.seqLen readId) env.WINDOW
  if numWindows - 2 * FLANK ≤ 0 then [0]
  else
    readOverlaps.foldl (coverOverlap env FLANK)
      (List.replicate (numWindows - 2 * FLANK).toNat 0)

/-- The final loop of `testReadByCoverage`: `true` at the first window that is
`0` or below `threshold`, `false` when the loop runs to its end. -/
def anyWindowDrops (threshold : Int) : List Int → Bool
  | [] => false
  | cov :: rest =>
    if cov = 0 then true
    else if cov < threshold then true
    else anyWindowDrops threshold rest

/-- The threshold computed by `testReadByCoverage` from the profile. -/
def coverageThreshold (env : ChimeraEnv) (overlapCoverage : Int)
    (coverage : List Int) : Int :=
  if !env.unevenCoverage then env.roundDrop overlapCoverage
  else
    let maxCov := coverage.foldl (fun maxCov cov => max maxCov cov) 0
    env.roundDrop (min overlapCoverage maxCov)

/-- The method `ChimeraDetector::testReadByCoverage`. -/
def testReadByCoverage (env : ChimeraEnv) (overlapCoverage : Int) (readId : ReadId)
    (readOvlps : List OverlapRange) : Bool :=
  let coverage := getReadCoverage env readId readOvlps
  let threshold := coverageThreshold env overlapCoverage coverage
  anyWindowDrops threshold coverage

/-- The method `ChimeraDetector::isChimeric(FastaRecord::Id)`: the returned value
(`none` if `find` misses) and the detector afterwards. -/
def isChimeric (env : ChimeraEnv) (d : ChimeraDetector) (readId : ReadId) :
    Option Bool × ChimeraDetector :=
  if !d.chimeras.contains readId then
    let ovlps := env.lazySeqOverlaps readId
    let result := testReadByCoverage env d.overlapCoverage readId ovlps ||
      env.hasSelfOverlaps readId
    let c1 := d.chimeras.insert readId result
    let c2 := c1.insert (env.rc readId) result
    (c2.find readId, { d with chimeras := c2 })
  else (d.chimeras.find readId, d)

/-- Body of the loop over `readOvlps` in the two-argument `isChimeric`. -/
def selfOverlapStep (env : ChimeraEnv) (result : Bool) (ovlp : OverlapRange) : Bool :=
  if ovlp.curId = env.rc ovlp.extId then
    let projEnd := ovlp.extLen - ovlp.extEnd - 1
    if |ovlp.curEnd - projEnd| < env.maximum_jump then true else result
  else result

/-- The method `ChimeraDetector::isChimeric(FastaRecord::Id, const std::vector<OverlapRange>&)`. -/
def isChimericWith (env : ChimeraEnv) (d : ChimeraDetector) (readId : ReadId)
    (readOvlps : List OverlapRange) : Option Bool × ChimeraDetector :=
  if !d.chimeras.contains readId then
    let result := readOvlps.foldl (selfOverlapStep env)
      (testReadByCoverage env d.overlapCoverage readId readOvlps)
    let c1 := d.chimeras.insert readId result
    let c2 := c1.insert (env.rc readId) result
    (c2.find readId, { d with chimeras := c2 })
  else (d.chimeras.find readId, d)

/-- The statement `++readHist[c]` on the histogram of `estimateGlobalCoverage`. -/
def histIncr : List (Int × Int) → Int → List (Int × Int)
  | [], c => [(c, 1)]
  | (k, v) :: rest, c => if k = c then (k, v + 1) :: rest else (k, v) :: histIncr rest c

/-- Local accumulators of `estimateGlobalCoverage`. -/
structure CovAccum where
  readHist : List (Int × Int)
  covList : List Int
  sum : Int
  num : Int

/-- Body of the innermost loop of `estimateGlobalCoverage`. -/
def accumWindow (acc : CovAccum) (c : Int) : CovAccum :=
  { readHist := histIncr acc.readHist c
    covList := acc.covList ++ [c]
    sum := acc.sum + c
    num := acc.num + 1 }

/-- The windows visited by `for (i = flankSize; i < coverage.size() - flankSize; ++i)`. -/
def interiorWindows (flankSize : Nat) (coverage : List Int) : List Int :=
  (coverage.take (coverage.length - flankSize)).drop flankSize

/-- The loop over `_seqContainer.iterSeqs()` in `estimateGlobalCoverage`;
`draws k` is the value returned by the `k`-th call of `rand()`. -/
def sampleLoop (env : ChimeraEnv) (sampleRate : Nat) (draws : Nat → Nat) :
    Nat → List ReadId → CovAccum → CovAccum
  | _, [], acc => acc
  | k, seq :: rest, acc =>
    if draws k % sampleRate ≠ 0 then sampleLoop env sampleRate draws (k + 1) rest acc
    else
      let coverage := getReadCoverage env seq (env.lazySeqOverlaps seq)
      let nonZero := coverage.foldl (fun nonZero c => nonZero || (c != 0)) false
      if !nonZero then sampleLoop env sampleRate draws (k + 1) rest acc
      else
        sampleLoop env sampleRate draws (k + 1) rest
          ((interiorWindows 0 coverage).foldl accumWindow acc)

/-- The method `ChimeraDetector::estimateGlobalCoverage` on the container `seqs` (the ids of
`_seqContainer.iterSeqs()` in iteration order). The result is `none` when the
integer division `size / numSamples` has divisor `0`. -/
def estimateGlobalCoverage (env : ChimeraEnv) (seqs : List ReadId) (draws : Nat → Nat)
    (d : ChimeraDetector) : Option ChimeraDetector :=
  let numSamples := min 1000 seqs.length
  if numSamples = 0 then none
  else
    let sampleRate := seqs.length / numSamples
    let acc := sampleLoop env sampleRate draws 0 seqs ⟨[], [], 0, 0⟩
    if acc.readHist.isEmpty then some { d with overlapCoverage := 0 }
    else some { d with overlapCoverage := env.median acc.covList }

/-- One call on a `ChimeraDetector` leading from the first state to the second. -/
inductive ChimeraStep (env : ChimeraEnv) : ChimeraDetector → ChimeraDetector → Prop
  | query (d : ChimeraDetector) (readId : ReadId) :
      ChimeraStep env d (isChimeric env d readId).2
  | queryWith (d : ChimeraDetector) (readId : ReadId) (readOvlps : List OverlapRange) :
      ChimeraStep env d (isChimericWith env d readId readOvlps).2
  | estimate {d d2 : ChimeraDetector} (seqs : List ReadId) (draws : Nat → Nat)
      (h : estimateGlobalCoverage env seqs draws d = some d2) :
      ChimeraStep env d d2

/-- Any finite sequence of calls. -/
inductive ChimeraSteps (env : ChimeraEnv) : ChimeraDetector → ChimeraDetector → Prop
  | refl (d : ChimeraDetector) : ChimeraSteps env d d
  | tail {d d1 d2 : ChimeraDetector} :
      ChimeraSteps env d d1 → ChimeraStep env d1 d2 → ChimeraSteps env d d2

/-- A detector state reached from a freshly constructed detector (empty cache). -/
def ChimeraReachable (env : ChimeraEnv) (d : ChimeraDetector) : Prop :=
  ∃ c0 : Int, ChimeraSteps env ⟨[], c0⟩ d

/-- The reverse-complement id used in examples: flips the lowest bit. -/
def exampleRc (i : Nat) : Nat := if i % 2 = 1 then i - 1 else i + 1

/-- A concrete environment for examples: `rc` flips the lowest bit of the id,
reads have length `readLen`, `WINDOW = 100`, `maximum_overhang = 1000`,
`maximum_jump = 5`, `MAX_DROP_RATE = 5` (rounding half away from zero, exact on
integers). -/
def exampleEnv (readLen : Int) (ovlps : ReadId → List OverlapRange) : ChimeraEnv where
  rc := exampleRc
  seqLen := fun _ => readLen
  lazySeqOverlaps := ovlps
  hasSelfOverlaps := fun _ => false
  WINDOW := 100
  maximum_overhang := 1000
  maximum_jump := 5
  roundDrop := fun x => Int.tdiv (2 * x + (if 0 ≤ x then 5 else -5)) 10
  unevenCoverage := false
  median := fun l => (l.insertionSort (· ≤ ·)).getD (l.length / 2) 0

/-- The condition under which `getReadCoverage` counts the overlap `ovlp` in
window `i`: it is not a self-overlap and `curBegin/W < i + F < curEnd/W`. -/
def coversWindow (env : ChimeraEnv) (FLANK : Int) (i : Nat) (ovlp : OverlapRange) : Bool :=
  decide (ovlp.curId ≠ env.rc ovlp.extId ∧
    Int.tdiv ovlp.curBegin env.WINDOW < (i : Int) + FLANK ∧
    (i : Int) + FLANK < Int.tdiv ovlp.curEnd env.WINDOW)

/-- The overlaps of scenario S1: thirty overlaps over windows 10..49 and thirty over
windows 60..89 of a read of length 10,000. -/
def s1Overlaps : List OverlapRange :=
  List.replicate 30 ⟨0, 900, 5000, 2, 0, 0⟩ ++ List.replicate 30 ⟨0, 5900, 9000, 2, 0, 0⟩

/-- The Boolean test made on one overlap by the two-argument `isChimeric`: a
self-overlap whose end lies within `maximum_jump` of its projected end. -/
def isPalindromicJoin (env : ChimeraEnv) (ovlp : OverlapRange) : Bool :=
  decide (ovlp.curId = env.rc ovlp.extId ∧
    |ovlp.curEnd - (ovlp.extLen - ovlp.extEnd - 1)| < env.maximum_jump)

/-- The cache invariant `cache[id] == cache[id.rc()]`: both present with the same
verdict, or both absent. -/
def CacheSymmetric (env : ChimeraEnv) (c : ChimeraCache) : Prop :=
  ∀ r : ReadId, c.lookup r = c.lookup (env.rc r)

/-- The list described for `estimateGlobalCoverage`: the profiles of the sampled reads
(the `k`-th read of the container is sampled when the `k`-th draw is a multiple of
`sampleRate`) that have a nonzero window, concatenated in container order. The
container positions of `seqs` are numbered from `k`. -/
def sampledCovList (env : ChimeraEnv) (sampleRate : Nat) (draws : Nat → Nat) (k : Nat)
    (seqs : List ReadId) : List Int :=
  ((((seqs.enumFrom k).filter (fun p => draws p.1 % sampleRate = 0)).map
      (fun p => getReadCoverage env p.2 (env.lazySeqOverlaps p.2))).filter
    (fun coverage => coverage.any (fun c => c != 0))).flatten

/-! ## Haplotype resolver (`src/repeat_graph/haplotype_resolver.cpp`) -/

/-- A `GraphEdge*`. -/
abbrev EdgePtr := Nat

/-- A `GraphNode*`. -/
abbrev NodePtr := Nat

/-- The members of `GraphEdge` used by the resolver; `length` is the value of
`GraphEdge::length()`, `seq` the string
`edgeSequences().getSeq(seqSegments.front().edgeSeqId).str()`, and a null link is
`none`. -/
structure GraphEdge where
  nodeLeft : NodePtr
  nodeRight : NodePtr
  edgeId : Nat
  length : Int
  meanCoverage : Int
  selfComplement : Bool
  altHaplotype : Bool
  leftLink : Option EdgePtr
  rightLink : Option EdgePtr
  seq : String
  deriving DecidableEq, Repr

/-- Modelled from the spec: `GraphEdge::isLooped` (declared in `repeat_graph.h`), an
edge that starts and ends at the same node. -/
def GraphEdge.isLooped (e : GraphEdge) : Bool := e.nodeLeft == e.nodeRight

/-- The edge lists of a `GraphNode`. -/
structure GraphNode where
  inEdges : List EdgePtr
  outEdges : List EdgePtr
  deriving DecidableEq, Repr

/-- The `RepeatGraph` as the resolver sees it: `edges` is `iterEdges()` in iteration
order, `edge` and `node` give the objects behind the pointers, `numNodes` is the
number of nodes created so far and `complementEdge` is `RepeatGraph::complementEdge`. -/
structure RepeatGraph where
  edges : List EdgePtr
  edge : EdgePtr → GraphEdge
  node : NodePtr → GraphNode
  numNodes : Nat
  complementEdge : EdgePtr → EdgePtr

/-- The assignment `edge->altHaplotype = true`. -/
def RepeatGraph.setAlt (g : RepeatGraph) (e : EdgePtr) : RepeatGraph :=
  { g with edge := Function.update g.edge e { g.edge e with altHaplotype := true } }

/-- Body of the marking loops: `edge->altHaplotype = true;
_graph.complementEdge(edge)->altHaplotype = true;`. -/
def RepeatGraph.markEdge (g : RepeatGraph) (e : EdgePtr) : RepeatGraph :=
  (g.setAlt e).setAlt (g.complementEdge e)

/-- The loop `for (auto& edge : path) { ... }` marking every edge of a path and its
complement. -/
def RepeatGraph.markEdges (g : RepeatGraph) (path : List EdgePtr) : RepeatGraph :=
  path.foldl RepeatGraph.markEdge g

/-- Modelled from the spec: `RepeatGraph::linkEdges(a, b)` (defined in
`repeat_graph.h`), which sets `a.rightLink = b` and `b.leftLink = a`. -/
def RepeatGraph.linkEdges (g : RepeatGraph) (a b : EdgePtr) : RepeatGraph :=
  let g1 : RepeatGraph :=
    { g with edge := Function.update g.edge a { g.edge a with rightLink := some b } }
  { g1 with edge := Function.update g1.edge b { g1.edge b with leftLink := some a } }

/-- An `UnbranchingPath` as returned by `GraphProcessor::getUnbranchingPaths`: its
members `path`, `id`, `length`, `meanCoverage` and the values of its accessors
`nodeLeft()`, `nodeRight()`, `isLooped()`. -/
structure UnbranchingPath where
  path : List EdgePtr
  id : Nat
  length : Int
  meanCoverage : Int
  nodeLeft : NodePtr
  nodeRight : NodePtr
  isLooped : Bool
  deriving DecidableEq, Repr

/-- A `DnaSequence`, as its string. -/
abbrev DnaSequence := String

/-- The map `_bridgingSeqs`, keyed by pairs of edge pointers. -/
abbrev BridgingSeqs := List ((EdgePtr × EdgePtr) × DnaSequence)

/-- The assignment `_bridgingSeqs[key] = seq`: insert or overwrite. -/
def BridgingSeqs.set (m : BridgingSeqs) (key : EdgePtr × EdgePtr) (s : DnaSequence) :
    BridgingSeqs :=
  (key, s) :: m.filter (fun p => p.1 ≠ key)

/-- Mutable state of `HaplotypeResolver`: the graph it borrows and `_bridgingSeqs`. -/
structure Resolver where
  graph : RepeatGraph
  bridgingSeqs : BridgingSeqs

/-- An `EdgeAlignment`: the overlap of a read with an edge. -/
structure EdgeAlignment where
  overlap : OverlapRange
  edge : EdgePtr
  deriving DecidableEq, Repr

/-- A `GraphAlignment`. -/
abbrev GraphAlignment := List EdgeAlignment

/-- Collaborators and configuration of `HaplotypeResolver`.

* `MAX_BUBBLE_LEN` is `Config::get("max_bubble_length")` as `int`;
* `rc` is `FastaRecord::Id::rc` and `strand` is `FastaRecord::Id::strand`;
* `getUnbranchingPaths g` is `GraphProcessor(_graph, _asmSeqs).getUnbranchingPaths()`;
* `dnaComplement` is `DnaSequence::complement`;
* `makeAlignmentIndex g` is `_aligner.makeAlignmentIndex()`, by start edge;
* `readSubstr id start len` is `_readSeqs.getSeq(id).substr(start, len)`. -/
structure ResolverEnv where
  MAX_BUBBLE_LEN : Int
  rc : Nat → Nat
  strand : Nat → Bool
  getUnbranchingPaths : RepeatGraph → List UnbranchingPath
  dnaComplement : DnaSequence → DnaSequence
  makeAlignmentIndex : RepeatGraph → EdgePtr → List GraphAlignment
  readSubstr : ReadId → Int → Int → DnaSequence

/-- The method `HaplotypeResolver::pathSequence`. -/
def pathSequence (g : RepeatGraph) (path : List EdgePtr) : DnaSequence :=
  let strSeq := path.foldl (fun strSeq e => strSeq ++ (g.edge e).seq) ""
  if strSeq.isEmpty then "A" else strSeq

/-- The pointer left in `entrancePath` / `exitPath` by a loop
`for (auto& cand : unbranchingPaths) if (p(cand)) ptr = &cand;`: the last path
satisfying `p`, `none` for `nullptr`. -/
def lastPathWhere (p : UnbranchingPath → Bool) (paths : List UnbranchingPath) :
    Option UnbranchingPath :=
  paths.foldl (fun ptr cand => if p cand then some cand else ptr) none

/-- The tail shared by the detection phases: return when a link is already set
(`if (inEdge->rightLink || outEdge->leftLink) continue;`), otherwise link
`inEdge → outEdge` and `complement(outEdge) → complement(inEdge)` and register the
bridging sequence `seq` and, under the complement pair, `seqCompl`. -/
def linkAndBridge (r : Resolver) (inEdge outEdge : EdgePtr) (seq seqCompl : DnaSequence) :
    Resolver :=
  if ((r.graph.edge inEdge).rightLink.isSome || (r.graph.edge outEdge).leftLink.isSome) then r
  else
    let g1 := r.graph.linkEdges inEdge outEdge
    let g2 := g1.linkEdges (g1.complementEdge outEdge) (g1.complementEdge inEdge)
    let b1 := r.bridgingSeqs.set (inEdge, outEdge) seq
    let b2 := b1.set (g2.complementEdge outEdge, g2.complementEdge inEdge) seqCompl
    ⟨g2, b2⟩

/-- The end of the body of the main loop of `findHeterozygousBulges`, for a bubble
`p0`, `p1` that passed the checks: order the branches by coverage, count, mark, link
and register the bridging sequence. -/
def bulgeMask (env : ResolverEnv) (st : Int × Resolver)
    (p0 p1 entrancePath exitPath : UnbranchingPath) : Option (Int × Resolver) := do
  let twoPaths := if p0.meanCoverage > p1.meanCoverage then (p1, p0) else (p0, p1)
  let front0 ← twoPaths.1.path.head?
  let front1 ← twoPaths.2.path.head?
  let numMasked :=
    if (!(st.2.graph.edge front0).altHaplotype ||
        !(st.2.graph.edge front1).altHaplotype) then st.1 + 1 else st.1
  let g1 := (st.2.graph.markEdges twoPaths.1.path).markEdges twoPaths.2.path
  let inEdge ← entrancePath.path.getLast?
  let outEdge ← exitPath.path.head?
  let pathSeq := pathSequence g1 twoPaths.1.path
  some (numMasked,
    linkAndBridge ⟨g1, st.2.bridgingSeqs⟩ inEdge outEdge pathSeq (env.dnaComplement pathSeq))

/-- Body of the main loop of `findHeterozygousBulges` for one `path`; the state is
`numMasked` and the resolver. `none` stands for undefined behaviour: dereferencing a
null `entrancePath` / `exitPath`, or `front()` / `back()` of an empty path. The set
`toSeparate` is never inserted into, so its test never fires. -/
def bulgeStep (env : ResolverEnv) (unbranchingPaths : List UnbranchingPath)
    (st : Int × Resolver) (path : UnbranchingPath) : Option (Int × Resolver) :=
  if path.isLooped then some st
  else
    match unbranchingPaths.filter
        (fun candEdge => candEdge.nodeLeft == path.nodeLeft &&
          candEdge.nodeRight == path.nodeRight) with
    | [p0, p1] =>
      if p0.id = env.rc p1.id then some st
      else if (st.2.graph.node p0.nodeLeft).inEdges.length ≠ 1 ∨
          (st.2.graph.node p0.nodeLeft).outEdges.length ≠ 2 ∨
          (st.2.graph.node p0.nodeRight).outEdges.length ≠ 1 ∨
          (st.2.graph.node p0.nodeRight).inEdges.length ≠ 2 then some st
      else do
        let entrancePath ← lastPathWhere (fun cand => cand.nodeRight == p0.nodeLeft)
          unbranchingPaths
        let exitPath ← lastPathWhere (fun cand => cand.nodeLeft == p0.nodeRight)
          unbranchingPaths
        if entrancePath.id = exitPath.id ∨ entrancePath.id = env.rc exitPath.id then some st
        else if max p0.length p1.length > env.MAX_BUBBLE_LEN then some st
        else bulgeMask env st p0 p1 entrancePath exitPath
    | _ => some st

/-- The method `HaplotypeResolver::findHeterozygousBulges`: the returned `numMasked` and the
resolver afterwards. -/
def findHeterozygousBulges (env : ResolverEnv) (r : Resolver) : Option (Int × Resolver) :=
  let unbranchingPaths := env.getUnbranchingPaths r.graph
  unbranchingPaths.foldlM (bulgeStep env unbranchingPaths) (0, r)

/-- The end of the body of the main loop of `findHeterozygousLoops`, for a loop that
passed the checks: count, mark, link and register the bridging sequence. The coverages
are `int`, so `(entrance + exit) / 4` is an integer division. -/
def loopMask (env : ResolverEnv) (st : Int × Resolver)
    (loop entrancePath exitPath : UnbranchingPath) (loopFront : EdgePtr) :
    Option (Int × Resolver) := do
  let numMasked := if !(st.2.graph.edge loopFront).altHaplotype then st.1 + 1 else st.1
  let g1 := st.2.graph.markEdges loop.path
  let inEdge ← entrancePath.path.getLast?
  let outEdge ← exitPath.path.head?
  if loop.meanCoverage <
      Int.tdiv (entrancePath.meanCoverage + exitPath.meanCoverage) 4 then
    some (numMasked, linkAndBridge ⟨g1, st.2.bridgingSeqs⟩ inEdge outEdge "A" "A")
  else
    let seq := pathSequence g1 loop.path
    some (numMasked,
      linkAndBridge ⟨g1, st.2.bridgingSeqs⟩ inEdge outEdge seq (env.dnaComplement seq))

/-- Body of the main loop of `findHeterozygousLoops` for one `loop`. The comparison
`loop.meanCoverage > COV_MULT * min(entrance, entrance)` with `COV_MULT = 1.5` is
`2 * loop.meanCoverage > 3 * min(entrance, entrance)`. `none` stands for undefined
behaviour, as in `bulgeStep`. -/
def loopStep (env : ResolverEnv) (unbranchingPaths : List UnbranchingPath)
    (st : Int × Resolver) (loop : UnbranchingPath) : Option (Int × Resolver) :=
  if !env.strand loop.id then some st
  else if !loop.isLooped then some st
  else do
    let loopFront ← loop.path.head?
    if (st.2.graph.edge loopFront).selfComplement then some st
    else
      let node := loop.nodeLeft
      if (st.2.graph.node node).inEdges.length ≠ 2 ∨
          (st.2.graph.node node).outEdges.length ≠ 2 then some st
      else
        let entrancePath ← lastPathWhere
          (fun cand => cand.nodeRight == node && loop.id != cand.id) unbranchingPaths
        let exitPath ← lastPathWhere
          (fun cand => cand.nodeLeft == node && loop.id != cand.id) unbranchingPaths
        if entrancePath.isLooped then some st
        else if entrancePath.id = env.rc exitPath.id then some st
        else if 2 * loop.meanCoverage >
            3 * min entrancePath.meanCoverage entrancePath.meanCoverage then some st
        else if loop.length > max entrancePath.length exitPath.length then some st
        else loopMask env st loop entrancePath exitPath loopFront

/-- The method `HaplotypeResolver::findHeterozygousLoops`. -/
def findHeterozygousLoops (env : ResolverEnv) (r : Resolver) : Option (Int × Resolver) :=
  let unbranchingPaths := env.getUnbranchingPaths r.graph
  unbranchingPaths.foldlM (loopStep env unbranchingPaths) (0, r)

/-- A `PathWithScore` of `findVariantSegment`. -/
structure PathWithScore where
  path : GraphAlignment
  score : Int
  deriving DecidableEq, Repr

/-- The result type `VariantPaths`; a null `startEdge` / `endEdge` is `none`. -/
structure VariantPaths where
  startEdge : Option EdgePtr
  endEdge : Option EdgePtr
  altPaths : List PathWithScore
  deriving DecidableEq, Repr

/-- The default-constructed `VariantPaths()`. -/
def VariantPaths.empty : VariantPaths := ⟨none, none, []⟩

/-- First loop of `findVariantSegment` for one alignment: the suffix starting at the
first occurrence of `startEdge`, if there is one. -/
def alignmentSuffix (startEdge : EdgePtr) (aln : GraphAlignment) : Option GraphAlignment :=
  match aln.dropWhile (fun a => a.edge != startEdge) with
  | [] => none
  | a :: rest => some (a :: rest)

/-- The sort key of `outPaths`: `back().overlap.curEnd - front().overlap.curEnd`. -/
def pathSpan (a : GraphAlignment) : Int :=
  match a.head?, a.getLast? with
  | some first, some last => last.overlap.curEnd - first.overlap.curEnd
  | _, _ => 0

/-- The call `std::sort(outPaths, span descending)`; paths of equal span stay in
their input order (`std::sort` leaves their order unspecified). -/
def sortOutPaths (outPaths : List GraphAlignment) : List GraphAlignment :=
  outPaths.insertionSort (fun a1 a2 => pathSpan a1 ≥ pathSpan a2)

/-- The flag `contained`: the two paths agree on their first `min(size, size)` edges. -/
def isContained : GraphAlignment → GraphAlignment → Bool
  | a :: trgRest, b :: refRest => if a.edge != b.edge then false else isContained trgRest refRest
  | _, _ => true

/-- Body of the grouping loop: `trgPath` raises the score of the first group that
contains it, or opens a new group of score 1 at the end. -/
def addToGroups (trgPath : GraphAlignment) : List PathWithScore → List PathWithScore
  | [] => [⟨trgPath, 1⟩]
  | referencePath :: rest =>
    if isContained trgPath referencePath.path then
      { referencePath with score := referencePath.score + 1 } :: rest
    else referencePath :: addToGroups trgPath rest

/-- The edges met a second time along a path (`seen` holds the edges met so far). -/
def repeatsOf : GraphAlignment → List EdgePtr → List EdgePtr
  | [], _ => []
  | a :: rest, seen =>
    if seen.contains a.edge then a.edge :: repeatsOf rest (a.edge :: seen)
    else repeatsOf rest (a.edge :: seen)

/-- The inner loop over `groupId >= 1` that computes `agreement` for a given
`bubbleStartId`; `none` is an out-of-bounds index. -/
def groupsAgree (refPath : GraphAlignment) (convergenceEdges : List EdgePtr)
    (bubbleStartId : Nat) : List PathWithScore → Option Bool
  | [] => some true
  | group :: rest =>
    if bubbleStartId + 1 ≥ group.path.length then some false
    else do
      let refAln ← refPath[bubbleStartId + 1]?
      if !convergenceEdges.contains refAln.edge then some false
      else
        let groupAln ← group.path[bubbleStartId + 1]?
        if groupAln.edge != refAln.edge then some false
        else groupsAgree refPath convergenceEdges bubbleStartId rest

/-- The loop `for (;;)` that advances `bubbleStartId` while all groups agree; `fuel`
bounds the number of iterations. -/
def findBubbleStart (refPath : GraphAlignment) (convergenceEdges : List EdgePtr)
    (others : List PathWithScore) : Nat → Nat → Option Nat
  | 0, _ => none
  | fuel + 1, bubbleStartId => do
    let agreement ← groupsAgree refPath convergenceEdges bubbleStartId others
    if !agreement then some bubbleStartId
    else findBubbleStart refPath convergenceEdges others fuel (bubbleStartId + 1)

/-- The index left in `groupStart` / `groupEnd` by the scan of a group: the last
position holding `edge`, 0 when there is none. -/
def lastIndexOfEdge (edge : EdgePtr) (path : GraphAlignment) : Nat :=
  (path.enum.foldl (fun idx p => if p.2.edge == edge then p.1 else idx) 0)

/-- The test `std::equal` on branches of equal size: same edges. -/
def sameEdges (p1 p2 : GraphAlignment) : Bool :=
  p1.map (fun a => a.edge) == p2.map (fun a => a.edge)

/-- Body of the loop that shortens the groups: clip the group between the start and
the end edge and add it to `bubbleBranches`, or add its score to an equal branch.
`none` is an invalid iterator range. -/
def addBranch (startE endE : EdgePtr) (bubbleBranches : List PathWithScore)
    (group : PathWithScore) : Option (List PathWithScore) :=
  let groupStart := lastIndexOfEdge startE group.path
  let groupEnd := lastIndexOfEdge endE group.path
  if groupStart ≤ groupEnd + 1 ∧ groupEnd + 1 ≤ group.path.length then
    let newBranch : PathWithScore :=
      ⟨(group.path.drop groupStart).take (groupEnd + 1 - groupStart), group.score⟩
    let duplicate := bubbleBranches.any (fun b => sameEdges newBranch.path b.path)
    let merged := bubbleBranches.map
      (fun b => if sameEdges newBranch.path b.path then
        { b with score := b.score + newBranch.score } else b)
    if !duplicate then some (merged ++ [newBranch]) else some merged
  else none

/-- The end of `findVariantSegment`, once `convergenceEdges` is computed (from the
comment "get the bubble start" on): find the bubble start and end on the reference
path `refPath = pathGroups[0].path`, clip every group and merge equal branches.
`others` are the groups `pathGroups[1..]` and `fuel` bounds the iterations of the
`for (;;)` loop. `none` is undefined behaviour (an index out of bounds or an invalid
range). -/
def bubbleFromConvergence (pathGroups : List PathWithScore) (refPath : GraphAlignment)
    (others : List PathWithScore) (fuel : Nat) (convergenceEdges : List EdgePtr) :
    Option VariantPaths := do
  let bubbleStartId ← findBubbleStart refPath convergenceEdges others fuel 0
  let startAln ← refPath[bubbleStartId]?
  if !convergenceEdges.contains startAln.edge then some VariantPaths.empty
  else
    match (refPath.drop (bubbleStartId + 1)).findIdx?
        (fun a => convergenceEdges.contains a.edge) with
    | none => some VariantPaths.empty
    | some offset =>
      let bubbleEndId := bubbleStartId + 1 + offset
      let endAln ← refPath[bubbleEndId]?
      let bubbleBranches ← pathGroups.foldlM (addBranch startAln.edge endAln.edge) []
      if bubbleBranches.length < 2 then some VariantPaths.empty
      else some ⟨some startAln.edge, some endAln.edge, bubbleBranches⟩

/-- The part of `findVariantSegment` after the groups of score below `MIN_SCORE` are
erased (from `if (pathGroups.size() < 2)` on): mark the repeats, compute
`convergenceEdges` and clip the bubble. -/
def variantFromGroups (loopedEdges : List EdgePtr) (pathGroups : List PathWithScore) :
    Option VariantPaths :=
  match pathGroups with
  | [] => some VariantPaths.empty
  | [_] => some VariantPaths.empty
  | refPath :: group1 :: others =>
    let repeats := pathGroups.flatMap (fun g => repeatsOf g.path [])
    let convergenceEdges := (refPath.path.map (fun a => a.edge)).filter
      (fun e => !loopedEdges.contains e && !repeats.contains e)
    let convergenceEdges := (group1 :: others).foldl
      (fun conv g => (g.path.map (fun a => a.edge)).filter (fun e => conv.contains e))
      convergenceEdges
    bubbleFromConvergence pathGroups refPath.path (group1 :: others)
      (group1.path.length + 1) convergenceEdges

/-- The method `HaplotypeResolver::findVariantSegment`. `none` is undefined behaviour (an
index out of bounds or an invalid range). -/
def findVariantSegment (startEdge : EdgePtr) (alnignments : List GraphAlignment)
    (loopedEdges : List EdgePtr) : Option VariantPaths :=
  let outPaths := alnignments.filterMap (alignmentSuffix startEdge)
  if outPaths.isEmpty then some VariantPaths.empty
  else
    let outPaths := sortOutPaths outPaths
    let pathGroups := outPaths.foldl (fun groups trgPath => addToGroups trgPath groups) []
    let pathGroups := pathGroups.filter (fun p => !(decide (p.score < 2)))
    variantFromGroups loopedEdges pathGroups

/-- Body of the first loop of `findComplexHaplotypes`; the state is `usedEdges` and
`foundVariants`. -/
def variantSearchStep (g : RepeatGraph) (alnIndex : EdgePtr → List GraphAlignment)
    (loopedEdges : List EdgePtr) (st : List (Option EdgePtr) × List VariantPaths)
    (startPath : UnbranchingPath) : Option (List (Option EdgePtr) × List VariantPaths) := do
  let startEdge ← startPath.path.getLast?
  if loopedEdges.contains startEdge then some st
  else if st.1.contains (some startEdge) then some st
  else
    let varSeg ← findVariantSegment startEdge (alnIndex startEdge) loopedEdges
    match varSeg.startEdge, varSeg.endEdge with
    | some segStart, some segEnd =>
      if segStart ≠ g.complementEdge segEnd then
        let revSeg ← findVariantSegment (g.complementEdge segEnd)
          (alnIndex (g.complementEdge segEnd)) loopedEdges
        if revSeg.endEdge = some (g.complementEdge segStart) then
          some (revSeg.startEdge :: st.1, st.2 ++ [varSeg])
        else some st
      else some st
    | _, _ => some st

/-- The edges `branch.path[i].edge` for `1 <= i < branch.path.size() - 1`; `none`
when the path is empty (`size() - 1` wraps around). -/
def innerEdges (path : GraphAlignment) : Option (List EdgePtr) :=
  if path.isEmpty then none
  else some (((path.drop 1).dropLast).map (fun a => a.edge))

/-- Body of the second loop of `findComplexHaplotypes` for one found variant; the
state is `foundNew` and the resolver. -/
def variantMarkStep (env : ResolverEnv) (st : Int × Resolver) (varSegment : VariantPaths) :
    Option (Int × Resolver) := do
  let inner ← varSegment.altPaths.mapM (fun branch => innerEdges branch.path)
  let newVariant := !(inner.flatten.any (fun e => (st.2.graph.edge e).altHaplotype))
  let foundNew := if newVariant then st.1 + 1 else st.1
  let g1 := st.2.graph.markEdges inner.flatten
  let segStart ← varSegment.startEdge
  let segEnd ← varSegment.endEdge
  if ((g1.edge segStart).rightLink.isSome || (g1.edge segEnd).leftLink.isSome) then
    some (foundNew, ⟨g1, st.2.bridgingSeqs⟩)
  else
    let branch0 ← varSegment.altPaths.head?
    let first ← branch0.path.head?
    let last ← branch0.path.getLast?
    let readStart := first.overlap.curEnd
    let readEnd := max (readStart + 100 - 1) last.overlap.curBegin
    let seq := env.readSubstr first.overlap.curId readStart (readEnd - readStart)
    some (foundNew,
      linkAndBridge ⟨g1, st.2.bridgingSeqs⟩ segStart segEnd seq (env.dnaComplement seq))

/-- The set `loopedEdges` built by `findComplexHaplotypes` and `findSuperbubbles`. -/
def loopedEdgesOf (unbranchingPaths : List UnbranchingPath) : List EdgePtr :=
  (unbranchingPaths.filter (fun path => path.isLooped)).flatMap (fun path => path.path)

/-- The method `HaplotypeResolver::findComplexHaplotypes`; it returns `foundVariants.size()`. -/
def findComplexHaplotypes (env : ResolverEnv) (r : Resolver) : Option (Int × Resolver) := do
  let alnIndex := env.makeAlignmentIndex r.graph
  let unbranchingPaths := env.getUnbranchingPaths r.graph
  let loopedEdges := loopedEdgesOf unbranchingPaths
  let found ← unbranchingPaths.foldlM (variantSearchStep r.graph alnIndex loopedEdges) ([], [])
  let marked ← found.2.foldlM (variantMarkStep env) (0, r)
  some ((found.2.length : Int), marked.2)

/-- The `PathWithLen` of `anyPath`. -/
structure PathWithLen where
  path : List EdgePtr
  length : Int
  deriving DecidableEq, Repr

/-- The loop over the out-edges of the last edge of `curPath` in `anyPath`: pushes the
extensions on the stack `queue` (its head is `queue.back()`) and clears `deadEnd`. -/
def anyPathExpand (g : RepeatGraph) (maxDepth : Int) (curPath : PathWithLen) :
    List EdgePtr → List PathWithLen × Bool → List PathWithLen × Bool
  | [], st => st
  | nextEdge :: rest, st =>
    if curPath.path.contains nextEdge then anyPathExpand g maxDepth curPath rest st
    else if (g.edge nextEdge).isLooped && decide ((g.edge nextEdge).length < maxDepth) then
      anyPathExpand g maxDepth curPath rest st
    else
      anyPathExpand g maxDepth curPath rest
        (⟨curPath.path ++ [nextEdge], curPath.length + (g.edge nextEdge).length⟩ :: st.1, false)

/-- The index `maxId` of the first dead end of maximal length. -/
def longestDeadEnd : List PathWithLen → Option PathWithLen
  | [] => none
  | first :: rest =>
    some (rest.foldl (fun best cand => if cand.length > best.length then cand else best) first)

/-- The `while (!queue.empty())` loop of `anyPath` and the code after it; `none` when
`fuel` iterations did not empty the stack. The empty `GraphPath()` is `[]`. -/
def anyPathLoop (g : RepeatGraph) (maxDepth : Int) :
    Nat → List PathWithLen → List PathWithLen → Option (List EdgePtr)
  | _, [], deadEnds =>
    match longestDeadEnd deadEnds with
    | none => some []
    | some best => some best.path
  | 0, _ :: _, _ => none
  | fuel + 1, curPath :: queue, deadEnds =>
    if curPath.length > maxDepth then some curPath.path
    else
      match curPath.path.getLast? with
      | none => none
      | some back =>
        let expanded := anyPathExpand g maxDepth curPath
          (g.node (g.edge back).nodeRight).outEdges (queue, true)
        if expanded.2 then anyPathLoop g maxDepth fuel expanded.1 (deadEnds ++ [curPath])
        else anyPathLoop g maxDepth fuel expanded.1 deadEnds

/-- The lambda `anyPath(startEdge, maxDepth)`, run for at most `fuel` iterations. -/
def anyPath (g : RepeatGraph) (fuel : Nat) (startEdge : EdgePtr) (maxDepth : Int) :
    Option (List EdgePtr) :=
  anyPathLoop g maxDepth fuel [⟨[startEdge], 0⟩] []

/-- The `DijkstraResult` of `getShortestPathsLen`; `dist` is kept as an association
list. -/
structure DijkstraResult where
  dist : List (EdgePtr × Int)
  failure : Bool
  deriving DecidableEq, Repr

/-- The assignment `res.dist[e] = d`. -/
def distSet (dist : List (EdgePtr × Int)) (e : EdgePtr) (d : Int) : List (EdgePtr × Int) :=
  (e, d) :: dist.filter (fun p => p.1 != e)

/-- The element returned by `queue.top()`: an entry of lowest priority (the first of
them in the list), together with the queue after `queue.pop()`. -/
def popLowest : List (EdgePtr × Int) → Option ((EdgePtr × Int) × List (EdgePtr × Int))
  | [] => none
  | first :: rest =>
    let best := rest.foldl (fun best cand => if cand.2 < best.2 then cand else best) first
    some (best, (first :: rest).erase best)

/-- The loop over the out-edges of `curEdge` in `getShortestPathsLen`; the state is
`res.dist`, the queue and whether the loop returned with `failure`. -/
def relaxOutEdges (g : RepeatGraph) (sink : EdgePtr) (maxBubble : Int) (priority : Int) :
    List EdgePtr → List (EdgePtr × Int) × List (EdgePtr × Int) →
      List (EdgePtr × Int) × List (EdgePtr × Int) × Bool
  | [], st => (st.1, st.2, false)
  | nextEdge :: rest, st =>
    if nextEdge = sink then relaxOutEdges g sink maxBubble priority rest st
    else
      let newDist := priority + (g.edge nextEdge).length + 1
      let improves :=
        match st.1.lookup nextEdge with
        | none => true
        | some old => decide (newDist < old)
      if improves then
        if newDist > maxBubble then (st.1, st.2, true)
        else
          relaxOutEdges g sink maxBubble priority rest
            (distSet st.1 nextEdge newDist, st.2 ++ [(nextEdge, newDist)])
      else relaxOutEdges g sink maxBubble priority rest st

/-- The `while (!queue.empty())` loop of `getShortestPathsLen` and the code after it;
`none` when `fuel` iterations did not empty the queue. -/
def dijkstraLoop (g : RepeatGraph) (source sink : EdgePtr) (maxBubble : Int) :
    Nat → List (EdgePtr × Int) → List EdgePtr → List (EdgePtr × Int) → Option DijkstraResult
  | _, [], _, dist => some ⟨dist.filter (fun p => p.1 != source), false⟩
  | 0, _ :: _, _, _ => none
  | fuel + 1, first :: rest, closed, dist =>
    match popLowest (first :: rest) with
    | none => none
    | some (curEdge, queue) =>
      if closed.contains curEdge.1 then dijkstraLoop g source sink maxBubble fuel queue closed dist
      else
        let relaxed := relaxOutEdges g sink maxBubble curEdge.2
          (g.node (g.edge curEdge.1).nodeRight).outEdges (dist, queue)
        if relaxed.2.2 then some ⟨relaxed.1, true⟩
        else
          dijkstraLoop g source sink maxBubble fuel relaxed.2.1 (curEdge.1 :: closed) relaxed.1

/-- The lambda `getShortestPathsLen(source, sink, maxBubble)`, run for at most `fuel`
iterations. -/
def getShortestPathsLen (g : RepeatGraph) (fuel : Nat) (source sink : EdgePtr)
    (maxBubble : Int) : Option DijkstraResult :=
  dijkstraLoop g source sink maxBubble fuel [(source, 0)] [] [(source, 0)]

/-- The struct `Superbubble`; a null `start` / `end` is `none`. -/
structure Superbubble where
  start : Option EdgePtr
  bubbleEnd : Option EdgePtr
  internalEdges : List EdgePtr
  refPath : List EdgePtr
  deriving DecidableEq, Repr

/-- The default-constructed `Superbubble()`. -/
def Superbubble.empty : Superbubble := ⟨none, none, [], []⟩

/-- The flag `goodBubble`: every edge reached from the source has its complement
reached from the sink, with a tour no longer than `maxBubbleLen`. -/
def goodBubble (g : RepeatGraph) (maxBubbleLen : Int) (fromSource fromSink : DijkstraResult) :
    Bool :=
  fromSource.dist.all (fun edgeDist =>
    match fromSink.dist.lookup (g.complementEdge edgeDist.1) with
    | none => false
    | some d =>
      !(decide (edgeDist.2 + d - (g.edge (g.complementEdge edgeDist.1)).length > maxBubbleLen)))

/-- The loop over the candidates `endCand` of `refPath` in `isRightSuperbubble`. -/
def superbubbleScan (g : RepeatGraph) (fuel : Nat) (startEdge : EdgePtr) (maxBubbleLen : Int)
    (refPath : List EdgePtr) : List EdgePtr → Option Superbubble
  | [] => some Superbubble.empty
  | endCand :: rest =>
    if endCand = startEdge then superbubbleScan g fuel startEdge maxBubbleLen refPath rest
    else do
      let distancesFromSource ← getShortestPathsLen g fuel startEdge endCand maxBubbleLen
      let distancesFromSink ← getShortestPathsLen g fuel (g.complementEdge endCand)
        (g.complementEdge startEdge) maxBubbleLen
      if distancesFromSource.failure || distancesFromSink.failure then
        superbubbleScan g fuel startEdge maxBubbleLen refPath rest
      else if goodBubble g maxBubbleLen distancesFromSource distancesFromSink then
        some ⟨some startEdge, some endCand,
          (distancesFromSource.dist.map (fun p => p.1)).filter
            (fun e => e != startEdge && e != endCand),
          refPath⟩
      else superbubbleScan g fuel startEdge maxBubbleLen refPath rest

/-- The function `isRightSuperbubble`; every loop inside runs for at most `fuel`
iterations and the result is `none` when one of them needs more. -/
def isRightSuperbubble (g : RepeatGraph) (fuel : Nat) (startEdge : EdgePtr)
    (maxBubbleLen : Int) : Option Superbubble := do
  let refPath ← anyPath g fuel startEdge maxBubbleLen
  if refPath.isEmpty then some Superbubble.empty
  else superbubbleScan g fuel startEdge maxBubbleLen refPath refPath

/-- Body of the main loop of `findSuperbubbles` for one `startEdge`; the state is
`foundNew`, `usedEdges` and the resolver. `none` is an invalid iterator range for
`bridgePath`, or not enough `fuel`. -/
def superbubbleStep (env : ResolverEnv) (fuel : Nat) (loopedEdges : List EdgePtr)
    (st : Int × List EdgePtr × Resolver) (startEdge : EdgePtr) :
    Option (Int × List EdgePtr × Resolver) :=
  let g := st.2.2.graph
  if loopedEdges.contains startEdge then some st
  else if st.2.1.contains startEdge then some st
  else if (g.node (g.edge startEdge).nodeRight).inEdges.length > 1 ∨
      (g.node (g.edge startEdge).nodeRight).outEdges.length < 2 then some st
  else do
    let fwdBubble ← isRightSuperbubble g fuel startEdge env.MAX_BUBBLE_LEN
    match fwdBubble.bubbleEnd with
    | none => some st
    | some fwdEnd =>
      if startEdge = fwdEnd ∨ startEdge = g.complementEdge fwdEnd then some st
      else
        let revBubble ← isRightSuperbubble g fuel (g.complementEdge fwdEnd) env.MAX_BUBBLE_LEN
        match revBubble.bubbleEnd with
        | none => some st
        | some revEnd =>
          if startEdge ≠ g.complementEdge revEnd then some st
          else
            let usedEdges := g.complementEdge fwdEnd :: st.2.1
            let newVariant := !(fwdBubble.internalEdges.any (fun e => (g.edge e).altHaplotype))
            let foundNew := if newVariant then st.1 + 1 else st.1
            let g1 := g.markEdges fwdBubble.internalEdges
            if ((g1.edge startEdge).rightLink.isSome || (g1.edge fwdEnd).leftLink.isSome) then
              some (foundNew, usedEdges, ⟨g1, st.2.2.bridgingSeqs⟩)
            else
              let endIdx := fwdBubble.refPath.indexOf fwdEnd
              if endIdx < 1 then none
              else
                let bridgePath := (fwdBubble.refPath.take endIdx).drop 1
                let pathSeq := pathSequence g1 bridgePath
                some (foundNew, usedEdges,
                  linkAndBridge ⟨g1, st.2.2.bridgingSeqs⟩ startEdge fwdEnd pathSeq
                    (env.dnaComplement pathSeq))

/-- The method `HaplotypeResolver::findSuperbubbles`, every inner loop running for at most `fuel`
iterations. -/
def findSuperbubbles (env : ResolverEnv) (fuel : Nat) (r : Resolver) :
    Option (Int × Resolver) := do
  let unbranchingPaths := env.getUnbranchingPaths r.graph
  let loopedEdges := loopedEdgesOf unbranchingPaths
  let done ← r.graph.edges.foldlM (superbubbleStep env fuel loopedEdges) (0, [], r)
  some (done.1, done.2.2)

/-- Body of the loop of `resetEdges`: clears both links and the flag of one edge. -/
def RepeatGraph.resetEdge (g : RepeatGraph) (e : EdgePtr) : RepeatGraph :=
  let cleared : GraphEdge :=
    { g.edge e with leftLink := none, rightLink := none, altHaplotype := false }
  { g with edge := Function.update g.edge e cleared }

/-- The method `HaplotypeResolver::resetEdges`. -/
def resetEdges (r : Resolver) : Resolver :=
  ⟨r.graph.edges.foldl RepeatGraph.resetEdge r.graph, []⟩

/-- Complement symmetry of the flag: `altHaplotype(e) == altHaplotype(complementEdge(e))`
for every edge. -/
def AltSymmetric (g : RepeatGraph) : Prop :=
  ∀ e : EdgePtr, (g.edge e).altHaplotype = (g.edge (g.complementEdge e)).altHaplotype

/-- The diamond of scenario S3 on both strands. Forward edges: E = 0 (node 0 to 1),
A = 2 and B = 4 (node 1 to 2), X = 6 (node 2 to 3); the complement of edge `e` is
`exampleRc e`, on nodes 4..7. -/
def diamondEdge (e : EdgePtr) : GraphEdge :=
  match e with
  | 0 => ⟨0, 1, 0, 20000, 30, false, false, none, none, "CCCC"⟩
  | 1 => ⟨6, 7, 1, 20000, 30, false, false, none, none, "GGGG"⟩
  | 2 => ⟨1, 2, 2, 5000, 15, false, false, none, none, "AC"⟩
  | 3 => ⟨5, 6, 3, 5000, 15, false, false, none, none, "GT"⟩
  | 4 => ⟨1, 2, 4, 5000, 16, false, false, none, none, "AG"⟩
  | 5 => ⟨5, 6, 5, 5000, 16, false, false, none, none, "CT"⟩
  | 6 => ⟨2, 3, 6, 20000, 30, false, false, none, none, "TTTT"⟩
  | 7 => ⟨4, 5, 7, 20000, 30, false, false, none, none, "AAAA"⟩
  | _ => ⟨0, 0, 0, 0, 0, false, false, none, none, ""⟩

/-- The nodes of the diamond. -/
def diamondNode (n : NodePtr) : GraphNode :=
  match n with
  | 0 => ⟨[], [0]⟩
  | 1 => ⟨[0], [2, 4]⟩
  | 2 => ⟨[2, 4], [6]⟩
  | 3 => ⟨[6], []⟩
  | 4 => ⟨[], [7]⟩
  | 5 => ⟨[7], [3, 5]⟩
  | 6 => ⟨[3, 5], [1]⟩
  | 7 => ⟨[1], []⟩
  | _ => ⟨[], []⟩

/-- The diamond graph. -/
def diamondGraph : RepeatGraph :=
  ⟨[0, 1, 2, 3, 4, 5, 6, 7], diamondEdge, diamondNode, 8, exampleRc⟩

/-- One unbranching path per edge of a graph. -/
def singleEdgePaths (g : RepeatGraph) : List UnbranchingPath :=
  g.edges.map (fun e =>
    ⟨[e], (g.edge e).edgeId, (g.edge e).length, (g.edge e).meanCoverage,
      (g.edge e).nodeLeft, (g.edge e).nodeRight, (g.edge e).isLooped⟩)

/-- An environment for examples: `MAX_BUBBLE_LEN = 50000`, every edge its own
unbranching path, no read alignments. -/
def exampleResolverEnv : ResolverEnv where
  MAX_BUBBLE_LEN := 50000
  rc := exampleRc
  strand := fun i => i % 2 == 0
  getUnbranchingPaths := singleEdgePaths
  dnaComplement := fun s => s
  makeAlignmentIndex := fun _ _ => []
  readSubstr := fun _ _ _ => "A"

/-- The relation between the graph before and after a detection step: the complement
map is the same, complement symmetry of `altHaplotype` carries over, and no flag goes
from `true` to `false`. -/
def AltGrows (g g2 : RepeatGraph) : Prop :=
  g2.complementEdge = g.complementEdge ∧
  (AltSymmetric g → AltSymmetric g2) ∧
  (∀ e : EdgePtr, (g.edge e).altHaplotype = true → (g2.edge e).altHaplotype = true)

/-- Link consistency: for all edges `e` and `f`, `e.rightLink == f` iff
`f.leftLink == e` iff `complement(f).rightLink == complement(e)`. -/
def LinkConsistent (g : RepeatGraph) : Prop :=
  ∀ e f : EdgePtr,
    ((g.edge e).rightLink = some f ↔ (g.edge f).leftLink = some e) ∧
    ((g.edge f).leftLink = some e ↔
      (g.edge (g.complementEdge f)).rightLink = some (g.complementEdge e))

/-- The relation between the graph before and after a detection step, for links: the
complement map is the same and, when the links were consistent before, they are
consistent afterwards and every link that was set is still set to the same edge. -/
def LinkGrows (g g2 : RepeatGraph) : Prop :=
  g2.complementEdge = g.complementEdge ∧
  (LinkConsistent g →
    LinkConsistent g2 ∧
    (∀ e f : EdgePtr, (g.edge e).rightLink = some f → (g2.edge e).rightLink = some f) ∧
    (∀ e f : EdgePtr, (g.edge e).leftLink = some f → (g2.edge e).leftLink = some f))

/-- The graph changes a detection phase makes: marking the edges of a path and their
complements, and the linking tail `linkAndBridge`, in any sequence. -/
inductive DetectStep : RepeatGraph → RepeatGraph → Prop
  | refl (g : RepeatGraph) : DetectStep g g
  | mark (g : RepeatGraph) (path : List EdgePtr) : DetectStep g (g.markEdges path)
  | link (g : RepeatGraph) (b : BridgingSeqs) (inEdge outEdge : EdgePtr)
      (seq seqCompl : DnaSequence) :
      DetectStep g (linkAndBridge ⟨g, b⟩ inEdge outEdge seq seqCompl).graph
  | trans {g g2 g3 : RepeatGraph} : DetectStep g g2 → DetectStep g2 g3 → DetectStep g g3

/-- The reverse complement of a DNA string (`A` with `T`, `C` with `G`), for examples. -/
def exampleRevComp (s : DnaSequence) : DnaSequence :=
  String.mk (s.data.reverse.map (fun c =>
    if c = 'A' then 'T' else if c = 'T' then 'A' else if c = 'C' then 'G'
    else if c = 'G' then 'C' else c))

/-- The loop of scenario S4 on both strands, with the mean coverages of the loop, the
entrance and the exit as parameters. Forward edges: entrance 0 (node 0 to 1, length
10,000), loop 2 (node 1 to 1, length 2,000), exit 4 (node 1 to 2, length 10,000); the
complement of edge `e` is `exampleRc e`, on nodes 3..5. -/
def loopEdge (covLoop covEntrance covExit : Int) (e : EdgePtr) : GraphEdge :=
  match e with
  | 0 => ⟨0, 1, 0, 10000, covEntrance, false, false, none, none, "CCCC"⟩
  | 1 => ⟨4, 5, 1, 10000, covEntrance, false, false, none, none, "GGGG"⟩
  | 2 => ⟨1, 1, 2, 2000, covLoop, false, false, none, none, "ACG"⟩
  | 3 => ⟨4, 4, 3, 2000, covLoop, false, false, none, none, "CGT"⟩
  | 4 => ⟨1, 2, 4, 10000, covExit, false, false, none, none, "TTTT"⟩
  | 5 => ⟨3, 4, 5, 10000, covExit, false, false, none, none, "AAAA"⟩
  | _ => ⟨0, 0, 0, 0, 0, false, false, none, none, ""⟩

/-- The nodes of the loop graph. -/
def loopNode (n : NodePtr) : GraphNode :=
  match n with
  | 0 => ⟨[], [0]⟩
  | 1 => ⟨[0, 2], [2, 4]⟩
  | 2 => ⟨[4], []⟩
  | 3 => ⟨[], [5]⟩
  | 4 => ⟨[5, 3], [3, 1]⟩
  | 5 => ⟨[1], []⟩
  | _ => ⟨[], []⟩

/-- The loop graph. -/
def loopGraph (covLoop covEntrance covExit : Int) : RepeatGraph :=
  ⟨[0, 1, 2, 3, 4, 5], loopEdge covLoop covEntrance covExit, loopNode, 6, exampleRc⟩

/-- The example environment with `DnaSequence::complement` the reverse complement. -/
def revCompEnv : ResolverEnv :=
  { exampleResolverEnv with dnaComplement := exampleRevComp }

/-- The parts of the graph that the detection phases never write: the edge list, the
nodes with their incidence lists, the complement map, and for every edge its end nodes,
id, length, mean coverage, `selfComplement` flag and sequence. -/
def SameTopology (g g2 : RepeatGraph) : Prop :=
  g2.edges = g.edges ∧ g2.node = g.node ∧ g2.numNodes = g.numNodes ∧
  g2.complementEdge = g.complementEdge ∧
  ∀ e : EdgePtr,
    (g2.edge e).nodeLeft = (g.edge e).nodeLeft ∧
    (g2.edge e).nodeRight = (g.edge e).nodeRight ∧
    (g2.edge e).edgeId = (g.edge e).edgeId ∧
    (g2.edge e).length = (g.edge e).length ∧
    (g2.edge e).meanCoverage = (g.edge e).meanCoverage ∧
    (g2.edge e).selfComplement = (g.edge e).selfComplement ∧
    (g2.edge e).seq = (g.edge e).seq

/-- The registration made by one iteration of the main loop of `findHeterozygousBulges`
on `path`, from state `st` to state `st2`: the two paths `t0`, `t1` sharing both end
nodes with `path`, `t0` of mean coverage at most that of `t1`; the entrance and exit
paths with `inEdge` the entrance's last edge and `outEdge` the exit's first edge; the
map after is the map before with the path sequence of `t0` under `(inEdge, outEdge)`
and its complement under `(complement(outEdge), complement(inEdge))`; and the links
`inEdge → outEdge`, `complement(outEdge) → complement(inEdge)` are installed. -/
def BulgeRegistered (env : ResolverEnv) (unbranchingPaths : List UnbranchingPath)
    (st st2 : Int × Resolver) (path : UnbranchingPath) : Prop :=
  ∃ (t0 t1 entrancePath exitPath : UnbranchingPath) (inEdge outEdge : EdgePtr),
    (unbranchingPaths.filter
        (fun candEdge => candEdge.nodeLeft == path.nodeLeft &&
          candEdge.nodeRight == path.nodeRight) = [t0, t1] ∨
      unbranchingPaths.filter
        (fun candEdge => candEdge.nodeLeft == path.nodeLeft &&
          candEdge.nodeRight == path.nodeRight) = [t1, t0]) ∧
    t0.meanCoverage ≤ t1.meanCoverage ∧
    lastPathWhere (fun cand => cand.nodeRight == path.nodeLeft) unbranchingPaths =
      some entrancePath ∧
    lastPathWhere (fun cand => cand.nodeLeft == path.nodeRight) unbranchingPaths =
      some exitPath ∧
    entrancePath.path.getLast? = some inEdge ∧
    exitPath.path.head? = some outEdge ∧
    st2.2.bridgingSeqs =
      (st.2.bridgingSeqs.set (inEdge, outEdge) (pathSequence st.2.graph t0.path)).set
        (st.2.graph.complementEdge outEdge, st.2.graph.complementEdge inEdge)
        (env.dnaComplement (pathSequence st.2.graph t0.path)) ∧
    ((inEdge, outEdge) ≠
        (st.2.graph.complementEdge outEdge, st.2.graph.complementEdge inEdge) →
      st2.2.bridgingSeqs.lookup (inEdge, outEdge) =
        some (pathSequence st.2.graph t0.path)) ∧
    (st2.2.graph.edge inEdge).rightLink = some outEdge ∧
    (st2.2.graph.edge outEdge).leftLink = some inEdge ∧
    (st2.2.graph.edge (st.2.graph.complementEdge outEdge)).rightLink =
      some (st.2.graph.complementEdge inEdge) ∧
    (st2.2.graph.edge (st.2.graph.complementEdge inEdge)).leftLink =
      some (st.2.graph.complementEdge outEdge)

/-- The unbranching path of branch `A` (edge 2) of the diamond. -/
def diamondPathA : UnbranchingPath := ⟨[2], 2, 5000, 15, 1, 2, false⟩

/-- A bubble accepted by `findHeterozygousBulges`: `p0` and `p1` are exactly the two
unbranching paths sharing both end nodes, both non-looped and not reverse complements
of each other; the left node has in-degree 1 and out-degree 2, the right node
in-degree 2 and out-degree 1; `entrancePath` ends at the left node and `exitPath`
starts at the right node, and they are neither identical nor complements; both branches
have length at most `MAX_BUBBLE_LEN`. -/
def AcceptedBubble (env : ResolverEnv) (unbranchingPaths : List UnbranchingPath)
    (node : NodePtr → GraphNode) (p0 p1 entrancePath exitPath : UnbranchingPath) : Prop :=
  unbranchingPaths.filter
      (fun candEdge => candEdge.nodeLeft == p0.nodeLeft &&
        candEdge.nodeRight == p0.nodeRight) = [p0, p1] ∧
  p0.isLooped = false ∧ p1.isLooped = false ∧
  p0.id ≠ env.rc p1.id ∧
  (node p0.nodeLeft).inEdges.length = 1 ∧ (node p0.nodeLeft).outEdges.length = 2 ∧
  (node p0.nodeRight).inEdges.length = 2 ∧ (node p0.nodeRight).outEdges.length = 1 ∧
  entrancePath ∈ unbranchingPaths ∧ entrancePath.nodeRight = p0.nodeLeft ∧
  exitPath ∈ unbranchingPaths ∧ exitPath.nodeLeft = p0.nodeRight ∧
  entrancePath.id ≠ exitPath.id ∧ entrancePath.id ≠ env.rc exitPath.id ∧
  p0.length ≤ env.MAX_BUBBLE_LEN ∧ p1.length ≤ env.MAX_BUBBLE_LEN

/-- The registration made by one iteration of the main loop of `findHeterozygousLoops`
on `loop`, from state `st` to state `st2`: with `entrancePath` and `exitPath` the other
paths ending and starting at the loop's node, `inEdge` the entrance's last edge and
`outEdge` the exit's first edge, the map after is the map before with, under
`(inEdge, outEdge)`, the stub `"A"` when
`loop.meanCoverage < (entrance.meanCoverage + exit.meanCoverage) / 4` in integer
division and the loop's path sequence otherwise, and under the complement pair `"A"`,
respectively the complement of the loop's path sequence. -/
def LoopRegistered (env : ResolverEnv) (unbranchingPaths : List UnbranchingPath)
    (st st2 : Int × Resolver) (loop : UnbranchingPath) : Prop :=
  ∃ (entrancePath exitPath : UnbranchingPath) (inEdge outEdge : EdgePtr),
    lastPathWhere (fun cand => cand.nodeRight == loop.nodeLeft && loop.id != cand.id)
      unbranchingPaths = some entrancePath ∧
    lastPathWhere (fun cand => cand.nodeLeft == loop.nodeLeft && loop.id != cand.id)
      unbranchingPaths = some exitPath ∧
    entrancePath.path.getLast? = some inEdge ∧
    exitPath.path.head? = some outEdge ∧
    st2.2.bridgingSeqs =
      (st.2.bridgingSeqs.set (inEdge, outEdge)
        (if loop.meanCoverage <
            Int.tdiv (entrancePath.meanCoverage + exitPath.meanCoverage) 4 then "A"
          else pathSequence st.2.graph loop.path)).set
        (st.2.graph.complementEdge outEdge, st.2.graph.complementEdge inEdge)
        (if loop.meanCoverage <
            Int.tdiv (entrancePath.meanCoverage + exitPath.meanCoverage) 4 then "A"
          else env.dnaComplement (pathSequence st.2.graph loop.path)) ∧
    ((inEdge, outEdge) ≠
        (st.2.graph.complementEdge outEdge, st.2.graph.complementEdge inEdge) →
      st2.2.bridgingSeqs.lookup (inEdge, outEdge) =
        some (if loop.meanCoverage <
            Int.tdiv (entrancePath.meanCoverage + exitPath.meanCoverage) 4 then "A"
          else pathSequence st.2.graph loop.path))

/-- The unbranching path of the loop (edge 2) of the loop graph. -/
def loopPathL (covLoop : Int) : UnbranchingPath := ⟨[2], 2, 2000, covLoop, 1, 1, true⟩

/-- The shape of a clipped branch: at least two edges, from `startE` to `endE`. -/
def GoodBranch (startE endE : EdgePtr) (b : PathWithScore) : Prop :=
  2 ≤ b.path.length ∧ b.path.head?.map (fun a => a.edge) = some startE ∧
    b.path.getLast?.map (fun a => a.edge) = some endE

/-- A group agrees with the reference path on the edges at the indices `0..i`, which
exist in both. -/
def AgreeUpTo (refPath : GraphAlignment) (i : Nat) (g : PathWithScore) : Prop :=
  i < refPath.length ∧ i < g.path.length ∧
    (g.path.take (i + 1)).map (fun a => a.edge) = (refPath.take (i + 1)).map (fun a => a.edge)

/-- A path meets `startE` exactly once at index `pre.length`, and `endE` exactly once,
later. -/
def ClipsAt (startE endE : EdgePtr) (n : Nat) (p : GraphAlignment) : Prop :=
  ∃ pre a mid b post, p = pre ++ a :: (mid ++ b :: post) ∧ pre.length = n ∧
    a.edge = startE ∧ b.edge = endE ∧
    (∀ x ∈ mid ++ b :: post, x.edge ≠ startE) ∧ (∀ x ∈ post, x.edge ≠ endE)

/-- A read alignment for examples: read `readId` crosses the edges `edges` in this order,
1000 bases apart. -/
def exampleAlignment (readId : Nat) (edges : List EdgePtr) : GraphAlignment :=
  edges.enum.map (fun p => ⟨⟨readId, 1000 * p.1, 1000 * p.1 + 900, 0, 0, 0⟩, p.2⟩)

/-- Reads over the diamond: two along each branch `E A X` and `E B X`, and their
reverse complements. -/
def diamondAlignments : List GraphAlignment :=
  [exampleAlignment 10 [0, 2, 6], exampleAlignment 12 [0, 2, 6],
   exampleAlignment 14 [0, 4, 6], exampleAlignment 16 [0, 4, 6],
   exampleAlignment 11 [7, 3, 1], exampleAlignment 13 [7, 3, 1],
   exampleAlignment 15 [7, 5, 1], exampleAlignment 17 [7, 5, 1]]

/-- The example environment with the reads `diamondAlignments`; the alignment index of an
edge lists the alignments that cross it. -/
def alignedEnv : ResolverEnv :=
  { exampleResolverEnv with
    makeAlignmentIndex := fun _ e =>
      diamondAlignments.filter (fun aln => aln.any (fun a => a.edge == e)) }

/-- The counter `foundNew` at the end of `findComplexHaplotypes`, the number that the
method writes to the log as "Masked ... complex haplotypes". -/
def complexFoundNew (env : ResolverEnv) (r : Resolver) : Option Int := do
  let alnIndex := env.makeAlignmentIndex r.graph
  let unbranchingPaths := env.getUnbranchingPaths r.graph
  let loopedEdges := loopedEdgesOf unbranchingPaths
  let found ← unbranchingPaths.foldlM (variantSearchStep r.graph alnIndex loopedEdges) ([], [])
  let marked ← found.2.foldlM (variantMarkStep env) (0, r)
  some marked.1

/-- A walk of successive out-edges that starts at `source` and never enters `sink`:
`SinkFreeWalk g source sink e c` says that such a walk ends in the edge `e` and that `c`
is the sum of `length + 1` over its edges after `source`. -/
inductive SinkFreeWalk (g : RepeatGraph) (source sink : EdgePtr) : EdgePtr → Int → Prop
  | start : SinkFreeWalk g source sink source 0
  | step {e : EdgePtr} {c : Int} (n : EdgePtr) :
      SinkFreeWalk g source sink e c →
      n ∈ (g.node (g.edge e).nodeRight).outEdges → n ≠ sink →
      SinkFreeWalk g source sink n (c + (g.edge n).length + 1)

/-- The number of out-edges of the head node of an edge. -/
def outDegree (g : RepeatGraph) (e : EdgePtr) : Nat :=
  (g.node (g.edge e).nodeRight).outEdges.length

/-- A number of iterations that empties the queue of `getShortestPathsLen`: one push for
the source and one for each out-edge of each edge of the graph. -/
def dijkstraFuel (g : RepeatGraph) : Nat :=
  1 + (g.edges.map (outDegree g)).sum

/-- The pushes still possible when the edges `closed` are closed: the out-edges of the
other edges of the graph. -/
def openWork (g : RepeatGraph) (closed : List EdgePtr) : Nat :=
  ((g.edges.filter (fun e => !closed.contains e)).map (outDegree g)).sum

/-- The invariant of the loop of `getShortestPathsLen`, stated while the out-edges
`pending` of the edge `cur` are still to be relaxed (between two iterations `pending` is
empty). -/
structure DijkstraInv (g : RepeatGraph) (source sink : EdgePtr) (maxBubble : Int)
    (dist queue : List (EdgePtr × Int)) (closed : List EdgePtr) (cur : EdgePtr)
    (pending : List EdgePtr) : Prop where
  /-- The source keeps the distance 0. -/
  source_zero : dist.lookup source = some 0
  /-- Every stored distance is the cost of a walk. -/
  sound : ∀ x d, dist.lookup x = some d → SinkFreeWalk g source sink x d
  /-- Every stored distance of another edge than the source is at most `maxBubble`, and
  the sink is no key. -/
  bounded : ∀ x d, dist.lookup x = some d → x ≠ source → d ≤ maxBubble ∧ x ≠ sink
  /-- Every queue entry is an edge of the graph with a stored distance not above its
  priority. -/
  queued : ∀ y ∈ queue, y.1 ∈ g.edges ∧ 0 ≤ y.2 ∧ ∃ d, dist.lookup y.1 = some d ∧ d ≤ y.2
  /-- Every edge with a distance that is not closed is in the queue with that distance. -/
  open_queued : ∀ x d, dist.lookup x = some d → x ∉ closed → (x, d) ∈ queue
  /-- The out-edges of a closed edge are relaxed, the pending ones of `cur` apart. -/
  relaxed : ∀ x ∈ closed, ∀ d, dist.lookup x = some d →
    ∀ n ∈ (g.node (g.edge x).nodeRight).outEdges, n ≠ sink →
      (x = cur ∧ n ∈ pending) ∨ ∃ dn, dist.lookup n = some dn ∧ dn ≤ d + (g.edge n).length + 1
  /-- A closed edge has a distance, not above any priority in the queue. -/
  closed_low : ∀ x ∈ closed, ∃ d, dist.lookup x = some d ∧ ∀ y ∈ queue, d ≤ y.2

/-- The sum of the lengths of the edges of a path, its first and its last edge apart. -/
def innerLength (g : RepeatGraph) (path : List EdgePtr) : Int :=
  (((path.drop 1).dropLast).map (fun e => (g.edge e).length)).sum

/-- The value of `deadEnd` for a path: every out-edge of the right node of its last edge
is on the path already or is a loop shorter than `maxDepth`. -/
def isDeadEnd (g : RepeatGraph) (maxDepth : Int) (path : List EdgePtr) : Bool :=
  match path.getLast? with
  | none => true
  | some back =>
    (g.node (g.edge back).nodeRight).outEdges.all (fun nextEdge =>
      path.contains nextEdge ||
        ((g.edge nextEdge).isLooped && decide ((g.edge nextEdge).length < maxDepth)))

/-- The diamond with an entrance and an exit of length 1,000, shorter than the two
branches of length 5,000. -/
def shortArmsGraph : RepeatGraph :=
  { diamondGraph with
    edge := fun e =>
      if e = 0 ∨ e = 1 ∨ e = 6 ∨ e = 7 then { diamondEdge e with length := 1000 }
      else diamondEdge e }

/-- Modelled from the spec: `RepeatGraph::addNode` (declared in `repeat_graph.h`) creates
a node without edges; the new pointer is `numNodes`. -/
def RepeatGraph.addNode (g : RepeatGraph) : NodePtr × RepeatGraph :=
  (g.numNodes,
    { g with node := Function.update g.node g.numNodes ⟨[], []⟩, numNodes := g.numNodes + 1 })

/-- Modelled from the spec: `vecRemove(v, x)` (declared in `utils.h`) detaches `x` from
the vector `v`. -/
def vecRemove (v : List EdgePtr) (x : EdgePtr) : List EdgePtr :=
  v.filter (fun y => y != x)

/-- The assignment of a new value to the node behind a pointer. -/
def RepeatGraph.setNode (g : RepeatGraph) (n : NodePtr) (v : GraphNode) : RepeatGraph :=
  { g with node := Function.update g.node n v }

/-- The assignment of a new value to the edge behind a pointer. -/
def RepeatGraph.setEdge (g : RepeatGraph) (e : EdgePtr) (v : GraphEdge) : RepeatGraph :=
  { g with edge := Function.update g.edge e v }

/-- The method `HaplotypeResolver::separeteAdjacentEdges`, statement by statement. -/
def separeteAdjacentEdges (g : RepeatGraph) (inEdge outEdge : EdgePtr) : RepeatGraph :=
  let newNode := g.addNode.1
  let g := g.addNode.2
  let right := (g.edge inEdge).nodeRight
  let g := g.setNode right
    { g.node right with inEdges := vecRemove (g.node right).inEdges inEdge }
  let g := g.setEdge inEdge { g.edge inEdge with nodeRight := newNode }
  let g := g.setNode newNode
    { g.node newNode with inEdges := (g.node newNode).inEdges ++ [inEdge] }
  let left := (g.edge outEdge).nodeLeft
  let g := g.setNode left
    { g.node left with outEdges := vecRemove (g.node left).outEdges outEdge }
  let g := g.setEdge outEdge { g.edge outEdge with nodeLeft := newNode }
  g.setNode newNode { g.node newNode with outEdges := (g.node newNode).outEdges ++ [outEdge] }

/-- The incidence invariant: every edge of the graph is an in-edge of its right node and
an out-edge of its left node. -/
def Incidence (g : RepeatGraph) : Prop :=
  ∀ e ∈ g.edges, e ∈ (g.node (g.edge e).nodeRight).inEdges ∧
    e ∈ (g.node (g.edge e).nodeLeft).outEdges

/-- The superbubble of scenario S5 on both strands. Forward edges: start `s` = 0 (node 0
to 1), three branches 2, 4, 6 of length 3,000 (node 1 to 2), end `e` = 8 (node 2 to 3);
the complement of edge `x` is `exampleRc x`, on nodes 4..7. -/
def s5Edge (x : EdgePtr) : GraphEdge :=
  match x with
  | 0 => ⟨0, 1, 0, 20000, 30, false, false, none, none, "CCCC"⟩
  | 1 => ⟨6, 7, 1, 20000, 30, false, false, none, none, "GGGG"⟩
  | 2 => ⟨1, 2, 2, 3000, 10, false, false, none, none, "AC"⟩
  | 3 => ⟨5, 6, 3, 3000, 10, false, false, none, none, "GT"⟩
  | 4 => ⟨1, 2, 4, 3000, 10, false, false, none, none, "AG"⟩
  | 5 => ⟨5, 6, 5, 3000, 10, false, false, none, none, "CT"⟩
  | 6 => ⟨1, 2, 6, 3000, 10, false, false, none, none, "AT"⟩
  | 7 => ⟨5, 6, 7, 3000, 10, false, false, none, none, "AT"⟩
  | 8 => ⟨2, 3, 8, 20000, 30, false, false, none, none, "TTTT"⟩
  | 9 => ⟨4, 5, 9, 20000, 30, false, false, none, none, "AAAA"⟩
  | _ => ⟨0, 0, 0, 0, 0, false, false, none, none, ""⟩

/-- The nodes of the graph of scenario S5. -/
def s5Node (n : NodePtr) : GraphNode :=
  match n with
  | 0 => ⟨[], [0]⟩
  | 1 => ⟨[0], [2, 4, 6]⟩
  | 2 => ⟨[2, 4, 6], [8]⟩
  | 3 => ⟨[8], []⟩
  | 4 => ⟨[], [9]⟩
  | 5 => ⟨[9], [3, 5, 7]⟩
  | 6 => ⟨[3, 5, 7], [1]⟩
  | 7 => ⟨[1], []⟩
  | _ => ⟨[], []⟩

/-- The graph of scenario S5. -/
def s5Graph : RepeatGraph :=
  ⟨[0, 1, 2, 3, 4, 5, 6, 7, 8, 9], s5Edge, s5Node, 8, exampleRc⟩

/-- A bound on the number of paths that `anyPath` pops below a path that can still grow
by `m` edges, when no edge has more than `d` out-edges. -/
def anyPathWork (d : Nat) : Nat → Nat
  | 0 => 1
  | m + 1 => 1 + d * anyPathWork d m

/-- A number of iterations that empties the stack of `anyPath`. -/
def anyPathFuel (g : RepeatGraph) : Nat :=
  anyPathWork ((g.edges.map (outDegree g)).sum) (g.edges.dedup.length - 1)

/-- The iterations that the paths on the stack of `anyPath` can still cause. -/
def stackWork (g : RepeatGraph) (queue : List PathWithLen) : Nat :=
  (queue.map (fun q => anyPathWork ((g.edges.map (outDegree g)).sum)
    (g.edges.dedup.length - q.path.length))).sum

/-- The shape of the paths built by `anyPath`: the first edge is `startEdge`, each edge
after the first is an out-edge of the right node of its predecessor, no edge occurs
twice, and all edges are edges of the graph. -/
def PathOk (g : RepeatGraph) (startEdge : EdgePtr) (path : List EdgePtr) : Prop :=
  path.head? = some startEdge ∧
    path.Chain' (fun a b => b ∈ (g.node (g.edge a).nodeRight).outEdges) ∧
    path.Nodup ∧ ∀ e ∈ path, e ∈ g.edges

/-- The length that `anyPath` keeps with a path: the sum of the lengths of its edges after
the first one. -/
def accumulatedLength (g : RepeatGraph) (path : List EdgePtr) : Int :=
  ((path.drop 1).map (fun e => (g.edge e).length)).sum

/-- The paths that `anyPath(startEdge, maxDepth)` pushes when no path stops the search:
`[startEdge]`, and every extension of such a path of accumulated length at most `maxDepth`
by an out-edge of the right node of its last edge that is not on the path and is not a
loop shorter than `maxDepth`. -/
inductive Explored (g : RepeatGraph) (maxDepth : Int) (startEdge : EdgePtr) :
    List EdgePtr → Prop
  | start : Explored g maxDepth startEdge [startEdge]
  | step {path : List EdgePtr} {back : EdgePtr} (nextEdge : EdgePtr) :
      Explored g maxDepth startEdge path → accumulatedLength g path ≤ maxDepth →
      path.getLast? = some back →
      nextEdge ∈ (g.node (g.edge back).nodeRight).outEdges → nextEdge ∉ path →
      ¬ ((g.edge nextEdge).isLooped = true ∧ (g.edge nextEdge).length < maxDepth) →
      Explored g maxDepth startEdge (path ++ [nextEdge])

/-! # Theorems -/

/-! ## Theorems: read-coverage profile -/

theorem windowIndex_eq_some {FLANK : Int} {size : Nat} {pos : Int} {j : Nat}
    (h : windowIndex FLANK size pos = some j) : j < size ∧ (j : Int) = pos - FLANK := by
  unfold windowIndex at h
  split at h
  · injection h with h
    omega
  · exact absurd h (by simp)

theorem coverWindows_length (FLANK : Int) (n : Nat) :
    ∀ (pos : Int) (coverage : List Int),
      (coverWindows FLANK pos n coverage).length = coverage.length := by
  induction n with
  | zero => intro pos coverage; rfl
  | succ n ih =>
    intro pos coverage
    unfold coverWindows
    split
    · rw [ih, List.length_modify]
    · rw [ih]

theorem coverWindows_getElem? (FLANK : Int) (n : Nat) :
    ∀ (pos : Int) (coverage : List Int) (i : Nat),
      (coverWindows FLANK pos n coverage)[i]? =
        (coverage[i]?).map
          (fun c => c + if pos ≤ (i : Int) + FLANK ∧ (i : Int) + FLANK < pos + n then 1 else 0) := by
  induction n with
  | zero =>
    intro pos coverage i
    have h0 : ¬ (pos ≤ (i : Int) + FLANK ∧ (i : Int) + FLANK < pos + ((0 : Nat) : Int)) := by omega
    unfold coverWindows
    rw [if_neg h0]
    cases coverage[i]? <;> simp
  | succ n ih =>
    intro pos coverage i
    unfold coverWindows
    split
    next j hj =>
      have hj2 := windowIndex_eq_some hj
      rw [ih, List.getElem?_modify]
      cases hci : coverage[i]? with
      | none => simp
      | some c =>
        simp only [Option.map_some', Option.some.injEq, Functor.map]
        by_cases hji : j = i
        · subst hji
          rw [if_pos rfl, if_neg (by omega), if_pos (by omega)]
          omega
        · rw [if_neg hji]
          by_cases hin : pos + 1 ≤ (i : Int) + FLANK ∧ (i : Int) + FLANK < pos + 1 + n
          · rw [if_pos hin, if_pos (by omega)]
          · rw [if_neg hin, if_neg (by omega)]
    next hj =>
      rw [ih]
      cases hci : coverage[i]? with
      | none => simp
      | some c =>
        have hi : i < coverage.length := (List.getElem?_eq_some.mp hci).1
        have hg : ¬ (0 ≤ pos - FLANK ∧ pos - FLANK < (coverage.length : Int)) := by
          intro hg
          simp [windowIndex, hg] at hj
        simp only [Option.map_some', Option.some.injEq]
        by_cases hin : pos + 1 ≤ (i : Int) + FLANK ∧ (i : Int) + FLANK < pos + 1 + n
        · rw [if_pos hin, if_pos (by omega)]
        · rw [if_neg hin, if_neg (by omega)]

theorem coverOverlap_length (env : ChimeraEnv) (FLANK : Int) (coverage : List Int)
    (ovlp : OverlapRange) : (coverOverlap env FLANK coverage ovlp).length = coverage.length := by
  unfold coverOverlap
  split
  · rfl
  · exact coverWindows_length _ _ _ _

theorem coverOverlap_getElem? (env : ChimeraEnv) (FLANK : Int) (coverage : List Int)
    (ovlp : OverlapRange) (i : Nat) :
    (coverOverlap env FLANK coverage ovlp)[i]? =
      (coverage[i]?).map (fun c => c + if coversWindow env FLANK i ovlp then 1 else 0) := by
  unfold coverOverlap coversWindow
  split
  next hself =>
    cases coverage[i]? <;> simp [hself]
  next hself =>
    rw [coverWindows_getElem?]
    cases coverage[i]? with
    | none => simp
    | some c =>
      simp only [Option.map_some', Option.some.injEq, decide_eq_true_eq]
      by_cases hin : Int.tdiv ovlp.curBegin env.WINDOW < (i : Int) + FLANK ∧
          (i : Int) + FLANK < Int.tdiv ovlp.curEnd env.WINDOW
      · rw [if_pos (by omega), if_pos ⟨hself, hin⟩]
      · rw [if_neg (by omega), if_neg (fun h => hin h.2)]

theorem foldl_coverOverlap_length (env : ChimeraEnv) (FLANK : Int)
    (ovlps : List OverlapRange) :
    ∀ coverage : List Int,
      (ovlps.foldl (coverOverlap env FLANK) coverage).length = coverage.length := by
  induction ovlps with
  | nil => intro coverage; rfl
  | cons o rest ih =>
    intro coverage
    rw [List.foldl_cons, ih, coverOverlap_length]

theorem foldl_coverOverlap_getElem? (env : ChimeraEnv) (FLANK : Int)
    (ovlps : List OverlapRange) (i : Nat) :
    ∀ coverage : List Int,
      (ovlps.foldl (coverOverlap env FLANK) coverage)[i]? =
        (coverage[i]?).map
          (fun (c : Int) => c + ((ovlps.countP (coversWindow env FLANK i) : Nat) : Int)) := by
  induction ovlps with
  | nil => intro coverage; cases h : coverage[i]? <;> simp [h]
  | cons o rest ih =>
    intro coverage
    rw [List.foldl_cons, ih, coverOverlap_getElem?, List.countP_cons]
    cases coverage[i]? with
    | none => simp
    | some c =>
      simp only [Option.map_some', Option.some.injEq]
      by_cases hc : coversWindow env FLANK i o = true
      · simp [hc]; omega
      · simp [hc]

theorem getReadCoverage_short (env : ChimeraEnv) (readId : ReadId)
    (readOverlaps : List OverlapRange)
    (hshort : Int.tdiv (env.seqLen readId) env.WINDOW -
      2 * Int.tdiv env.maximum_overhang env.WINDOW ≤ 0) :
    getReadCoverage env readId readOverlaps = [0] := by
  unfold getReadCoverage
  simp only [if_pos hshort]

theorem getReadCoverage_long (env : ChimeraEnv) (readId : ReadId)
    (readOverlaps : List OverlapRange)
    (hlong : 0 < Int.tdiv (env.seqLen readId) env.WINDOW -
      2 * Int.tdiv env.maximum_overhang env.WINDOW) :
    getReadCoverage env readId readOverlaps =
      readOverlaps.foldl (coverOverlap env (Int.tdiv env.maximum_overhang env.WINDOW))
        (List.replicate (Int.tdiv (env.seqLen readId) env.WINDOW -
          2 * Int.tdiv env.maximum_overhang env.WINDOW).toNat 0) := by
  unfold getReadCoverage
  simp only [if_neg (not_le.mpr hlong)]

theorem getReadCoverage_nonneg (env : ChimeraEnv) (readId : ReadId)
    (readOverlaps : List OverlapRange) :
    ∀ c ∈ getReadCoverage env readId readOverlaps, 0 ≤ c := by
  intro c hc
  by_cases hshort : Int.tdiv (env.seqLen readId) env.WINDOW -
      2 * Int.tdiv env.maximum_overhang env.WINDOW ≤ 0
  · rw [getReadCoverage_short env readId readOverlaps hshort] at hc
    simp at hc
    omega
  · rw [getReadCoverage_long env readId readOverlaps (not_le.mp hshort)] at hc
    obtain ⟨i, hi, hic⟩ := List.mem_iff_getElem.mp hc
    have h := foldl_coverOverlap_getElem? env (Int.tdiv env.maximum_overhang env.WINDOW)
      readOverlaps i (List.replicate (Int.tdiv (env.seqLen readId) env.WINDOW -
          2 * Int.tdiv env.maximum_overhang env.WINDOW).toNat 0)
    rw [List.getElem?_eq_getElem hi, hic, List.getElem?_replicate] at h
    split at h
    · simp only [Option.map_some', Option.some.injEq] at h
      omega
    · simp at h

/-- C3: for a read with `numWindows - 2F > 0`, `getReadCoverage` returns a profile of
length `numWindows - 2F` whose entry `i` is the number of overlaps of the list that
are not self-overlaps and satisfy `curBegin/W < i + F < curEnd/W` (`coversWindow`);
every index the loop increments lies in `[0, len)`. -/
theorem getReadCoverage_window_counts (env : ChimeraEnv) (readId : ReadId)
    (readOverlaps : List OverlapRange)
    (hlong : 0 < Int.tdiv (env.seqLen readId) env.WINDOW -
      2 * Int.tdiv env.maximum_overhang env.WINDOW) :
    (getReadCoverage env readId readOverlaps).length =
        (Int.tdiv (env.seqLen readId) env.WINDOW -
          2 * Int.tdiv env.maximum_overhang env.WINDOW).toNat ∧
    (∀ (i : Nat) (hi : i < (getReadCoverage env readId readOverlaps).length),
        (getReadCoverage env readId readOverlaps)[i] =
          ((readOverlaps.countP
            (coversWindow env (Int.tdiv env.maximum_overhang env.WINDOW) i) : Nat) : Int)) ∧
    (∀ (pos : Int) (j : Nat),
        windowIndex (Int.tdiv env.maximum_overhang env.WINDOW)
          (getReadCoverage env readId readOverlaps).length pos = some j →
        j < (getReadCoverage env readId readOverlaps).length ∧
          (j : Int) = pos - Int.tdiv env.maximum_overhang env.WINDOW) := by
  refine ⟨?_, ?_, ?_⟩
  · rw [getReadCoverage_long env readId readOverlaps hlong, foldl_coverOverlap_length,
      List.length_replicate]
  · intro i hi
    have h := foldl_coverOverlap_getElem? env (Int.tdiv env.maximum_overhang env.WINDOW)
      readOverlaps i (List.replicate (Int.tdiv (env.seqLen readId) env.WINDOW -
          2 * Int.tdiv env.maximum_overhang env.WINDOW).toNat 0)
    rw [← getReadCoverage_long env readId readOverlaps hlong, List.getElem?_eq_getElem hi,
      List.getElem?_replicate] at h
    split at h
    · simp only [Option.map_some', Option.some.injEq, zero_add] at h
      exact h
    · simp at h
  · intro pos j hj
    exact windowIndex_eq_some hj

/-- C3 at a concrete read: length 1000, `W = 100`, `F = 2`, two overlaps and one
self-overlap; the profile is `[1, 1, 2, 2, 1, 1]`. -/
theorem getReadCoverage_window_counts_witness :
    (0 : Int) < Int.tdiv 1000 100 - 2 * Int.tdiv 200 100 ∧
    getReadCoverage
      { exampleEnv 1000 (fun _ => []) with maximum_overhang := 200 } 0
      [⟨0, 150, 820, 2, 0, 0⟩, ⟨0, 0, 1000, 1, 0, 1000⟩, ⟨0, 310, 600, 4, 0, 0⟩] =
        [1, 1, 2, 2, 1, 1] ∧
    (getReadCoverage
      { exampleEnv 1000 (fun _ => []) with maximum_overhang := 200 } 0
      [⟨0, 150, 820, 2, 0, 0⟩, ⟨0, 0, 1000, 1, 0, 1000⟩, ⟨0, 310, 600, 4, 0, 0⟩]).length = 6 :=
  ⟨by decide, by decide,
    (getReadCoverage_window_counts
      { exampleEnv 1000 (fun _ => []) with maximum_overhang := 200 } 0
      [⟨0, 150, 820, 2, 0, 0⟩, ⟨0, 0, 1000, 1, 0, 1000⟩, ⟨0, 310, 600, 4, 0, 0⟩]
      (by decide)).1⟩

/-- C4 as stated fails: a read of length 0 has a profile of length 1, not
`max(0, readLen/W - 2·(maxOverhang/W)) = 0`. -/
theorem getReadCoverage_length_counterexample :
    ¬ ∀ (env : ChimeraEnv) (readId : ReadId) (readOverlaps : List OverlapRange),
      0 < env.WINDOW →
      ((getReadCoverage env readId readOverlaps).length : Int) =
        max 0 (Int.tdiv (env.seqLen readId) env.WINDOW -
          2 * Int.tdiv env.maximum_overhang env.WINDOW) := by
  intro h
  have h0 := h (exampleEnv 0 (fun _ => [])) 0 [] (by decide)
  revert h0
  decide

/-- C4 amended: the length of the profile returned by `getReadCoverage` is
`max(1, readLen/W - 2·(maxOverhang/W))`: `numWindows - 2F` when that is positive, and 1
(the one-element profile `[0]`) otherwise. -/
theorem getReadCoverage_length (env : ChimeraEnv) (readId : ReadId)
    (readOverlaps : List OverlapRange) :
    ((getReadCoverage env readId readOverlaps).length : Int) =
      max 1 (Int.tdiv (env.seqLen readId) env.WINDOW -
        2 * Int.tdiv env.maximum_overhang env.WINDOW) := by
  by_cases hshort : Int.tdiv (env.seqLen readId) env.WINDOW -
      2 * Int.tdiv env.maximum_overhang env.WINDOW ≤ 0
  · rw [getReadCoverage_short env readId readOverlaps hshort]
    simp only [List.length_singleton, Nat.cast_one]
    omega
  · rw [getReadCoverage_long env readId readOverlaps (not_le.mp hshort),
      foldl_coverOverlap_length, List.length_replicate]
    omega

/-! ## Theorems: coverage test -/

theorem anyWindowDrops_iff (threshold : Int) (coverage : List Int) :
    anyWindowDrops threshold coverage = true ↔ ∃ c ∈ coverage, c = 0 ∨ c < threshold := by
  induction coverage with
  | nil => simp [anyWindowDrops]
  | cons cov rest ih =>
    unfold anyWindowDrops
    by_cases h0 : cov = 0
    · simp [h0]
    · by_cases hlt : cov < threshold
      · simp [h0, hlt]
      · simp only [if_neg h0, if_neg hlt, ih, List.mem_cons, exists_eq_or_imp]
        constructor
        · intro h
          exact Or.inr h
        · rintro (h | h)
          · rcases h with h | h
            · exact absurd h h0
            · exact absurd h hlt
          · exact h

theorem foldl_max_ge (coverage : List Int) :
    ∀ acc : Int, acc ≤ coverage.foldl (fun maxCov cov => max maxCov cov) acc ∧
      ∀ c ∈ coverage, c ≤ coverage.foldl (fun maxCov cov => max maxCov cov) acc := by
  induction coverage with
  | nil => intro acc; simp
  | cons x rest ih =>
    intro acc
    rw [List.foldl_cons]
    have h := ih (max acc x)
    refine ⟨le_trans (le_max_left _ _) h.1, ?_⟩
    intro c hc
    rcases List.mem_cons.mp hc with hc | hc
    · subst hc
      exact le_trans (le_max_right _ _) h.1
    · exact h.2 c hc

theorem foldl_max_mem (coverage : List Int) :
    ∀ acc : Int, coverage.foldl (fun maxCov cov => max maxCov cov) acc = acc ∨
      coverage.foldl (fun maxCov cov => max maxCov cov) acc ∈ coverage := by
  induction coverage with
  | nil => intro acc; simp
  | cons x rest ih =>
    intro acc
    rw [List.foldl_cons]
    rcases ih (max acc x) with h | h
    · rw [h]
      rcases max_choice acc x with hm | hm
      · exact Or.inl hm
      · right
        rw [hm]
        exact List.mem_cons_self _ _
    · exact Or.inr (List.mem_cons_of_mem _ h)

theorem foldl_max_eq (coverage : List Int) (m : Int) (hnonneg : ∀ c ∈ coverage, 0 ≤ c)
    (hmem : m ∈ coverage) (hmax : ∀ c ∈ coverage, c ≤ m) :
    coverage.foldl (fun maxCov cov => max maxCov cov) 0 = m := by
  apply le_antisymm
  · rcases foldl_max_mem coverage 0 with h | h
    · rw [h]
      exact hnonneg m hmem
    · exact hmax _ h
  · exact (foldl_max_ge coverage 0).2 m hmem

/-- C2: `testReadByCoverage` returns `true` exactly when some window of the profile is
`0` or strictly below the threshold, the threshold being `roundDrop overlapCoverage`
in even-coverage mode and `roundDrop (min overlapCoverage maxLocalCov)` in
uneven-coverage mode, with `maxLocalCov` the maximum of the profile. -/
theorem testReadByCoverage_iff (env : ChimeraEnv) (overlapCoverage : Int) (readId : ReadId)
    (readOvlps : List OverlapRange) (maxLocalCov : Int)
    (hmem : maxLocalCov ∈ getReadCoverage env readId readOvlps)
    (hmax : ∀ c ∈ getReadCoverage env readId readOvlps, c ≤ maxLocalCov) :
    testReadByCoverage env overlapCoverage readId readOvlps = true ↔
      ∃ c ∈ getReadCoverage env readId readOvlps,
        c = 0 ∨ c < (if env.unevenCoverage then env.roundDrop (min overlapCoverage maxLocalCov)
                      else env.roundDrop overlapCoverage) := by
  unfold testReadByCoverage
  simp only [anyWindowDrops_iff]
  have hthr : coverageThreshold env overlapCoverage (getReadCoverage env readId readOvlps) =
      (if env.unevenCoverage then env.roundDrop (min overlapCoverage maxLocalCov)
        else env.roundDrop overlapCoverage) := by
    unfold coverageThreshold
    cases hu : env.unevenCoverage
    · simp
    · simp only [Bool.not_true, Bool.false_eq_true, if_false, if_true]
      rw [foldl_max_eq _ maxLocalCov (getReadCoverage_nonneg env readId readOvlps) hmem hmax]
  rw [hthr]

set_option maxRecDepth 100000 in
theorem s1_profile :
    getReadCoverage (exampleEnv 10000 (fun _ => [])) 0 s1Overlaps =
      List.replicate 40 30 ++ List.replicate 10 0 ++ List.replicate 30 30 := by
  decide!

set_option maxRecDepth 100000 in
/-- C2 on scenario S1: profile `[30]*40 ++ [0]*10 ++ [30]*30`, `overlapCoverage = 30`,
`MAX_DROP_RATE = 5`: the read is flagged. -/
theorem testReadByCoverage_iff_witness :
    getReadCoverage (exampleEnv 10000 (fun _ => [])) 0 s1Overlaps =
      List.replicate 40 30 ++ List.replicate 10 0 ++ List.replicate 30 30 ∧
    testReadByCoverage (exampleEnv 10000 (fun _ => [])) 30 0 s1Overlaps = true :=
  ⟨s1_profile,
    (testReadByCoverage_iff (exampleEnv 10000 (fun _ => [])) 30 0 s1Overlaps 30
      (by rw [s1_profile]; decide) (by rw [s1_profile]; decide)).mpr
      ⟨0, by rw [s1_profile]; decide, Or.inl rfl⟩⟩

/-! ## Theorems: the chimera cache -/

theorem ChimeraCache.lookup_insert (c : ChimeraCache) (k : ReadId) (v : Bool) (x : ReadId) :
    (ChimeraCache.insert c k v).lookup x =
      match c.lookup x with
      | some b => some b
      | none => if x = k then some v else none := by
  unfold ChimeraCache.insert ChimeraCache.contains
  by_cases hk : (List.lookup k c).isSome = true
  · rw [if_pos hk]
    cases hx : List.lookup x c with
    | some b => rfl
    | none =>
      have hne : x ≠ k := by
        intro h
        subst h
        rw [hx] at hk
        exact absurd hk (by simp)
      simp [hne]
  · rw [if_neg hk, List.lookup_cons]
    by_cases hxk : x = k
    · subst hxk
      have hnone : List.lookup x c = none := by
        cases h : List.lookup x c with
        | none => rfl
        | some b => rw [h] at hk; exact absurd rfl hk
      simp [hnone]
    · have hbeq : (x == k) = false := by simpa using hxk
      rw [hbeq]
      cases List.lookup x c <;> simp [hxk]

/-- Lookup in the cache after the two `insert` calls of a cache miss. -/
theorem ChimeraCache.lookup_insert_pair (c : ChimeraCache) (k k2 : ReadId) (v : Bool)
    (x : ReadId) :
    ((ChimeraCache.insert c k v).insert k2 v).lookup x =
      match c.lookup x with
      | some b => some b
      | none => if x = k ∨ x = k2 then some v else none := by
  rw [ChimeraCache.lookup_insert, ChimeraCache.lookup_insert]
  cases List.lookup x c with
  | some b => rfl
  | none =>
    by_cases h1 : x = k
    · simp [h1]
    · by_cases h2 : x = k2
      · subst h2
        simp [h1]
      · simp [h1, h2]

theorem ChimeraCache.contains_eq_false {c : ChimeraCache} {id : ReadId}
    (h : c.contains id = false) : c.lookup id = none := by
  unfold ChimeraCache.contains at h
  cases hl : List.lookup id c with
  | none => rfl
  | some b => rw [hl] at h; exact absurd h (by simp)

theorem isChimeric_miss (env : ChimeraEnv) (d : ChimeraDetector) (readId : ReadId)
    (hmiss : d.chimeras.contains readId = false) (v : Bool)
    (hv : v = (testReadByCoverage env d.overlapCoverage readId (env.lazySeqOverlaps readId) ||
          env.hasSelfOverlaps readId)) :
    isChimeric env d readId =
      (some v, ⟨ChimeraCache.insert (ChimeraCache.insert d.chimeras readId v) (env.rc readId) v,
        d.overlapCoverage⟩) := by
  subst hv
  unfold isChimeric
  simp only [hmiss, Bool.not_false, if_true]
  congr 1
  unfold ChimeraCache.find
  rw [ChimeraCache.lookup_insert_pair, ChimeraCache.contains_eq_false hmiss]
  simp

theorem isChimericWith_miss (env : ChimeraEnv) (d : ChimeraDetector) (readId : ReadId)
    (readOvlps : List OverlapRange) (hmiss : d.chimeras.contains readId = false) (v : Bool)
    (hv : v = readOvlps.foldl (selfOverlapStep env)
          (testReadByCoverage env d.overlapCoverage readId readOvlps)) :
    isChimericWith env d readId readOvlps =
      (some v, ⟨ChimeraCache.insert (ChimeraCache.insert d.chimeras readId v) (env.rc readId) v,
        d.overlapCoverage⟩) := by
  subst hv
  unfold isChimericWith
  simp only [hmiss, Bool.not_false, if_true]
  congr 1
  unfold ChimeraCache.find
  rw [ChimeraCache.lookup_insert_pair, ChimeraCache.contains_eq_false hmiss]
  simp

theorem isChimeric_hit (env : ChimeraEnv) (d : ChimeraDetector) (readId : ReadId) (v : Bool)
    (hhit : d.chimeras.lookup readId = some v) :
    isChimeric env d readId = (some v, d) := by
  unfold isChimeric ChimeraCache.contains ChimeraCache.find
  simp [hhit]

theorem isChimericWith_hit (env : ChimeraEnv) (d : ChimeraDetector) (readId : ReadId)
    (readOvlps : List OverlapRange) (v : Bool) (hhit : d.chimeras.lookup readId = some v) :
    isChimericWith env d readId readOvlps = (some v, d) := by
  unfold isChimericWith ChimeraCache.contains ChimeraCache.find
  simp [hhit]

theorem foldl_selfOverlapStep (env : ChimeraEnv) (readOvlps : List OverlapRange) :
    ∀ result : Bool,
      readOvlps.foldl (selfOverlapStep env) result = true ↔
        (result = true ∨ ∃ o ∈ readOvlps, o.curId = env.rc o.extId ∧
          |o.curEnd - (o.extLen - o.extEnd - 1)| < env.maximum_jump) := by
  induction readOvlps with
  | nil => intro result; simp
  | cons o rest ih =>
    intro result
    rw [List.foldl_cons, ih]
    simp only [List.mem_cons, exists_eq_or_imp]
    unfold selfOverlapStep
    by_cases hself : o.curId = env.rc o.extId
    · by_cases hjump : |o.curEnd - (o.extLen - o.extEnd - 1)| < env.maximum_jump
      · simp [hself, hjump]
      · simp [hself, hjump]
    · simp [hself]

theorem testReadByCoverage_short (env : ChimeraEnv) (overlapCoverage : Int)
    (readId : ReadId) (readOvlps : List OverlapRange)
    (hshort : Int.tdiv (env.seqLen readId) env.WINDOW -
      2 * Int.tdiv env.maximum_overhang env.WINDOW ≤ 0) :
    testReadByCoverage env overlapCoverage readId readOvlps = true := by
  unfold testReadByCoverage
  rw [getReadCoverage_short env readId readOvlps hshort]
  simp [anyWindowDrops]

theorem foldl_selfOverlapStep_of_true (env : ChimeraEnv) (readOvlps : List OverlapRange) :
    readOvlps.foldl (selfOverlapStep env) true = true :=
  (foldl_selfOverlapStep env readOvlps true).mpr (Or.inl rfl)

/-- C5: a read that is too short (`readLen/W - 2F ≤ 0`) has the profile `[0]` whatever
the overlaps, and a cache-miss query of either overload of `isChimeric` on it returns
`true`, for every overlap list, every `overlapCoverage` and both coverage modes. -/
theorem short_read_is_chimeric (env : ChimeraEnv) (d : ChimeraDetector) (readId : ReadId)
    (readOvlps : List OverlapRange)
    (hshort : Int.tdiv (env.seqLen readId) env.WINDOW -
      2 * Int.tdiv env.maximum_overhang env.WINDOW ≤ 0)
    (hmiss : d.chimeras.contains readId = false) :
    getReadCoverage env readId readOvlps = [0] ∧
    (isChimeric env d readId).1 = some true ∧
    (isChimericWith env d readId readOvlps).1 = some true := by
  refine ⟨getReadCoverage_short env readId readOvlps hshort, ?_, ?_⟩
  · rw [isChimeric_miss env d readId hmiss true
      (by rw [testReadByCoverage_short env _ readId _ hshort]; rfl)]
  · rw [isChimericWith_miss env d readId readOvlps hmiss true
      (by rw [testReadByCoverage_short env _ readId _ hshort,
            foldl_selfOverlapStep_of_true])]

/-- C5 at a read of length 1500 with `W = 100`, `F = 10`, queried on an empty cache. -/
theorem short_read_is_chimeric_witness :
    Int.tdiv 1500 100 - 2 * Int.tdiv 1000 100 ≤ 0 ∧
    (isChimeric (exampleEnv 1500 (fun _ => [])) ⟨[], 30⟩ 4).1 = some true ∧
    (isChimericWith (exampleEnv 1500 (fun _ => [])) ⟨[], 30⟩ 4
      [⟨4, 100, 1400, 6, 0, 0⟩]).1 = some true :=
  ⟨by decide,
    (short_read_is_chimeric (exampleEnv 1500 (fun _ => [])) ⟨[], 30⟩ 4
      [⟨4, 100, 1400, 6, 0, 0⟩] (by decide) rfl).2⟩

/-- C6: on a cache miss the two-argument `isChimeric` returns
`testReadByCoverage(readId, overlaps)` OR "some overlap of the list has
`curId == extId.rc()` and `|curEnd - (extLen - extEnd - 1)| < JUMP`"; so one such
self-overlap makes the verdict `true` whatever the coverage. -/
theorem isChimericWith_miss_verdict (env : ChimeraEnv) (d : ChimeraDetector)
    (readId : ReadId) (readOvlps : List OverlapRange)
    (hmiss : d.chimeras.contains readId = false) :
    (isChimericWith env d readId readOvlps).1 =
        some (testReadByCoverage env d.overlapCoverage readId readOvlps ||
          readOvlps.any (isPalindromicJoin env)) ∧
    ((∃ o ∈ readOvlps, o.curId = env.rc o.extId ∧
        |o.curEnd - (o.extLen - o.extEnd - 1)| < env.maximum_jump) →
      (isChimericWith env d readId readOvlps).1 = some true) := by
  have hfold : readOvlps.foldl (selfOverlapStep env)
      (testReadByCoverage env d.overlapCoverage readId readOvlps) =
      (testReadByCoverage env d.overlapCoverage readId readOvlps ||
        readOvlps.any (isPalindromicJoin env)) := by
    rw [Bool.eq_iff_iff, foldl_selfOverlapStep, Bool.or_eq_true, List.any_eq_true]
    simp only [isPalindromicJoin, decide_eq_true_eq]
  rw [isChimericWith_miss env d readId readOvlps hmiss _ rfl, hfold]
  refine ⟨rfl, ?_⟩
  rintro ⟨o, ho, hself, hjump⟩
  have hany : readOvlps.any (isPalindromicJoin env) = true := by
    rw [List.any_eq_true]
    exact ⟨o, ho, by simp only [isPalindromicJoin, decide_eq_true_eq]; exact ⟨hself, hjump⟩⟩
  simp [hany]

/-- C6 on scenario S2: read of length 5,000 fully covered by three ordinary overlaps,
plus one self-overlap with `curEnd = 2500`, `extEnd = 2499`, `extLen = 5000`,
`JUMP = 5`: the coverage test is `false` and the verdict is `true`. -/
theorem isChimericWith_miss_verdict_witness :
    testReadByCoverage (exampleEnv 5000 (fun _ => [])) 10 0
      [⟨0, 0, 5000, 2, 0, 0⟩, ⟨0, 0, 5000, 4, 0, 0⟩, ⟨0, 0, 5000, 6, 0, 0⟩,
        ⟨0, 0, 2500, 1, 2499, 5000⟩] = false ∧
    (isChimericWith (exampleEnv 5000 (fun _ => [])) ⟨[], 10⟩ 0
      [⟨0, 0, 5000, 2, 0, 0⟩, ⟨0, 0, 5000, 4, 0, 0⟩, ⟨0, 0, 5000, 6, 0, 0⟩,
        ⟨0, 0, 2500, 1, 2499, 5000⟩]).1 = some true :=
  ⟨by decide,
    (isChimericWith_miss_verdict (exampleEnv 5000 (fun _ => [])) ⟨[], 10⟩ 0
      [⟨0, 0, 5000, 2, 0, 0⟩, ⟨0, 0, 5000, 4, 0, 0⟩, ⟨0, 0, 5000, 6, 0, 0⟩,
        ⟨0, 0, 2500, 1, 2499, 5000⟩] rfl).2
      ⟨⟨0, 0, 2500, 1, 2499, 5000⟩, by simp, by decide, by decide⟩⟩

theorem ChimeraCache.contains_eq_true {c : ChimeraCache} {id : ReadId}
    (h : c.contains id = true) : ∃ v, c.lookup id = some v := by
  unfold ChimeraCache.contains at h
  cases hl : List.lookup id c with
  | none => rw [hl] at h; exact absurd h (by simp)
  | some b => exact ⟨b, rfl⟩

/-- Effect of either overload of `isChimeric` on the cache: untouched on a hit, the
two inserts of one verdict on a miss; the returned value is the entry of `readId`
afterwards. -/
theorem isChimeric_cases (env : ChimeraEnv) (d : ChimeraDetector) (readId : ReadId) :
    (∃ v, d.chimeras.lookup readId = some v ∧ isChimeric env d readId = (some v, d)) ∨
    (d.chimeras.lookup readId = none ∧ ∃ v, isChimeric env d readId =
      (some v, ⟨ChimeraCache.insert (ChimeraCache.insert d.chimeras readId v) (env.rc readId) v,
        d.overlapCoverage⟩)) := by
  cases hc : d.chimeras.contains readId with
  | true =>
    obtain ⟨v, hv⟩ := ChimeraCache.contains_eq_true hc
    exact Or.inl ⟨v, hv, isChimeric_hit env d readId v hv⟩
  | false =>
    exact Or.inr ⟨ChimeraCache.contains_eq_false hc, _, isChimeric_miss env d readId hc _ rfl⟩

theorem isChimericWith_cases (env : ChimeraEnv) (d : ChimeraDetector) (readId : ReadId)
    (readOvlps : List OverlapRange) :
    (∃ v, d.chimeras.lookup readId = some v ∧
      isChimericWith env d readId readOvlps = (some v, d)) ∨
    (d.chimeras.lookup readId = none ∧ ∃ v, isChimericWith env d readId readOvlps =
      (some v, ⟨ChimeraCache.insert (ChimeraCache.insert d.chimeras readId v) (env.rc readId) v,
        d.overlapCoverage⟩)) := by
  cases hc : d.chimeras.contains readId with
  | true =>
    obtain ⟨v, hv⟩ := ChimeraCache.contains_eq_true hc
    exact Or.inl ⟨v, hv, isChimericWith_hit env d readId readOvlps v hv⟩
  | false =>
    exact Or.inr ⟨ChimeraCache.contains_eq_false hc, _,
      isChimericWith_miss env d readId readOvlps hc _ rfl⟩

theorem estimateGlobalCoverage_chimeras (env : ChimeraEnv) (seqs : List ReadId)
    (draws : Nat → Nat) (d d2 : ChimeraDetector)
    (h : estimateGlobalCoverage env seqs draws d = some d2) : d2.chimeras = d.chimeras := by
  unfold estimateGlobalCoverage at h
  simp only at h
  split at h
  · exact absurd h (by simp)
  · split at h <;>
    · injection h with h
      rw [← h]

theorem insert_pair_symmetric (env : ChimeraEnv) (hrc : ∀ x, env.rc (env.rc x) = x)
    (c : ChimeraCache) (k : ReadId) (v : Bool) (hsym : CacheSymmetric env c) :
    CacheSymmetric env (ChimeraCache.insert (ChimeraCache.insert c k v) (env.rc k) v) := by
  intro r
  rw [ChimeraCache.lookup_insert_pair, ChimeraCache.lookup_insert_pair, ← hsym r]
  cases List.lookup r c with
  | some b => rfl
  | none =>
    have h1 : (env.rc r = k ∨ env.rc r = env.rc k) ↔ (r = k ∨ r = env.rc k) := by
      constructor
      · rintro (h | h)
        · right
          rw [← h, hrc]
        · left
          have := congrArg env.rc h
          rwa [hrc, hrc] at this
      · rintro (h | h)
        · right
          rw [h]
        · left
          rw [h, hrc]
    by_cases h2 : r = k ∨ r = env.rc k
    · simp only [if_pos h2, if_pos (h1.mpr h2)]
    · simp only [if_neg h2, if_neg (fun h => h2 (h1.mp h))]

theorem chimeraStep_symmetric {env : ChimeraEnv} (hrc : ∀ x, env.rc (env.rc x) = x)
    {d d2 : ChimeraDetector} (hstep : ChimeraStep env d d2)
    (hsym : CacheSymmetric env d.chimeras) : CacheSymmetric env d2.chimeras := by
  cases hstep with
  | query readId =>
    rcases isChimeric_cases env d readId with ⟨v, _, h⟩ | ⟨_, v, h⟩
    · rw [h]
      exact hsym
    · rw [h]
      exact insert_pair_symmetric env hrc _ _ _ hsym
  | queryWith readId readOvlps =>
    rcases isChimericWith_cases env d readId readOvlps with ⟨v, _, h⟩ | ⟨_, v, h⟩
    · rw [h]
      exact hsym
    · rw [h]
      exact insert_pair_symmetric env hrc _ _ _ hsym
  | estimate seqs draws h =>
    rw [estimateGlobalCoverage_chimeras env seqs draws d d2 h]
    exact hsym

theorem chimeraSteps_symmetric {env : ChimeraEnv} (hrc : ∀ x, env.rc (env.rc x) = x)
    {d d2 : ChimeraDetector} (hsteps : ChimeraSteps env d d2)
    (hsym : CacheSymmetric env d.chimeras) : CacheSymmetric env d2.chimeras := by
  induction hsteps with
  | refl => exact hsym
  | tail _ hstep ih => exact chimeraStep_symmetric hrc hstep ih

theorem chimeraReachable_symmetric {env : ChimeraEnv} (hrc : ∀ x, env.rc (env.rc x) = x)
    {d : ChimeraDetector} (hreach : ChimeraReachable env d) :
    CacheSymmetric env d.chimeras := by
  obtain ⟨c0, hsteps⟩ := hreach
  exact chimeraSteps_symmetric hrc hsteps (fun _ => rfl)

theorem insert_pair_persist (c : ChimeraCache) (k k2 : ReadId) (w : Bool) (x : ReadId)
    (v : Bool) (h : c.lookup x = some v) :
    (ChimeraCache.insert (ChimeraCache.insert c k w) k2 w).lookup x = some v := by
  rw [ChimeraCache.lookup_insert_pair, h]

/-- An entry of the cache is never removed or overwritten by a later call. -/
theorem chimeraStep_persist {env : ChimeraEnv} {d d2 : ChimeraDetector}
    (hstep : ChimeraStep env d d2) (x : ReadId) (v : Bool)
    (h : d.chimeras.lookup x = some v) : d2.chimeras.lookup x = some v := by
  cases hstep with
  | query readId =>
    rcases isChimeric_cases env d readId with ⟨w, _, hw⟩ | ⟨_, w, hw⟩
    · rw [hw]
      exact h
    · rw [hw]
      exact insert_pair_persist _ _ _ _ _ _ h
  | queryWith readId readOvlps =>
    rcases isChimericWith_cases env d readId readOvlps with ⟨w, _, hw⟩ | ⟨_, w, hw⟩
    · rw [hw]
      exact h
    · rw [hw]
      exact insert_pair_persist _ _ _ _ _ _ h
  | estimate seqs draws hest =>
    rw [estimateGlobalCoverage_chimeras env seqs draws d d2 hest]
    exact h

theorem chimeraSteps_persist {env : ChimeraEnv} {d d2 : ChimeraDetector}
    (hsteps : ChimeraSteps env d d2) (x : ReadId) (v : Bool)
    (h : d.chimeras.lookup x = some v) : d2.chimeras.lookup x = some v := by
  induction hsteps with
  | refl => exact h
  | tail _ hstep ih => exact chimeraStep_persist hstep x v ih

theorem chimeraSteps_trans {env : ChimeraEnv} {d d1 d2 : ChimeraDetector}
    (h1 : ChimeraSteps env d d1) (h2 : ChimeraSteps env d1 d2) : ChimeraSteps env d d2 := by
  induction h2 with
  | refl => exact h1
  | tail _ hstep ih => exact ChimeraSteps.tail ih hstep

/-- After a call of either overload for `readId` that produced `(res, d1)`, the value
returned is `some v` and `d1` caches `v` for `readId`. -/
theorem isChimeric_caches (env : ChimeraEnv) (d : ChimeraDetector) (readId : ReadId) :
    ∃ v, (isChimeric env d readId).1 = some v ∧
      (isChimeric env d readId).2.chimeras.lookup readId = some v := by
  rcases isChimeric_cases env d readId with ⟨v, hv, h⟩ | ⟨hnone, v, h⟩
  · exact ⟨v, by rw [h], by rw [h]; exact hv⟩
  · refine ⟨v, by rw [h], ?_⟩
    rw [h]
    simp only
    rw [ChimeraCache.lookup_insert_pair, hnone]
    simp

theorem isChimericWith_caches (env : ChimeraEnv) (d : ChimeraDetector) (readId : ReadId)
    (readOvlps : List OverlapRange) :
    ∃ v, (isChimericWith env d readId readOvlps).1 = some v ∧
      (isChimericWith env d readId readOvlps).2.chimeras.lookup readId = some v := by
  rcases isChimericWith_cases env d readId readOvlps with ⟨v, hv, h⟩ | ⟨hnone, v, h⟩
  · exact ⟨v, by rw [h], by rw [h]; exact hv⟩
  · refine ⟨v, by rw [h], ?_⟩
    rw [h]
    simp only
    rw [ChimeraCache.lookup_insert_pair, hnone]
    simp

theorem exampleRc_involutive (x : Nat) : exampleRc (exampleRc x) = x := by
  unfold exampleRc
  split_ifs <;> omega

/-- C1: from an empty cache, with `rc` an involution, after any sequence of calls the
cache contains `readId` iff it contains `readId.rc()` and the stored verdicts are equal;
hence once a call of either overload for `r` has returned, every later call of either
overload for `rc(r)` returns the same value. -/
theorem chimera_cache_symmetry (env : ChimeraEnv) (hrc : ∀ x, env.rc (env.rc x) = x)
    (d : ChimeraDetector) (hreach : ChimeraReachable env d) (r : ReadId) :
    d.chimeras.contains r = d.chimeras.contains (env.rc r) ∧
    d.chimeras.find r = d.chimeras.find (env.rc r) ∧
    (∀ (ovlps ovlps2 : List OverlapRange) (d2 : ChimeraDetector),
      (ChimeraSteps env (isChimeric env d r).2 d2 →
        (isChimeric env d2 (env.rc r)).1 = (isChimeric env d r).1 ∧
        (isChimericWith env d2 (env.rc r) ovlps2).1 = (isChimeric env d r).1) ∧
      (ChimeraSteps env (isChimericWith env d r ovlps).2 d2 →
        (isChimeric env d2 (env.rc r)).1 = (isChimericWith env d r ovlps).1 ∧
        (isChimericWith env d2 (env.rc r) ovlps2).1 = (isChimericWith env d r ovlps).1)) := by
  have hsym := chimeraReachable_symmetric hrc hreach
  refine ⟨?_, hsym r, ?_⟩
  · unfold ChimeraCache.contains
    rw [hsym r]
  · intro ovlps ovlps2 d2
    obtain ⟨c0, hsteps⟩ := hreach
    constructor
    · intro hlater
      obtain ⟨v, hv, hcached⟩ := isChimeric_caches env d r
      have hreach2 : ChimeraReachable env d2 :=
        ⟨c0, chimeraSteps_trans (ChimeraSteps.tail hsteps (ChimeraStep.query d r)) hlater⟩
      have hrcv : d2.chimeras.lookup (env.rc r) = some v := by
        rw [← chimeraReachable_symmetric hrc hreach2 r]
        exact chimeraSteps_persist hlater r v hcached
      rw [hv, isChimeric_hit env d2 _ v hrcv, isChimericWith_hit env d2 _ ovlps2 v hrcv]
      exact ⟨rfl, rfl⟩
    · intro hlater
      obtain ⟨v, hv, hcached⟩ := isChimericWith_caches env d r ovlps
      have hreach2 : ChimeraReachable env d2 :=
        ⟨c0, chimeraSteps_trans (ChimeraSteps.tail hsteps (ChimeraStep.queryWith d r ovlps)) hlater⟩
      have hrcv : d2.chimeras.lookup (env.rc r) = some v := by
        rw [← chimeraReachable_symmetric hrc hreach2 r]
        exact chimeraSteps_persist hlater r v hcached
      rw [hv, isChimeric_hit env d2 _ v hrcv, isChimericWith_hit env d2 _ ovlps2 v hrcv]
      exact ⟨rfl, rfl⟩

/-- C1 on a detector that has answered one query for read 4: reads 4 and 5 are cached
with the same verdict. -/
theorem chimera_cache_symmetry_witness :
    ChimeraCache.find (isChimeric (exampleEnv 1500 (fun _ => [])) ⟨[], 30⟩ 4).2.chimeras 4 =
      ChimeraCache.find (isChimeric (exampleEnv 1500 (fun _ => [])) ⟨[], 30⟩ 4).2.chimeras 5 :=
  (chimera_cache_symmetry (exampleEnv 1500 (fun _ => [])) exampleRc_involutive
    (isChimeric (exampleEnv 1500 (fun _ => [])) ⟨[], 30⟩ 4).2
    ⟨30, ChimeraSteps.tail (ChimeraSteps.refl _) (ChimeraStep.query _ 4)⟩ 4).2.1

/-- C7: once either overload of `isChimeric` has returned `v` for `readId` (on a
detector that started with an empty cache, `rc` an involution), every later call of
either overload for `readId` or `readId.rc()` returns `v` and leaves the detector, its
cache included, unchanged, whatever overlap list is supplied and whatever
`overlapCoverage` is by then. -/
theorem verdict_computed_once (env : ChimeraEnv) (hrc : ∀ x, env.rc (env.rc x) = x)
    (d : ChimeraDetector) (hreach : ChimeraReachable env d) (r : ReadId)
    (ovlps : List OverlapRange) (v : Bool) (d1 : ChimeraDetector)
    (hcall : isChimeric env d r = (some v, d1) ∨ isChimericWith env d r ovlps = (some v, d1))
    (d2 : ChimeraDetector) (hlater : ChimeraSteps env d1 d2) (ovlps2 : List OverlapRange) :
    isChimeric env d2 r = (some v, d2) ∧
    isChimeric env d2 (env.rc r) = (some v, d2) ∧
    isChimericWith env d2 r ovlps2 = (some v, d2) ∧
    isChimericWith env d2 (env.rc r) ovlps2 = (some v, d2) := by
  obtain ⟨c0, hsteps⟩ := hreach
  have hd1 : ChimeraSteps env ⟨[], c0⟩ d1 ∧ d1.chimeras.lookup r = some v := by
    rcases hcall with hcall | hcall
    · obtain ⟨w, hw, hcached⟩ := isChimeric_caches env d r
      rw [hcall] at hw hcached
      have hstep := @ChimeraStep.query env d r
      rw [hcall] at hstep
      simp only [Option.some.injEq] at hw
      subst hw
      exact ⟨ChimeraSteps.tail hsteps hstep, hcached⟩
    · obtain ⟨w, hw, hcached⟩ := isChimericWith_caches env d r ovlps
      rw [hcall] at hw hcached
      have hstep := @ChimeraStep.queryWith env d r ovlps
      rw [hcall] at hstep
      simp only [Option.some.injEq] at hw
      subst hw
      exact ⟨ChimeraSteps.tail hsteps hstep, hcached⟩
  have hr : d2.chimeras.lookup r = some v := chimeraSteps_persist hlater r v hd1.2
  have hreach2 : ChimeraReachable env d2 := ⟨c0, chimeraSteps_trans hd1.1 hlater⟩
  have hrcv : d2.chimeras.lookup (env.rc r) = some v := by
    rw [← chimeraReachable_symmetric hrc hreach2 r]
    exact hr
  exact ⟨isChimeric_hit env d2 r v hr, isChimeric_hit env d2 _ v hrcv,
    isChimericWith_hit env d2 r ovlps2 v hr, isChimericWith_hit env d2 _ ovlps2 v hrcv⟩

/-- C7 on a fresh detector: read 4 is answered `true`, then read 7 is queried, then
reads 4 and 5 are queried again with another overlap list. -/
theorem verdict_computed_once_witness :
    isChimeric (exampleEnv 1500 (fun _ => [])) ⟨[], 30⟩ 4 =
      (some true, ⟨[(5, true), (4, true)], 30⟩) ∧
    isChimericWith (exampleEnv 1500 (fun _ => []))
        (isChimericWith (exampleEnv 1500 (fun _ => [])) ⟨[(5, true), (4, true)], 30⟩ 7 []).2 5
        [⟨5, 0, 1500, 8, 0, 0⟩] =
      (some true,
        (isChimericWith (exampleEnv 1500 (fun _ => [])) ⟨[(5, true), (4, true)], 30⟩ 7 []).2) :=
  ⟨by decide,
    (verdict_computed_once (exampleEnv 1500 (fun _ => [])) exampleRc_involutive
      ⟨[], 30⟩ ⟨30, ChimeraSteps.refl _⟩ 4 [] true ⟨[(5, true), (4, true)], 30⟩
      (Or.inl (by decide))
      (isChimericWith (exampleEnv 1500 (fun _ => [])) ⟨[(5, true), (4, true)], 30⟩ 7 []).2
      (ChimeraSteps.tail (ChimeraSteps.refl _) (ChimeraStep.queryWith _ 7 []))
      [⟨5, 0, 1500, 8, 0, 0⟩]).2.2.2⟩

/-! ## Theorems: global coverage estimate -/

theorem histIncr_ne_nil (h : List (Int × Int)) (c : Int) : histIncr h c ≠ [] := by
  cases h with
  | nil => simp [histIncr]
  | cons p rest =>
    obtain ⟨k, v⟩ := p
    unfold histIncr
    split <;> simp

theorem foldl_accumWindow (ws : List Int) :
    ∀ acc : CovAccum,
      (ws.foldl accumWindow acc).covList = acc.covList ++ ws ∧
      ((ws.foldl accumWindow acc).readHist = [] ↔ acc.readHist = [] ∧ ws = []) := by
  induction ws with
  | nil => intro acc; simp
  | cons w rest ih =>
    intro acc
    rw [List.foldl_cons]
    obtain ⟨h1, h2⟩ := ih (accumWindow acc w)
    refine ⟨?_, ?_⟩
    · rw [h1]
      simp [accumWindow]
    · rw [h2]
      simp [accumWindow, histIncr_ne_nil]

theorem foldl_nonZero (coverage : List Int) :
    ∀ b : Bool, coverage.foldl (fun nonZero c => nonZero || (c != 0)) b =
      (b || coverage.any (fun c => c != 0)) := by
  induction coverage with
  | nil => intro b; simp
  | cons c rest ih =>
    intro b
    rw [List.foldl_cons, ih, List.any_cons, Bool.or_assoc]

theorem interiorWindows_zero (coverage : List Int) : interiorWindows 0 coverage = coverage := by
  simp [interiorWindows]

/-- The sampling loop appends the described list to `covList`, and keeps "`readHist` is
empty iff `covList` is empty". -/
theorem sampleLoop_spec (env : ChimeraEnv) (sampleRate : Nat) (draws : Nat → Nat)
    (seqs : List ReadId) :
    ∀ (k : Nat) (acc : CovAccum), (acc.readHist = [] ↔ acc.covList = []) →
      (sampleLoop env sampleRate draws k seqs acc).covList =
          acc.covList ++ sampledCovList env sampleRate draws k seqs ∧
      ((sampleLoop env sampleRate draws k seqs acc).readHist = [] ↔
        (sampleLoop env sampleRate draws k seqs acc).covList = []) := by
  induction seqs with
  | nil =>
    intro k acc hacc
    simp [sampleLoop, sampledCovList, hacc]
  | cons seq rest ih =>
    intro k acc hacc
    unfold sampleLoop
    by_cases hdraw : draws k % sampleRate = 0
    · rw [if_neg (by simpa using hdraw)]
      simp only [foldl_nonZero, Bool.false_or, interiorWindows_zero]
      cases hnz : (getReadCoverage env seq (env.lazySeqOverlaps seq)).any (fun c => c != 0) with
      | false =>
        simp only [Bool.not_false, if_true]
        obtain ⟨h1, h2⟩ := ih (k + 1) acc hacc
        refine ⟨?_, h2⟩
        rw [h1]
        simp [sampledCovList, List.enumFrom_cons, List.filter_cons, hdraw, hnz]
      | true =>
        simp only [Bool.not_true, Bool.false_eq_true, if_false]
        obtain ⟨f1, f2⟩ := foldl_accumWindow (getReadCoverage env seq (env.lazySeqOverlaps seq)) acc
        have hacc2 : ((getReadCoverage env seq (env.lazySeqOverlaps seq)).foldl accumWindow
              acc).readHist = [] ↔
            ((getReadCoverage env seq (env.lazySeqOverlaps seq)).foldl accumWindow
              acc).covList = [] := by
          rw [f1, f2, List.append_eq_nil, hacc]
        obtain ⟨h1, h2⟩ := ih (k + 1) _ hacc2
        refine ⟨?_, h2⟩
        rw [h1, f1]
        simp [sampledCovList, List.enumFrom_cons, List.filter_cons, hdraw, hnz]
    · rw [if_pos hdraw]
      obtain ⟨h1, h2⟩ := ih (k + 1) acc hacc
      refine ⟨?_, h2⟩
      rw [h1]
      simp [sampledCovList, List.enumFrom_cons, List.filter_cons, hdraw]

/-- C8: on a non-empty container `estimateGlobalCoverage` sets `overlapCoverage` to the
median of the concatenation, in container order, of the profiles of the sampled reads
that have a nonzero window, and to 0 when that list is empty; the cache is untouched,
the value does not depend on the detector state before, and running it again with the
same draws gives the same state. -/
theorem estimateGlobalCoverage_median (env : ChimeraEnv) (seqs : List ReadId)
    (draws : Nat → Nat) (d : ChimeraDetector) (hne : seqs ≠ []) :
    estimateGlobalCoverage env seqs draws d =
        some ⟨d.chimeras,
          if sampledCovList env (seqs.length / min 1000 seqs.length) draws 0 seqs = [] then 0
          else env.median
            (sampledCovList env (seqs.length / min 1000 seqs.length) draws 0 seqs)⟩ ∧
    (∀ d2 : ChimeraDetector,
      (estimateGlobalCoverage env seqs draws d2).map (fun s => s.overlapCoverage) =
        (estimateGlobalCoverage env seqs draws d).map (fun s => s.overlapCoverage)) ∧
    (∀ d1 : ChimeraDetector, estimateGlobalCoverage env seqs draws d = some d1 →
      estimateGlobalCoverage env seqs draws d1 = some d1) := by
  have hlen : 0 < seqs.length := List.length_pos.mpr hne
  have key : ∀ s : ChimeraDetector, estimateGlobalCoverage env seqs draws s =
      some ⟨s.chimeras,
        if sampledCovList env (seqs.length / min 1000 seqs.length) draws 0 seqs = [] then 0
        else env.median
          (sampledCovList env (seqs.length / min 1000 seqs.length) draws 0 seqs)⟩ := by
    intro s
    unfold estimateGlobalCoverage
    have hns : ¬ (min 1000 seqs.length = 0) := by omega
    simp only [if_neg hns]
    obtain ⟨h1, h2⟩ := sampleLoop_spec env (seqs.length / min 1000 seqs.length) draws seqs 0
      ⟨[], [], 0, 0⟩ (by simp)
    simp only [List.nil_append] at h1
    by_cases hL : sampledCovList env (seqs.length / min 1000 seqs.length) draws 0 seqs = []
    · have hh : (sampleLoop env (seqs.length / min 1000 seqs.length) draws 0 seqs
          ⟨[], [], 0, 0⟩).readHist.isEmpty = true := by
        rw [List.isEmpty_iff, h2, h1, hL]
      rw [if_pos hh, if_pos hL]
    · have hh : ¬ ((sampleLoop env (seqs.length / min 1000 seqs.length) draws 0 seqs
          ⟨[], [], 0, 0⟩).readHist.isEmpty = true) := by
        rw [List.isEmpty_iff, h2, h1]
        exact hL
      rw [if_neg hh, if_neg hL, h1]
  refine ⟨key d, ?_, ?_⟩
  · intro d2
    rw [key d, key d2]
    rfl
  · intro d1 hd1
    rw [key d] at hd1
    injection hd1 with hd1
    rw [key d1, ← hd1]

/-- C8 on a container of two reads of length 3000 (`W = 100`, `F = 10`), the first
with two overlaps and the second with none: the estimate is the median of the first
read's ten windows. -/
theorem estimateGlobalCoverage_median_witness :
    ([0, 2] : List ReadId) ≠ [] ∧
    estimateGlobalCoverage
      (exampleEnv 3000 (fun i => if i = 0 then [⟨0, 0, 3000, 2, 0, 0⟩, ⟨0, 0, 1500, 4, 0, 0⟩]
        else [])) [0, 2] (fun _ => 0) ⟨[], 7⟩ = some ⟨[], 2⟩ :=
  ⟨by decide,
    (estimateGlobalCoverage_median
      (exampleEnv 3000 (fun i => if i = 0 then [⟨0, 0, 3000, 2, 0, 0⟩, ⟨0, 0, 1500, 4, 0, 0⟩]
        else [])) [0, 2] (fun _ => 0) ⟨[], 7⟩ (by decide)).1.trans (by decide)⟩

/-- C9, the failing input: on a container with zero sequences `numSamples` is
`min(1000, 0) = 0` and the division `size / numSamples` that computes `sampleRate`
has divisor 0; the function does not reach the assignment `_overlapCoverage = 0`. -/
theorem estimateGlobalCoverage_empty_container (env : ChimeraEnv) (draws : Nat → Nat)
    (d : ChimeraDetector) : estimateGlobalCoverage env [] draws d = none := by
  rfl

/-- On a non-empty container the divisors `numSamples` and `sampleRate` are positive,
and without overlaps the estimate is 0. -/
theorem estimateGlobalCoverage_no_overlaps (env : ChimeraEnv) (seqs : List ReadId)
    (draws : Nat → Nat) (d : ChimeraDetector) (hne : seqs ≠ [])
    (hno : ∀ id, env.lazySeqOverlaps id = []) :
    0 < min 1000 seqs.length ∧ 0 < seqs.length / min 1000 seqs.length ∧
    estimateGlobalCoverage env seqs draws d = some ⟨d.chimeras, 0⟩ := by
  have hlen : 0 < seqs.length := List.length_pos.mpr hne
  have hmin : 0 < min 1000 seqs.length := by omega
  refine ⟨hmin, Nat.div_pos (Nat.min_le_right _ _) hmin, ?_⟩
  rw [(estimateGlobalCoverage_median env seqs draws d hne).1]
  have hL : sampledCovList env (seqs.length / min 1000 seqs.length) draws 0 seqs = [] := by
    unfold sampledCovList
    rw [List.flatten_eq_nil_iff]
    intro l hl
    rw [List.mem_filter, List.mem_map] at hl
    obtain ⟨⟨p, _, hp⟩, hany⟩ := hl
    rw [hno] at hp
    exfalso
    rw [List.any_eq_true] at hany
    obtain ⟨c, hc, hc0⟩ := hany
    rw [← hp] at hc
    have hzero : c = 0 := by
      by_cases hshort : Int.tdiv (env.seqLen p.2) env.WINDOW -
          2 * Int.tdiv env.maximum_overhang env.WINDOW ≤ 0
      · rw [getReadCoverage_short env p.2 [] hshort] at hc
        simpa using hc
      · rw [getReadCoverage_long env p.2 [] (not_le.mp hshort)] at hc
        simp only [List.foldl_nil] at hc
        exact (List.mem_replicate.mp hc).2
    simp [hzero] at hc0
  rw [if_pos hL]

/-! ## Theorems: `altHaplotype` under the detection phases -/

theorem altGrows_refl (g : RepeatGraph) : AltGrows g g :=
  ⟨rfl, fun h => h, fun _ h => h⟩

theorem altGrows_trans {g g2 g3 : RepeatGraph} (h1 : AltGrows g g2) (h2 : AltGrows g2 g3) :
    AltGrows g g3 :=
  ⟨h2.1.trans h1.1, fun h => h2.2.1 (h1.2.1 h), fun e h => h2.2.2 e (h1.2.2 e h)⟩

theorem setAlt_altHaplotype (g : RepeatGraph) (e x : EdgePtr) :
    ((g.setAlt e).edge x).altHaplotype = (decide (x = e) || (g.edge x).altHaplotype) := by
  unfold RepeatGraph.setAlt
  by_cases hx : x = e
  · subst hx
    simp
  · simp [Function.update_noteq hx, hx]

theorem markEdge_altHaplotype (g : RepeatGraph) (e x : EdgePtr) :
    ((g.markEdge e).edge x).altHaplotype =
      (decide (x = g.complementEdge e) || (decide (x = e) || (g.edge x).altHaplotype)) := by
  unfold RepeatGraph.markEdge
  rw [setAlt_altHaplotype, setAlt_altHaplotype]

theorem markEdge_complementEdge (g : RepeatGraph) (e : EdgePtr) :
    (g.markEdge e).complementEdge = g.complementEdge := rfl

theorem markEdge_altGrows (g : RepeatGraph)
    (hinv : ∀ e, g.complementEdge (g.complementEdge e) = e) (e : EdgePtr) :
    AltGrows g (g.markEdge e) := by
  refine ⟨rfl, ?_, ?_⟩
  · intro hsym x
    rw [markEdge_altHaplotype, markEdge_altHaplotype, markEdge_complementEdge, ← hsym x]
    have h1 : (g.complementEdge x = g.complementEdge e) ↔ x = e := by
      constructor
      · intro h
        have := congrArg g.complementEdge h
        rwa [hinv, hinv] at this
      · intro h
        rw [h]
    have h2 : (g.complementEdge x = e) ↔ x = g.complementEdge e := by
      constructor
      · intro h
        rw [← h, hinv]
      · intro h
        rw [h, hinv]
    simp only [h1, h2]
    cases decide (x = e) <;> cases decide (x = g.complementEdge e) <;>
      cases (g.edge x).altHaplotype <;> rfl
  · intro x hx
    rw [markEdge_altHaplotype, hx]
    simp

theorem markEdges_altGrows (path : List EdgePtr) :
    ∀ (g : RepeatGraph), (∀ e, g.complementEdge (g.complementEdge e) = e) →
      AltGrows g (g.markEdges path) := by
  induction path with
  | nil => intro g _; exact altGrows_refl g
  | cons e rest ih =>
    intro g hinv
    unfold RepeatGraph.markEdges
    rw [List.foldl_cons]
    exact altGrows_trans (markEdge_altGrows g hinv e) (ih (g.markEdge e) hinv)

theorem linkEdges_altHaplotype (g : RepeatGraph) (a b x : EdgePtr) :
    ((g.linkEdges a b).edge x).altHaplotype = (g.edge x).altHaplotype := by
  unfold RepeatGraph.linkEdges
  simp only
  by_cases hb : x = b
  · subst hb
    simp only [Function.update_same]
    by_cases ha : x = a
    · subst ha
      simp
    · simp [Function.update_noteq ha]
  · simp only [Function.update_noteq hb]
    by_cases ha : x = a
    · subst ha
      simp
    · simp [Function.update_noteq ha]

theorem linkEdges_altGrows (g : RepeatGraph) (a b : EdgePtr) :
    AltGrows g (g.linkEdges a b) := by
  refine ⟨rfl, ?_, ?_⟩
  · intro hsym x
    rw [linkEdges_altHaplotype, linkEdges_altHaplotype]
    exact hsym x
  · intro x hx
    rw [linkEdges_altHaplotype]
    exact hx

theorem linkAndBridge_altGrows (r : Resolver) (inEdge outEdge : EdgePtr)
    (seq seqCompl : DnaSequence) :
    AltGrows r.graph (linkAndBridge r inEdge outEdge seq seqCompl).graph := by
  unfold linkAndBridge
  split
  · exact altGrows_refl _
  · exact altGrows_trans (linkEdges_altGrows _ _ _) (linkEdges_altGrows _ _ _)

/-- A fold of a step that keeps `AltGrows` keeps it. -/
theorem foldlM_altGrows {α σ : Type} (proj : σ → RepeatGraph) (step : σ → α → Option σ)
    (hstep : ∀ (st st2 : σ) (x : α),
      (∀ e, (proj st).complementEdge ((proj st).complementEdge e) = e) →
      step st x = some st2 → AltGrows (proj st) (proj st2))
    (items : List α) :
    ∀ (st st2 : σ), (∀ e, (proj st).complementEdge ((proj st).complementEdge e) = e) →
      items.foldlM step st = some st2 → AltGrows (proj st) (proj st2) := by
  induction items with
  | nil =>
    intro st st2 _ h
    simp only [List.foldlM_nil, pure, Option.some.injEq] at h
    subst h
    exact altGrows_refl _
  | cons x rest ih =>
    intro st st2 hinv h
    rw [List.foldlM_cons] at h
    cases hx : step st x with
    | none => rw [hx] at h; exact absurd h (by simp)
    | some st1 =>
      rw [hx] at h
      have h1 := hstep st st1 x hinv hx
      have hinv1 : ∀ e, (proj st1).complementEdge ((proj st1).complementEdge e) = e := by
        intro e
        rw [h1.1]
        exact hinv e
      exact altGrows_trans h1 (ih st1 st2 hinv1 h)

theorem mark_link_altGrows (g : RepeatGraph)
    (hinv : ∀ e, g.complementEdge (g.complementEdge e) = e) (path : List EdgePtr)
    (b : BridgingSeqs) (inEdge outEdge : EdgePtr) (seq seqCompl : DnaSequence) :
    AltGrows g (linkAndBridge ⟨g.markEdges path, b⟩ inEdge outEdge seq seqCompl).graph :=
  altGrows_trans (markEdges_altGrows path g hinv)
    (linkAndBridge_altGrows ⟨g.markEdges path, b⟩ inEdge outEdge seq seqCompl)

theorem mark2_link_altGrows (g : RepeatGraph)
    (hinv : ∀ e, g.complementEdge (g.complementEdge e) = e) (path1 path2 : List EdgePtr)
    (b : BridgingSeqs) (inEdge outEdge : EdgePtr) (seq seqCompl : DnaSequence) :
    AltGrows g
      (linkAndBridge ⟨(g.markEdges path1).markEdges path2, b⟩ inEdge outEdge seq
        seqCompl).graph := by
  have h1 := markEdges_altGrows path1 g hinv
  have hinv1 : ∀ e, (g.markEdges path1).complementEdge
      ((g.markEdges path1).complementEdge e) = e := by
    intro e
    rw [h1.1]
    exact hinv e
  exact altGrows_trans h1 (mark_link_altGrows _ hinv1 path2 b inEdge outEdge seq seqCompl)

theorem bulgeMask_altGrows (env : ResolverEnv) (st st2 : Int × Resolver)
    (p0 p1 entrancePath exitPath : UnbranchingPath)
    (hinv : ∀ e, st.2.graph.complementEdge (st.2.graph.complementEdge e) = e)
    (h : bulgeMask env st p0 p1 entrancePath exitPath = some st2) :
    AltGrows st.2.graph st2.2.graph := by
  unfold bulgeMask at h
  simp only [Option.bind_eq_bind, Option.bind_eq_some] at h
  obtain ⟨front0, _, front1, _, inEdge, _, outEdge, _, h⟩ := h
  injection h with h
  subst h
  exact mark2_link_altGrows _ hinv _ _ _ _ _ _ _

theorem bulgeStep_altGrows (env : ResolverEnv) (unbranchingPaths : List UnbranchingPath)
    (st st2 : Int × Resolver) (path : UnbranchingPath)
    (hinv : ∀ e, st.2.graph.complementEdge (st.2.graph.complementEdge e) = e)
    (h : bulgeStep env unbranchingPaths st path = some st2) :
    AltGrows st.2.graph st2.2.graph := by
  unfold bulgeStep at h
  split at h
  · injection h with h; subst h; exact altGrows_refl _
  · split at h
    · split at h
      · injection h with h; subst h; exact altGrows_refl _
      · split at h
        · injection h with h; subst h; exact altGrows_refl _
        · simp only [Option.bind_eq_bind, Option.bind_eq_some] at h
          obtain ⟨entrancePath, _, exitPath, _, h⟩ := h
          split at h
          · injection h with h; subst h; exact altGrows_refl _
          · split at h
            · injection h with h; subst h; exact altGrows_refl _
            · exact bulgeMask_altGrows env st st2 _ _ _ _ hinv h
    · injection h with h; subst h; exact altGrows_refl _

theorem loopMask_altGrows (env : ResolverEnv) (st st2 : Int × Resolver)
    (loop entrancePath exitPath : UnbranchingPath) (loopFront : EdgePtr)
    (hinv : ∀ e, st.2.graph.complementEdge (st.2.graph.complementEdge e) = e)
    (h : loopMask env st loop entrancePath exitPath loopFront = some st2) :
    AltGrows st.2.graph st2.2.graph := by
  unfold loopMask at h
  simp only [Option.bind_eq_bind, Option.bind_eq_some] at h
  obtain ⟨inEdge, _, outEdge, _, h⟩ := h
  split at h
  · injection h with h
    subst h
    exact mark_link_altGrows _ hinv _ _ _ _ _ _
  · injection h with h
    subst h
    exact mark_link_altGrows _ hinv _ _ _ _ _ _

theorem loopStep_altGrows (env : ResolverEnv) (unbranchingPaths : List UnbranchingPath)
    (st st2 : Int × Resolver) (loop : UnbranchingPath)
    (hinv : ∀ e, st.2.graph.complementEdge (st.2.graph.complementEdge e) = e)
    (h : loopStep env unbranchingPaths st loop = some st2) :
    AltGrows st.2.graph st2.2.graph := by
  unfold loopStep at h
  split at h
  · injection h with h; subst h; exact altGrows_refl _
  · split at h
    · injection h with h; subst h; exact altGrows_refl _
    · simp only [Option.bind_eq_bind, Option.bind_eq_some] at h
      obtain ⟨loopFront, _, h⟩ := h
      split at h
      · injection h with h; subst h; exact altGrows_refl _
      · split at h
        · injection h with h; subst h; exact altGrows_refl _
        · simp only [Option.bind_eq_some] at h
          obtain ⟨entrancePath, _, exitPath, _, h⟩ := h
          split at h
          · injection h with h; subst h; exact altGrows_refl _
          · split at h
            · injection h with h; subst h; exact altGrows_refl _
            · split at h
              · injection h with h; subst h; exact altGrows_refl _
              · split at h
                · injection h with h; subst h; exact altGrows_refl _
                · exact loopMask_altGrows env st st2 _ _ _ _ hinv h

theorem variantMarkStep_altGrows (env : ResolverEnv) (st st2 : Int × Resolver)
    (varSegment : VariantPaths)
    (hinv : ∀ e, st.2.graph.complementEdge (st.2.graph.complementEdge e) = e)
    (h : variantMarkStep env st varSegment = some st2) :
    AltGrows st.2.graph st2.2.graph := by
  unfold variantMarkStep at h
  simp only [Option.bind_eq_bind, Option.bind_eq_some] at h
  obtain ⟨inner, _, segStart, _, segEnd, _, h⟩ := h
  split at h
  · injection h with h
    subst h
    exact markEdges_altGrows _ _ hinv
  · simp only [Option.bind_eq_some] at h
    obtain ⟨branch0, _, first, _, last, _, h⟩ := h
    injection h with h
    subst h
    exact mark_link_altGrows _ hinv _ _ _ _ _ _

theorem superbubbleStep_altGrows (env : ResolverEnv) (fuel : Nat) (loopedEdges : List EdgePtr)
    (st st2 : Int × List EdgePtr × Resolver) (startEdge : EdgePtr)
    (hinv : ∀ e, st.2.2.graph.complementEdge (st.2.2.graph.complementEdge e) = e)
    (h : superbubbleStep env fuel loopedEdges st startEdge = some st2) :
    AltGrows st.2.2.graph st2.2.2.graph := by
  unfold superbubbleStep at h
  simp only at h
  split at h
  · injection h with h; subst h; exact altGrows_refl _
  · split at h
    · injection h with h; subst h; exact altGrows_refl _
    · split at h
      · injection h with h; subst h; exact altGrows_refl _
      · simp only [Option.bind_eq_bind, Option.bind_eq_some] at h
        obtain ⟨fwdBubble, _, h⟩ := h
        split at h
        · injection h with h; subst h; exact altGrows_refl _
        · split at h
          · injection h with h; subst h; exact altGrows_refl _
          · simp only [Option.bind_eq_some] at h
            obtain ⟨revBubble, _, h⟩ := h
            split at h
            · injection h with h; subst h; exact altGrows_refl _
            · split at h
              · injection h with h; subst h; exact altGrows_refl _
              · split at h
                · injection h with h
                  subst h
                  exact markEdges_altGrows _ _ hinv
                · split at h
                  · exact absurd h (by simp)
                  · injection h with h
                    subst h
                    exact mark_link_altGrows _ hinv _ _ _ _ _ _

theorem findHeterozygousBulges_altGrows (env : ResolverEnv) (r : Resolver)
    (hinv : ∀ e, r.graph.complementEdge (r.graph.complementEdge e) = e)
    (res : Int × Resolver) (h : findHeterozygousBulges env r = some res) :
    AltGrows r.graph res.2.graph := by
  unfold findHeterozygousBulges at h
  exact foldlM_altGrows (fun st : Int × Resolver => st.2.graph) _
    (fun st st2 x hi hs => bulgeStep_altGrows env _ st st2 x hi hs) _ (0, r) res hinv h

theorem findHeterozygousLoops_altGrows (env : ResolverEnv) (r : Resolver)
    (hinv : ∀ e, r.graph.complementEdge (r.graph.complementEdge e) = e)
    (res : Int × Resolver) (h : findHeterozygousLoops env r = some res) :
    AltGrows r.graph res.2.graph := by
  unfold findHeterozygousLoops at h
  exact foldlM_altGrows (fun st : Int × Resolver => st.2.graph) _
    (fun st st2 x hi hs => loopStep_altGrows env _ st st2 x hi hs) _ (0, r) res hinv h

theorem findComplexHaplotypes_altGrows (env : ResolverEnv) (r : Resolver)
    (hinv : ∀ e, r.graph.complementEdge (r.graph.complementEdge e) = e)
    (res : Int × Resolver) (h : findComplexHaplotypes env r = some res) :
    AltGrows r.graph res.2.graph := by
  unfold findComplexHaplotypes at h
  simp only [Option.bind_eq_bind, Option.bind_eq_some] at h
  obtain ⟨found, _, marked, hmarked, h⟩ := h
  injection h with h
  subst h
  exact foldlM_altGrows (fun st : Int × Resolver => st.2.graph) _
    (fun st st2 x hi hs => variantMarkStep_altGrows env st st2 x hi hs) _ (0, r) marked hinv
    hmarked

theorem findSuperbubbles_altGrows (env : ResolverEnv) (fuel : Nat) (r : Resolver)
    (hinv : ∀ e, r.graph.complementEdge (r.graph.complementEdge e) = e)
    (res : Int × Resolver) (h : findSuperbubbles env fuel r = some res) :
    AltGrows r.graph res.2.graph := by
  unfold findSuperbubbles at h
  simp only [Option.bind_eq_bind, Option.bind_eq_some] at h
  obtain ⟨done, hdone, h⟩ := h
  injection h with h
  subst h
  exact foldlM_altGrows (fun st : Int × List EdgePtr × Resolver => st.2.2.graph) _
    (fun st st2 x hi hs => superbubbleStep_altGrows env fuel _ st st2 x hi hs) _ (0, [], r)
    done hinv hdone

/-- C10: with `complementEdge` an involution, each of `findHeterozygousBulges`,
`findHeterozygousLoops`, `findComplexHaplotypes` and `findSuperbubbles` keeps
`altHaplotype(e) == altHaplotype(complementEdge(e))` for all edges when it held before,
and never turns a flag from `true` to `false`. -/
theorem altHaplotype_symmetry_invariant (env : ResolverEnv) (fuel : Nat) (r : Resolver)
    (hinv : ∀ e, r.graph.complementEdge (r.graph.complementEdge e) = e)
    (res : Int × Resolver)
    (hphase : findHeterozygousBulges env r = some res ∨
      findHeterozygousLoops env r = some res ∨
      findComplexHaplotypes env r = some res ∨
      findSuperbubbles env fuel r = some res) :
    (AltSymmetric r.graph → AltSymmetric res.2.graph) ∧
    (∀ e : EdgePtr, (r.graph.edge e).altHaplotype = true →
      (res.2.graph.edge e).altHaplotype = true) := by
  have hgrows : AltGrows r.graph res.2.graph := by
    rcases hphase with h | h | h | h
    · exact findHeterozygousBulges_altGrows env r hinv res h
    · exact findHeterozygousLoops_altGrows env r hinv res h
    · exact findComplexHaplotypes_altGrows env r hinv res h
    · exact findSuperbubbles_altGrows env fuel r hinv res h
  exact hgrows.2

theorem diamondGraph_altSymmetric : AltSymmetric diamondGraph := by
  have hfalse : ∀ e, (diamondEdge e).altHaplotype = false := by
    intro e
    unfold diamondEdge
    split <;> rfl
  intro e
  show (diamondEdge e).altHaplotype = (diamondEdge (exampleRc e)).altHaplotype
  rw [hfalse, hfalse]

theorem diamond_bulges_isSome :
    (findHeterozygousBulges exampleResolverEnv ⟨diamondGraph, []⟩).isSome = true := by
  decide

/-- C10 on the diamond of scenario S3: `findHeterozygousBulges` flags branch `A`
(edge 2), and the flags are complement-symmetric afterwards. -/
theorem altHaplotype_symmetry_invariant_witness :
    (diamondGraph.edge 2).altHaplotype = false ∧
    ((((findHeterozygousBulges exampleResolverEnv ⟨diamondGraph, []⟩).get
      diamond_bulges_isSome).2.graph.edge 2).altHaplotype = true) ∧
    AltSymmetric
      ((findHeterozygousBulges exampleResolverEnv ⟨diamondGraph, []⟩).get
        diamond_bulges_isSome).2.graph :=
  ⟨by decide, by decide,
    (altHaplotype_symmetry_invariant exampleResolverEnv 0 ⟨diamondGraph, []⟩
      exampleRc_involutive
      ((findHeterozygousBulges exampleResolverEnv ⟨diamondGraph, []⟩).get diamond_bulges_isSome)
      (Or.inl (Option.some_get diamond_bulges_isSome).symm)).1 diamondGraph_altSymmetric⟩

/-! ## Theorems: links under the detection phases -/

theorem setAlt_rightLink (g : RepeatGraph) (e x : EdgePtr) :
    ((g.setAlt e).edge x).rightLink = (g.edge x).rightLink := by
  unfold RepeatGraph.setAlt
  by_cases hx : x = e
  · subst hx
    simp
  · simp [Function.update_noteq hx]

theorem setAlt_leftLink (g : RepeatGraph) (e x : EdgePtr) :
    ((g.setAlt e).edge x).leftLink = (g.edge x).leftLink := by
  unfold RepeatGraph.setAlt
  by_cases hx : x = e
  · subst hx
    simp
  · simp [Function.update_noteq hx]

theorem markEdges_links (path : List EdgePtr) :
    ∀ (g : RepeatGraph), (g.markEdges path).complementEdge = g.complementEdge ∧
      ∀ x : EdgePtr, ((g.markEdges path).edge x).rightLink = (g.edge x).rightLink ∧
        ((g.markEdges path).edge x).leftLink = (g.edge x).leftLink := by
  induction path with
  | nil => intro g; exact ⟨rfl, fun x => ⟨rfl, rfl⟩⟩
  | cons e rest ih =>
    intro g
    unfold RepeatGraph.markEdges
    rw [List.foldl_cons]
    obtain ⟨h1, h2⟩ := ih (g.markEdge e)
    refine ⟨h1, fun x => ?_⟩
    have hx := h2 x
    unfold RepeatGraph.markEdges at hx
    rw [hx.1, hx.2]
    unfold RepeatGraph.markEdge
    rw [setAlt_rightLink, setAlt_rightLink, setAlt_leftLink, setAlt_leftLink]
    exact ⟨rfl, rfl⟩

theorem linkEdges_rightLink (g : RepeatGraph) (a b x : EdgePtr) :
    ((g.linkEdges a b).edge x).rightLink =
      if x = a then some b else (g.edge x).rightLink := by
  unfold RepeatGraph.linkEdges
  simp only
  by_cases hb : x = b
  · subst hb
    simp only [Function.update_same]
    by_cases ha : x = a
    · subst ha
      simp
    · simp [Function.update_noteq ha, ha]
  · simp only [Function.update_noteq hb]
    by_cases ha : x = a
    · subst ha
      simp
    · simp [Function.update_noteq ha, ha]

theorem linkEdges_leftLink (g : RepeatGraph) (a b x : EdgePtr) :
    ((g.linkEdges a b).edge x).leftLink =
      if x = b then some a else (g.edge x).leftLink := by
  unfold RepeatGraph.linkEdges
  simp only
  by_cases hb : x = b
  · subst hb
    simp
  · simp only [Function.update_noteq hb, if_neg hb]
    by_cases ha : x = a
    · subst ha
      simp
    · simp [Function.update_noteq ha]

theorem linkConsistent_rightLink_compl (g : RepeatGraph)
    (hinv : ∀ e, g.complementEdge (g.complementEdge e) = e) (hcons : LinkConsistent g)
    (o : EdgePtr) (hL : (g.edge o).leftLink = none) :
    (g.edge (g.complementEdge o)).rightLink = none := by
  cases hx : (g.edge (g.complementEdge o)).rightLink with
  | none => rfl
  | some x =>
    exfalso
    have h1 := ((hcons (g.complementEdge o) x).1.mp hx)
    have h2 := ((hcons (g.complementEdge o) x).2.mp h1)
    rw [hinv] at h2
    have h3 := ((hcons (g.complementEdge x) o).1.mp h2)
    rw [hL] at h3
    exact absurd h3 (by simp)

theorem linkConsistent_leftLink_compl (g : RepeatGraph)
    (hinv : ∀ e, g.complementEdge (g.complementEdge e) = e) (hcons : LinkConsistent g)
    (i : EdgePtr) (hR : (g.edge i).rightLink = none) :
    (g.edge (g.complementEdge i)).leftLink = none := by
  cases hy : (g.edge (g.complementEdge i)).leftLink with
  | none => rfl
  | some y =>
    exfalso
    have h1 := ((hcons y (g.complementEdge i)).2.mp hy)
    rw [hinv, hR] at h1
    exact absurd h1 (by simp)

/-- Installing the links `i → o` and `c o → c i` on a consistent graph where `i` has no
right link and `o` no left link gives a consistent graph and overwrites nothing. -/
theorem linkPair_linkGrows (g : RepeatGraph)
    (hinv : ∀ e, g.complementEdge (g.complementEdge e) = e) (i o : EdgePtr)
    (hR : (g.edge i).rightLink = none) (hL : (g.edge o).leftLink = none) :
    LinkGrows g ((g.linkEdges i o).linkEdges (g.complementEdge o) (g.complementEdge i)) := by
  refine ⟨rfl, fun hcons => ?_⟩
  have hR2 := linkConsistent_rightLink_compl g hinv hcons o hL
  have hL2 := linkConsistent_leftLink_compl g hinv hcons i hR
  have hinj : ∀ a b, g.complementEdge a = g.complementEdge b → a = b := by
    intro a b h
    have := congrArg g.complementEdge h
    rwa [hinv, hinv] at this
  have hswap : ∀ a b, g.complementEdge a = b ↔ a = g.complementEdge b := by
    intro a b
    constructor
    · intro h
      rw [← h, hinv]
    · intro h
      rw [h, hinv]
  have hRchar : ∀ e f,
      (((g.linkEdges i o).linkEdges (g.complementEdge o) (g.complementEdge i)).edge e).rightLink
        = some f ↔
      ((e = g.complementEdge o ∧ f = g.complementEdge i) ∨ (e = i ∧ f = o) ∨
        (g.edge e).rightLink = some f) := by
    intro e f
    rw [linkEdges_rightLink, linkEdges_rightLink]
    by_cases h1 : e = g.complementEdge o
    · subst h1
      rw [if_pos rfl, hR2]
      constructor
      · intro h
        injection h with h
        exact Or.inl ⟨rfl, h.symm⟩
      · rintro (⟨_, h⟩ | ⟨h1, h2⟩ | h)
        · rw [h]
        · rw [h2, ← h1, hinv]
        · exact absurd h (by simp)
    · rw [if_neg h1]
      by_cases h2 : e = i
      · subst h2
        rw [if_pos rfl, hR]
        constructor
        · intro h
          injection h with h
          exact Or.inr (Or.inl ⟨rfl, h.symm⟩)
        · rintro (⟨h, _⟩ | ⟨_, h⟩ | h)
          · exact absurd h h1
          · rw [h]
          · exact absurd h (by simp)
      · rw [if_neg h2]
        constructor
        · intro h
          exact Or.inr (Or.inr h)
        · rintro (⟨h, _⟩ | ⟨h, _⟩ | h)
          · exact absurd h h1
          · exact absurd h h2
          · exact h
  have hLchar : ∀ e f,
      (((g.linkEdges i o).linkEdges (g.complementEdge o) (g.complementEdge i)).edge f).leftLink
        = some e ↔
      ((e = g.complementEdge o ∧ f = g.complementEdge i) ∨ (e = i ∧ f = o) ∨
        (g.edge f).leftLink = some e) := by
    intro e f
    rw [linkEdges_leftLink, linkEdges_leftLink]
    by_cases h1 : f = g.complementEdge i
    · subst h1
      rw [if_pos rfl, hL2]
      constructor
      · intro h
        injection h with h
        exact Or.inl ⟨h.symm, rfl⟩
      · rintro (⟨h, _⟩ | ⟨h1, h2⟩ | h)
        · rw [h]
        · rw [h1, ← h2, hinv]
        · exact absurd h (by simp)
    · rw [if_neg h1]
      by_cases h2 : f = o
      · subst h2
        rw [if_pos rfl, hL]
        constructor
        · intro h
          injection h with h
          exact Or.inr (Or.inl ⟨h.symm, rfl⟩)
        · rintro (⟨_, h⟩ | ⟨h, _⟩ | h)
          · exact absurd h h1
          · rw [h]
          · exact absurd h (by simp)
      · rw [if_neg h2]
        constructor
        · intro h
          exact Or.inr (Or.inr h)
        · rintro (⟨_, h⟩ | ⟨_, h⟩ | h)
          · exact absurd h h1
          · exact absurd h h2
          · exact h
  refine ⟨?_, ?_, ?_⟩
  · intro e f
    constructor
    · rw [hRchar, hLchar, (hcons e f).1]
    · show _ ↔ (((g.linkEdges i o).linkEdges (g.complementEdge o) (g.complementEdge i)).edge
        (g.complementEdge f)).rightLink = some (g.complementEdge e)
      rw [hRchar, hLchar, (hcons e f).2]
      constructor
      · rintro (⟨h1, h2⟩ | ⟨h1, h2⟩ | h)
        · exact Or.inr (Or.inl ⟨by rw [h2, hinv], by rw [h1, hinv]⟩)
        · exact Or.inl ⟨by rw [h2], by rw [h1]⟩
        · exact Or.inr (Or.inr h)
      · rintro (⟨h1, h2⟩ | ⟨h1, h2⟩ | h)
        · exact Or.inr (Or.inl ⟨hinj _ _ h2, hinj _ _ h1⟩)
        · exact Or.inl ⟨(hswap e o).mp h2, (hswap f i).mp h1⟩
        · exact Or.inr (Or.inr h)
  · intro e f h
    exact (hRchar e f).mpr (Or.inr (Or.inr h))
  · intro e f h
    exact (hLchar f e).mpr (Or.inr (Or.inr h))

theorem linkGrows_refl (g : RepeatGraph) : LinkGrows g g :=
  ⟨rfl, fun h => ⟨h, fun _ _ h => h, fun _ _ h => h⟩⟩

theorem linkGrows_trans {g g2 g3 : RepeatGraph} (h1 : LinkGrows g g2) (h2 : LinkGrows g2 g3) :
    LinkGrows g g3 := by
  refine ⟨h2.1.trans h1.1, fun hcons => ?_⟩
  obtain ⟨c2, r2, l2⟩ := h1.2 hcons
  obtain ⟨c3, r3, l3⟩ := h2.2 c2
  exact ⟨c3, fun e f h => r3 e f (r2 e f h), fun e f h => l3 e f (l2 e f h)⟩

theorem markEdges_linkGrows (g : RepeatGraph) (path : List EdgePtr) :
    LinkGrows g (g.markEdges path) := by
  obtain ⟨hc, hl⟩ := markEdges_links path g
  refine ⟨hc, fun hcons => ⟨?_, ?_, ?_⟩⟩
  · intro e f
    rw [(hl e).1, (hl f).2, hc, (hl (g.complementEdge f)).1]
    exact hcons e f
  · intro e f h
    rw [(hl e).1]
    exact h
  · intro e f h
    rw [(hl e).2]
    exact h

theorem linkAndBridge_linkGrows (r : Resolver)
    (hinv : ∀ e, r.graph.complementEdge (r.graph.complementEdge e) = e)
    (inEdge outEdge : EdgePtr) (seq seqCompl : DnaSequence) :
    LinkGrows r.graph (linkAndBridge r inEdge outEdge seq seqCompl).graph := by
  unfold linkAndBridge
  split
  · exact linkGrows_refl _
  · next hguard =>
    have hR : (r.graph.edge inEdge).rightLink = none := by
      cases h : (r.graph.edge inEdge).rightLink with
      | none => rfl
      | some x => rw [h] at hguard; simp at hguard
    have hL : (r.graph.edge outEdge).leftLink = none := by
      cases h : (r.graph.edge outEdge).leftLink with
      | none => rfl
      | some x => rw [h] at hguard; simp at hguard
    exact linkPair_linkGrows r.graph hinv inEdge outEdge hR hL

theorem detectStep_complementEdge {g g2 : RepeatGraph} (h : DetectStep g g2) :
    g2.complementEdge = g.complementEdge := by
  induction h with
  | refl g => rfl
  | mark g path => exact (markEdges_links path g).1
  | link g b inEdge outEdge seq seqCompl =>
    unfold linkAndBridge
    split <;> rfl
  | trans _ _ ih1 ih2 => exact ih2.trans ih1

theorem detectStep_linkGrows {g g2 : RepeatGraph} (h : DetectStep g g2) :
    (∀ e, g.complementEdge (g.complementEdge e) = e) → LinkGrows g g2 := by
  induction h with
  | refl g => intro _; exact linkGrows_refl g
  | mark g path => intro _; exact markEdges_linkGrows g path
  | link g b inEdge outEdge seq seqCompl =>
    intro hinv
    exact linkAndBridge_linkGrows ⟨g, b⟩ hinv inEdge outEdge seq seqCompl
  | trans h1 _ ih1 ih2 =>
    intro hinv
    have hc := detectStep_complementEdge h1
    exact linkGrows_trans (ih1 hinv) (ih2 (by intro e; rw [hc]; exact hinv e))

theorem foldlM_detectStep {α σ : Type} (proj : σ → RepeatGraph) (step : σ → α → Option σ)
    (hstep : ∀ (st st2 : σ) (x : α), step st x = some st2 → DetectStep (proj st) (proj st2))
    (items : List α) :
    ∀ (st st2 : σ), items.foldlM step st = some st2 → DetectStep (proj st) (proj st2) := by
  induction items with
  | nil =>
    intro st st2 h
    simp only [List.foldlM_nil, pure, Option.some.injEq] at h
    subst h
    exact DetectStep.refl _
  | cons x rest ih =>
    intro st st2 h
    rw [List.foldlM_cons] at h
    cases hx : step st x with
    | none => rw [hx] at h; exact absurd h (by simp)
    | some st1 =>
      rw [hx] at h
      exact DetectStep.trans (hstep st st1 x hx) (ih st1 st2 h)

theorem bulgeMask_detectStep (env : ResolverEnv) (st st2 : Int × Resolver)
    (p0 p1 entrancePath exitPath : UnbranchingPath)
    (h : bulgeMask env st p0 p1 entrancePath exitPath = some st2) :
    DetectStep st.2.graph st2.2.graph := by
  unfold bulgeMask at h
  simp only [Option.bind_eq_bind, Option.bind_eq_some] at h
  obtain ⟨front0, _, front1, _, inEdge, _, outEdge, _, h⟩ := h
  injection h with h
  subst h
  exact DetectStep.trans (DetectStep.trans (DetectStep.mark _ _) (DetectStep.mark _ _))
    (DetectStep.link _ _ _ _ _ _)

theorem bulgeStep_detectStep (env : ResolverEnv) (unbranchingPaths : List UnbranchingPath)
    (st st2 : Int × Resolver) (path : UnbranchingPath)
    (h : bulgeStep env unbranchingPaths st path = some st2) :
    DetectStep st.2.graph st2.2.graph := by
  unfold bulgeStep at h
  split at h
  · injection h with h; subst h; exact DetectStep.refl _
  · split at h
    · split at h
      · injection h with h; subst h; exact DetectStep.refl _
      · split at h
        · injection h with h; subst h; exact DetectStep.refl _
        · simp only [Option.bind_eq_bind, Option.bind_eq_some] at h
          obtain ⟨entrancePath, _, exitPath, _, h⟩ := h
          split at h
          · injection h with h; subst h; exact DetectStep.refl _
          · split at h
            · injection h with h; subst h; exact DetectStep.refl _
            · exact bulgeMask_detectStep env st st2 _ _ _ _ h
    · injection h with h; subst h; exact DetectStep.refl _

theorem loopMask_detectStep (env : ResolverEnv) (st st2 : Int × Resolver)
    (loop entrancePath exitPath : UnbranchingPath) (loopFront : EdgePtr)
    (h : loopMask env st loop entrancePath exitPath loopFront = some st2) :
    DetectStep st.2.graph st2.2.graph := by
  unfold loopMask at h
  simp only [Option.bind_eq_bind, Option.bind_eq_some] at h
  obtain ⟨inEdge, _, outEdge, _, h⟩ := h
  split at h
  · injection h with h
    subst h
    exact DetectStep.trans (DetectStep.mark _ _) (DetectStep.link _ _ _ _ _ _)
  · injection h with h
    subst h
    exact DetectStep.trans (DetectStep.mark _ _) (DetectStep.link _ _ _ _ _ _)

theorem loopStep_detectStep (env : ResolverEnv) (unbranchingPaths : List UnbranchingPath)
    (st st2 : Int × Resolver) (loop : UnbranchingPath)
    (h : loopStep env unbranchingPaths st loop = some st2) :
    DetectStep st.2.graph st2.2.graph := by
  unfold loopStep at h
  split at h
  · injection h with h; subst h; exact DetectStep.refl _
  · split at h
    · injection h with h; subst h; exact DetectStep.refl _
    · simp only [Option.bind_eq_bind, Option.bind_eq_some] at h
      obtain ⟨loopFront, _, h⟩ := h
      split at h
      · injection h with h; subst h; exact DetectStep.refl _
      · split at h
        · injection h with h; subst h; exact DetectStep.refl _
        · simp only [Option.bind_eq_some] at h
          obtain ⟨entrancePath, _, exitPath, _, h⟩ := h
          split at h
          · injection h with h; subst h; exact DetectStep.refl _
          · split at h
            · injection h with h; subst h; exact DetectStep.refl _
            · split at h
              · injection h with h; subst h; exact DetectStep.refl _
              · split at h
                · injection h with h; subst h; exact DetectStep.refl _
                · exact loopMask_detectStep env st st2 _ _ _ _ h

theorem variantMarkStep_detectStep (env : ResolverEnv) (st st2 : Int × Resolver)
    (varSegment : VariantPaths) (h : variantMarkStep env st varSegment = some st2) :
    DetectStep st.2.graph st2.2.graph := by
  unfold variantMarkStep at h
  simp only [Option.bind_eq_bind, Option.bind_eq_some] at h
  obtain ⟨inner, _, segStart, _, segEnd, _, h⟩ := h
  split at h
  · injection h with h
    subst h
    exact DetectStep.mark _ _
  · simp only [Option.bind_eq_some] at h
    obtain ⟨branch0, _, first, _, last, _, h⟩ := h
    injection h with h
    subst h
    exact DetectStep.trans (DetectStep.mark _ _) (DetectStep.link _ _ _ _ _ _)

theorem superbubbleStep_detectStep (env : ResolverEnv) (fuel : Nat)
    (loopedEdges : List EdgePtr) (st st2 : Int × List EdgePtr × Resolver) (startEdge : EdgePtr)
    (h : superbubbleStep env fuel loopedEdges st startEdge = some st2) :
    DetectStep st.2.2.graph st2.2.2.graph := by
  unfold superbubbleStep at h
  simp only at h
  split at h
  · injection h with h; subst h; exact DetectStep.refl _
  · split at h
    · injection h with h; subst h; exact DetectStep.refl _
    · split at h
      · injection h with h; subst h; exact DetectStep.refl _
      · simp only [Option.bind_eq_bind, Option.bind_eq_some] at h
        obtain ⟨fwdBubble, _, h⟩ := h
        split at h
        · injection h with h; subst h; exact DetectStep.refl _
        · split at h
          · injection h with h; subst h; exact DetectStep.refl _
          · simp only [Option.bind_eq_some] at h
            obtain ⟨revBubble, _, h⟩ := h
            split at h
            · injection h with h; subst h; exact DetectStep.refl _
            · split at h
              · injection h with h; subst h; exact DetectStep.refl _
              · split at h
                · injection h with h
                  subst h
                  exact DetectStep.mark _ _
                · split at h
                  · exact absurd h (by simp)
                  · injection h with h
                    subst h
                    exact DetectStep.trans (DetectStep.mark _ _) (DetectStep.link _ _ _ _ _ _)

theorem findHeterozygousBulges_detectStep (env : ResolverEnv) (r : Resolver)
    (res : Int × Resolver) (h : findHeterozygousBulges env r = some res) :
    DetectStep r.graph res.2.graph := by
  unfold findHeterozygousBulges at h
  exact foldlM_detectStep (fun st : Int × Resolver => st.2.graph) _
    (fun st st2 x hs => bulgeStep_detectStep env _ st st2 x hs) _ (0, r) res h

theorem findHeterozygousLoops_detectStep (env : ResolverEnv) (r : Resolver)
    (res : Int × Resolver) (h : findHeterozygousLoops env r = some res) :
    DetectStep r.graph res.2.graph := by
  unfold findHeterozygousLoops at h
  exact foldlM_detectStep (fun st : Int × Resolver => st.2.graph) _
    (fun st st2 x hs => loopStep_detectStep env _ st st2 x hs) _ (0, r) res h

theorem findComplexHaplotypes_detectStep (env : ResolverEnv) (r : Resolver)
    (res : Int × Resolver) (h : findComplexHaplotypes env r = some res) :
    DetectStep r.graph res.2.graph := by
  unfold findComplexHaplotypes at h
  simp only [Option.bind_eq_bind, Option.bind_eq_some] at h
  obtain ⟨found, _, marked, hmarked, h⟩ := h
  injection h with h
  subst h
  exact foldlM_detectStep (fun st : Int × Resolver => st.2.graph) _
    (fun st st2 x hs => variantMarkStep_detectStep env st st2 x hs) _ (0, r) marked hmarked

theorem findSuperbubbles_detectStep (env : ResolverEnv) (fuel : Nat) (r : Resolver)
    (res : Int × Resolver) (h : findSuperbubbles env fuel r = some res) :
    DetectStep r.graph res.2.graph := by
  unfold findSuperbubbles at h
  simp only [Option.bind_eq_bind, Option.bind_eq_some] at h
  obtain ⟨done, hdone, h⟩ := h
  injection h with h
  subst h
  exact foldlM_detectStep (fun st : Int × List EdgePtr × Resolver => st.2.2.graph) _
    (fun st st2 x hs => superbubbleStep_detectStep env fuel _ st st2 x hs) _ (0, [], r)
    done hdone

/-- Every run of a detection phase that returns changes the graph only by marking and
linking steps. -/
theorem phase_detectStep (env : ResolverEnv) (fuel : Nat) (r : Resolver)
    (res : Int × Resolver)
    (hphase : findHeterozygousBulges env r = some res ∨
      findHeterozygousLoops env r = some res ∨
      findComplexHaplotypes env r = some res ∨
      findSuperbubbles env fuel r = some res) :
    DetectStep r.graph res.2.graph := by
  rcases hphase with h | h | h | h
  · exact findHeterozygousBulges_detectStep env r res h
  · exact findHeterozygousLoops_detectStep env r res h
  · exact findComplexHaplotypes_detectStep env r res h
  · exact findSuperbubbles_detectStep env fuel r res h

/-- C11: with `complementEdge` an involution and `linkEdges(a, b)` setting
`a.rightLink = b` and `b.leftLink = a`, each detection phase keeps link consistency
(for all `e`, `f`: `e.rightLink == f` iff `f.leftLink == e` iff
`complement(f).rightLink == complement(e)`), and never overwrites a non-null
`leftLink` or `rightLink`. -/
theorem link_consistency_invariant (env : ResolverEnv) (fuel : Nat) (r : Resolver)
    (hinv : ∀ e, r.graph.complementEdge (r.graph.complementEdge e) = e)
    (hcons : LinkConsistent r.graph)
    (res : Int × Resolver)
    (hphase : findHeterozygousBulges env r = some res ∨
      findHeterozygousLoops env r = some res ∨
      findComplexHaplotypes env r = some res ∨
      findSuperbubbles env fuel r = some res) :
    LinkConsistent res.2.graph ∧
    (∀ e f : EdgePtr, (r.graph.edge e).rightLink = some f →
      (res.2.graph.edge e).rightLink = some f) ∧
    (∀ e f : EdgePtr, (r.graph.edge e).leftLink = some f →
      (res.2.graph.edge e).leftLink = some f) :=
  (detectStep_linkGrows (phase_detectStep env fuel r res hphase) hinv).2 hcons

theorem diamondEdge_links (e : EdgePtr) :
    (diamondEdge e).rightLink = none ∧ (diamondEdge e).leftLink = none := by
  unfold diamondEdge
  split <;> exact ⟨rfl, rfl⟩

theorem diamondGraph_linkConsistent : LinkConsistent diamondGraph := by
  intro e f
  show ((diamondEdge e).rightLink = some f ↔ (diamondEdge f).leftLink = some e) ∧
    ((diamondEdge f).leftLink = some e ↔
      (diamondEdge (exampleRc f)).rightLink = some (exampleRc e))
  rw [(diamondEdge_links e).1, (diamondEdge_links f).2, (diamondEdge_links (exampleRc f)).1]
  simp

/-- C11 on the diamond of scenario S3: `findHeterozygousBulges` installs `E → X`
(edge 0 to edge 6) and the links are consistent afterwards. -/
theorem link_consistency_invariant_witness :
    (((findHeterozygousBulges exampleResolverEnv ⟨diamondGraph, []⟩).get
      diamond_bulges_isSome).2.graph.edge 0).rightLink = some 6 ∧
    LinkConsistent
      ((findHeterozygousBulges exampleResolverEnv ⟨diamondGraph, []⟩).get
        diamond_bulges_isSome).2.graph :=
  ⟨by decide,
    (link_consistency_invariant exampleResolverEnv 0 ⟨diamondGraph, []⟩
      exampleRc_involutive diamondGraph_linkConsistent
      ((findHeterozygousBulges exampleResolverEnv ⟨diamondGraph, []⟩).get diamond_bulges_isSome)
      (Or.inl (Option.some_get diamond_bulges_isSome).symm)).1⟩

/-! ## Theorems: the bridging-sequence map -/

/-- C12, the failing input: on the loop of scenario S4 (loop coverage 10, entrance and
exit 30), starting from an empty map, `findHeterozygousLoops` registers the stub `"A"`
for `(entrance, exit) = (0, 4)` and the same `"A"` for the complement pair `(5, 1)`,
while the reverse complement of `"A"` is `"T"`. -/
theorem loop_stub_not_mirrored :
    (findHeterozygousLoops revCompEnv ⟨loopGraph 10 30 30, []⟩).map
        (fun res => (res.1, res.2.bridgingSeqs)) =
      some (1, [((5, 1), "A"), ((0, 4), "A")]) ∧
    revCompEnv.dnaComplement "A" = "T" := by
  decide

/-! ## Theorems: `resetEdges` -/

theorem foldl_resetEdge_frame (edges : List EdgePtr) :
    ∀ g : RepeatGraph,
      (edges.foldl RepeatGraph.resetEdge g).edges = g.edges ∧
      (edges.foldl RepeatGraph.resetEdge g).node = g.node ∧
      (edges.foldl RepeatGraph.resetEdge g).numNodes = g.numNodes ∧
      (edges.foldl RepeatGraph.resetEdge g).complementEdge = g.complementEdge := by
  induction edges with
  | nil => intro g; exact ⟨rfl, rfl, rfl, rfl⟩
  | cons e rest ih =>
    intro g
    rw [List.foldl_cons]
    obtain ⟨h1, h2, h3, h4⟩ := ih (g.resetEdge e)
    exact ⟨h1, h2, h3, h4⟩

theorem foldl_resetEdge_edge (edges : List EdgePtr) :
    ∀ (g : RepeatGraph) (x : EdgePtr),
      (edges.foldl RepeatGraph.resetEdge g).edge x =
        if x ∈ edges then
          { g.edge x with leftLink := none, rightLink := none, altHaplotype := false }
        else g.edge x := by
  induction edges with
  | nil => intro g x; simp
  | cons e rest ih =>
    intro g x
    rw [List.foldl_cons, ih]
    unfold RepeatGraph.resetEdge
    by_cases hxe : x = e
    · subst hxe
      simp
    · by_cases hxr : x ∈ rest
      · simp [hxr, hxe, Function.update_noteq hxe]
      · simp [hxr, hxe, Function.update_noteq hxe]

/-- C13: after `resetEdges`, from any state, every edge of the graph has null links and
`altHaplotype == false` and the bridging-sequence map is empty; the edge list, the
nodes with their incidence lists, the complement map and the end nodes, ids, lengths,
coverages and sequences of all edges are unchanged; `resetEdges` is idempotent. -/
theorem resetEdges_clears (r : Resolver) :
    (∀ e ∈ (resetEdges r).graph.edges,
      ((resetEdges r).graph.edge e).leftLink = none ∧
      ((resetEdges r).graph.edge e).rightLink = none ∧
      ((resetEdges r).graph.edge e).altHaplotype = false) ∧
    (resetEdges r).bridgingSeqs = [] ∧
    (resetEdges r).graph.edges = r.graph.edges ∧
    (resetEdges r).graph.node = r.graph.node ∧
    (resetEdges r).graph.numNodes = r.graph.numNodes ∧
    (resetEdges r).graph.complementEdge = r.graph.complementEdge ∧
    (∀ e : EdgePtr,
      ((resetEdges r).graph.edge e).nodeLeft = (r.graph.edge e).nodeLeft ∧
      ((resetEdges r).graph.edge e).nodeRight = (r.graph.edge e).nodeRight ∧
      ((resetEdges r).graph.edge e).edgeId = (r.graph.edge e).edgeId ∧
      ((resetEdges r).graph.edge e).length = (r.graph.edge e).length ∧
      ((resetEdges r).graph.edge e).meanCoverage = (r.graph.edge e).meanCoverage ∧
      ((resetEdges r).graph.edge e).selfComplement = (r.graph.edge e).selfComplement ∧
      ((resetEdges r).graph.edge e).seq = (r.graph.edge e).seq) ∧
    resetEdges (resetEdges r) = resetEdges r := by
  obtain ⟨h1, h2, h3, h4⟩ := foldl_resetEdge_frame r.graph.edges r.graph
  have hedge := foldl_resetEdge_edge r.graph.edges r.graph
  refine ⟨?_, rfl, h1, h2, h3, h4, ?_, ?_⟩
  · intro e he
    have he2 : e ∈ r.graph.edges := by
      have : (resetEdges r).graph.edges = r.graph.edges := h1
      rw [this] at he
      exact he
    have hres : (resetEdges r).graph.edge e =
        { r.graph.edge e with leftLink := none, rightLink := none, altHaplotype := false } := by
      show (r.graph.edges.foldl RepeatGraph.resetEdge r.graph).edge e = _
      rw [hedge, if_pos he2]
    rw [hres]
    exact ⟨rfl, rfl, rfl⟩
  · intro e
    have hres : (resetEdges r).graph.edge e =
        if e ∈ r.graph.edges then
          { r.graph.edge e with leftLink := none, rightLink := none, altHaplotype := false }
        else r.graph.edge e := hedge e
    rw [hres]
    split <;> exact ⟨rfl, rfl, rfl, rfl, rfl, rfl, rfl⟩
  · unfold resetEdges
    simp only [h1]
    congr 1
    have hframe2 := foldl_resetEdge_frame r.graph.edges
      (r.graph.edges.foldl RepeatGraph.resetEdge r.graph)
    obtain ⟨k1, k2, k3, k4⟩ := hframe2
    have hfun : (r.graph.edges.foldl RepeatGraph.resetEdge
        (r.graph.edges.foldl RepeatGraph.resetEdge r.graph)).edge =
        (r.graph.edges.foldl RepeatGraph.resetEdge r.graph).edge := by
      funext x
      rw [foldl_resetEdge_edge, hedge]
      split <;> rfl
    cases hA : r.graph.edges.foldl RepeatGraph.resetEdge
        (r.graph.edges.foldl RepeatGraph.resetEdge r.graph) with
    | mk ea fa na ma ca =>
      cases hB : r.graph.edges.foldl RepeatGraph.resetEdge r.graph with
      | mk eb fb nb mb cb =>
        rw [hA, hB] at k1 k2 k3 k4 hfun
        simp only at k1 k2 k3 k4 hfun
        subst k1 k2 k3 k4 hfun
        rfl

/-! ## Theorems: what the detection phases leave alone -/

theorem sameTopology_refl (g : RepeatGraph) : SameTopology g g :=
  ⟨rfl, rfl, rfl, rfl, fun _ => ⟨rfl, rfl, rfl, rfl, rfl, rfl, rfl⟩⟩

theorem sameTopology_trans {g g2 g3 : RepeatGraph} (h1 : SameTopology g g2)
    (h2 : SameTopology g2 g3) : SameTopology g g3 := by
  obtain ⟨a1, a2, a3, a4, a5⟩ := h1
  obtain ⟨b1, b2, b3, b4, b5⟩ := h2
  refine ⟨b1.trans a1, b2.trans a2, b3.trans a3, b4.trans a4, fun e => ?_⟩
  obtain ⟨x1, x2, x3, x4, x5, x6, x7⟩ := a5 e
  obtain ⟨y1, y2, y3, y4, y5, y6, y7⟩ := b5 e
  exact ⟨y1.trans x1, y2.trans x2, y3.trans x3, y4.trans x4, y5.trans x5, y6.trans x6,
    y7.trans x7⟩

theorem setAlt_sameTopology (g : RepeatGraph) (e : EdgePtr) : SameTopology g (g.setAlt e) := by
  refine ⟨rfl, rfl, rfl, rfl, fun x => ?_⟩
  unfold RepeatGraph.setAlt
  by_cases hx : x = e
  · subst hx
    simp
  · simp [Function.update_noteq hx]

theorem markEdges_sameTopology (path : List EdgePtr) :
    ∀ g : RepeatGraph, SameTopology g (g.markEdges path) := by
  induction path with
  | nil => intro g; exact sameTopology_refl g
  | cons e rest ih =>
    intro g
    unfold RepeatGraph.markEdges
    rw [List.foldl_cons]
    exact sameTopology_trans
      (sameTopology_trans (setAlt_sameTopology g e) (setAlt_sameTopology _ _))
      (ih (g.markEdge e))

theorem linkEdges_sameTopology (g : RepeatGraph) (a b : EdgePtr) :
    SameTopology g (g.linkEdges a b) := by
  refine ⟨rfl, rfl, rfl, rfl, fun x => ?_⟩
  unfold RepeatGraph.linkEdges
  simp only
  by_cases hb : x = b
  · subst hb
    simp only [Function.update_same]
    by_cases ha : x = a
    · subst ha
      simp
    · simp [Function.update_noteq ha]
  · simp only [Function.update_noteq hb]
    by_cases ha : x = a
    · subst ha
      simp
    · simp [Function.update_noteq ha]

theorem linkAndBridge_sameTopology (r : Resolver) (inEdge outEdge : EdgePtr)
    (seq seqCompl : DnaSequence) :
    SameTopology r.graph (linkAndBridge r inEdge outEdge seq seqCompl).graph := by
  unfold linkAndBridge
  split
  · exact sameTopology_refl _
  · exact sameTopology_trans (linkEdges_sameTopology _ _ _) (linkEdges_sameTopology _ _ _)

theorem linkAndBridge_altHaplotype (r : Resolver) (inEdge outEdge : EdgePtr)
    (seq seqCompl : DnaSequence) (x : EdgePtr) :
    ((linkAndBridge r inEdge outEdge seq seqCompl).graph.edge x).altHaplotype =
      (r.graph.edge x).altHaplotype := by
  unfold linkAndBridge
  split
  · rfl
  · simp only
    rw [linkEdges_altHaplotype, linkEdges_altHaplotype]

/-- The flags after marking a path: an edge is flagged iff it was flagged, or lies on
the path, or is the complement of an edge of the path. -/
theorem markEdges_altHaplotype (path : List EdgePtr) :
    ∀ (g : RepeatGraph) (x : EdgePtr),
      ((g.markEdges path).edge x).altHaplotype = true ↔
        ((g.edge x).altHaplotype = true ∨ x ∈ path ∨ ∃ e ∈ path, x = g.complementEdge e) := by
  induction path with
  | nil => intro g x; simp [RepeatGraph.markEdges]
  | cons e rest ih =>
    intro g x
    have hstep : (g.markEdges (e :: rest)) = (g.markEdge e).markEdges rest := by
      unfold RepeatGraph.markEdges
      rw [List.foldl_cons]
    rw [hstep, ih, markEdge_altHaplotype, markEdge_complementEdge]
    simp only [Bool.or_eq_true, decide_eq_true_eq, List.mem_cons, exists_eq_or_imp]
    tauto

theorem detectStep_sameTopology {g g2 : RepeatGraph} (h : DetectStep g g2) :
    SameTopology g g2 := by
  induction h with
  | refl g => exact sameTopology_refl g
  | mark g path => exact markEdges_sameTopology path g
  | link g b inEdge outEdge seq seqCompl =>
    exact linkAndBridge_sameTopology ⟨g, b⟩ inEdge outEdge seq seqCompl
  | trans _ _ ih1 ih2 => exact sameTopology_trans ih1 ih2

theorem detectStep_alt_mono {g g2 : RepeatGraph} (h : DetectStep g g2) :
    ∀ e : EdgePtr, (g.edge e).altHaplotype = true → (g2.edge e).altHaplotype = true := by
  induction h with
  | refl g => intro e he; exact he
  | mark g path =>
    intro e he
    exact (markEdges_altHaplotype path g e).mpr (Or.inl he)
  | link g b inEdge outEdge seq seqCompl =>
    intro e he
    rw [linkAndBridge_altHaplotype]
    exact he
  | trans _ _ ih1 ih2 => intro e he; exact ih2 e (ih1 e he)

/-- What `bulgeMask` returns, spelled out. -/
theorem bulgeMask_eq_some (env : ResolverEnv) (st st2 : Int × Resolver)
    (p0 p1 entrancePath exitPath : UnbranchingPath) :
    bulgeMask env st p0 p1 entrancePath exitPath = some st2 ↔
      ∃ front0 front1 inEdge outEdge,
        (if p0.meanCoverage > p1.meanCoverage then (p1, p0) else (p0, p1)).1.path.head? =
          some front0 ∧
        (if p0.meanCoverage > p1.meanCoverage then (p1, p0) else (p0, p1)).2.path.head? =
          some front1 ∧
        entrancePath.path.getLast? = some inEdge ∧
        exitPath.path.head? = some outEdge ∧
        st2 =
          (if (!(st.2.graph.edge front0).altHaplotype ||
              !(st.2.graph.edge front1).altHaplotype) then st.1 + 1 else st.1,
            linkAndBridge
              ⟨(st.2.graph.markEdges
                  (if p0.meanCoverage > p1.meanCoverage then (p1, p0) else (p0, p1)).1.path).markEdges
                (if p0.meanCoverage > p1.meanCoverage then (p1, p0) else (p0, p1)).2.path,
                st.2.bridgingSeqs⟩
              inEdge outEdge
              (pathSequence
                ((st.2.graph.markEdges
                    (if p0.meanCoverage > p1.meanCoverage then (p1, p0)
                      else (p0, p1)).1.path).markEdges
                  (if p0.meanCoverage > p1.meanCoverage then (p1, p0) else (p0, p1)).2.path)
                (if p0.meanCoverage > p1.meanCoverage then (p1, p0) else (p0, p1)).1.path)
              (env.dnaComplement
                (pathSequence
                  ((st.2.graph.markEdges
                      (if p0.meanCoverage > p1.meanCoverage then (p1, p0)
                        else (p0, p1)).1.path).markEdges
                    (if p0.meanCoverage > p1.meanCoverage then (p1, p0) else (p0, p1)).2.path)
                  (if p0.meanCoverage > p1.meanCoverage then (p1, p0)
                    else (p0, p1)).1.path))) := by
  unfold bulgeMask
  simp only [Option.bind_eq_bind, Option.bind_eq_some, Option.some.injEq]
  constructor
  · rintro ⟨front0, h0, front1, h1, inEdge, h2, outEdge, h3, h⟩
    exact ⟨front0, front1, inEdge, outEdge, h0, h1, h2, h3, h.symm⟩
  · rintro ⟨front0, front1, inEdge, outEdge, h0, h1, h2, h3, h⟩
    exact ⟨front0, h0, front1, h1, inEdge, h2, outEdge, h3, h.symm⟩

theorem mem_of_head? {α : Type} {l : List α} {a : α} (h : l.head? = some a) : a ∈ l := by
  cases l with
  | nil => simp at h
  | cons x rest =>
    simp only [List.head?_cons, Option.some.injEq] at h
    subst h
    exact List.mem_cons_self _ _

/-- After `bulgeMask`, the first edges of both branches are flagged; and on any state
where they are flagged already, `bulgeMask` returns without raising the counter. -/
theorem bulgeMask_second (env : ResolverEnv) (st st2 : Int × Resolver)
    (p0 p1 entrancePath exitPath : UnbranchingPath)
    (h : bulgeMask env st p0 p1 entrancePath exitPath = some st2) (st' : Int × Resolver)
    (halt : ∀ e, (st2.2.graph.edge e).altHaplotype = true →
      (st'.2.graph.edge e).altHaplotype = true) :
    ∃ st2', bulgeMask env st' p0 p1 entrancePath exitPath = some st2' ∧ st2'.1 = st'.1 := by
  obtain ⟨front0, front1, inEdge, outEdge, h0, h1, h2, h3, hst2⟩ :=
    (bulgeMask_eq_some env st st2 p0 p1 entrancePath exitPath).mp h
  have hf0 : (st2.2.graph.edge front0).altHaplotype = true := by
    rw [hst2]
    simp only
    rw [linkAndBridge_altHaplotype]
    simp only
    rw [markEdges_altHaplotype, markEdges_altHaplotype]
    exact Or.inl (Or.inr (Or.inl (mem_of_head? h0)))
  have hf1 : (st2.2.graph.edge front1).altHaplotype = true := by
    rw [hst2]
    simp only
    rw [linkAndBridge_altHaplotype]
    simp only
    rw [markEdges_altHaplotype]
    exact Or.inr (Or.inl (mem_of_head? h1))
  refine ⟨_, (bulgeMask_eq_some env st' _ p0 p1 entrancePath exitPath).mpr
    ⟨front0, front1, inEdge, outEdge, h0, h1, h2, h3, rfl⟩, ?_⟩
  simp [halt front0 hf0, halt front1 hf1]

theorem bulgeStep_second (env : ResolverEnv) (unbranchingPaths : List UnbranchingPath)
    (st st2 : Int × Resolver) (path : UnbranchingPath)
    (h : bulgeStep env unbranchingPaths st path = some st2) (st' : Int × Resolver)
    (hnode : st'.2.graph.node = st.2.graph.node)
    (halt : ∀ e, (st2.2.graph.edge e).altHaplotype = true →
      (st'.2.graph.edge e).altHaplotype = true) :
    ∃ st2', bulgeStep env unbranchingPaths st' path = some st2' ∧ st2'.1 = st'.1 := by
  unfold bulgeStep at h ⊢
  rw [hnode]
  split at h
  · next hc => exact ⟨st', by rw [if_pos hc], rfl⟩
  · next hc =>
    rw [if_neg hc]
    split at h
    · next p0 p1 hfilter =>
      split at h
      · next hc1 => exact ⟨st', by rw [if_pos hc1], rfl⟩
      · next hc1 =>
        rw [if_neg hc1]
        split at h
        · next hc2 => exact ⟨st', by rw [if_pos hc2], rfl⟩
        · next hc2 =>
          rw [if_neg hc2]
          simp only [Option.bind_eq_bind, Option.bind_eq_some] at h ⊢
          obtain ⟨entrancePath, he, exitPath, hx, h⟩ := h
          split at h
          · next hc3 =>
            exact ⟨st', ⟨entrancePath, he, exitPath, hx, by rw [if_pos hc3]⟩, rfl⟩
          · next hc3 =>
            split at h
            · next hc4 =>
              exact ⟨st', ⟨entrancePath, he, exitPath, hx, by rw [if_neg hc3, if_pos hc4]⟩, rfl⟩
            · next hc4 =>
              obtain ⟨st2', hm, hn⟩ :=
                bulgeMask_second env st st2 p0 p1 entrancePath exitPath h st' halt
              exact ⟨st2', ⟨entrancePath, he, exitPath, hx, by rw [if_neg hc3, if_neg hc4, hm]⟩, hn⟩
    · exact ⟨st', rfl, rfl⟩

theorem foldlM_bulgeStep_second (env : ResolverEnv) (unbranchingPaths : List UnbranchingPath)
    (paths : List UnbranchingPath) :
    ∀ (st fin : Int × Resolver), paths.foldlM (bulgeStep env unbranchingPaths) st = some fin →
      ∀ st' : Int × Resolver, st'.2.graph.node = st.2.graph.node →
        (∀ e, (fin.2.graph.edge e).altHaplotype = true →
          (st'.2.graph.edge e).altHaplotype = true) →
        ∃ fin', paths.foldlM (bulgeStep env unbranchingPaths) st' = some fin' ∧
          fin'.1 = st'.1 := by
  induction paths with
  | nil =>
    intro st fin _ st' _ _
    exact ⟨st', rfl, rfl⟩
  | cons path rest ih =>
    intro st fin h st' hnode halt
    rw [List.foldlM_cons] at h
    cases hstep : bulgeStep env unbranchingPaths st path with
    | none => rw [hstep] at h; exact absurd h (by simp)
    | some st2 =>
      rw [hstep] at h
      have hrest : DetectStep st2.2.graph fin.2.graph :=
        foldlM_detectStep (fun s : Int × Resolver => s.2.graph) _
          (fun a b x hs => bulgeStep_detectStep env _ a b x hs) rest st2 fin h
      obtain ⟨st2', hstep', hn⟩ := bulgeStep_second env unbranchingPaths st st2 path hstep st'
        hnode (fun e he => halt e (detectStep_alt_mono hrest e he))
      have hd1 := bulgeStep_detectStep env unbranchingPaths st st2 path hstep
      have hd2 := bulgeStep_detectStep env unbranchingPaths st' st2' path hstep'
      have hnode2 : st2'.2.graph.node = st2.2.graph.node := by
        rw [(detectStep_sameTopology hd2).2.1, (detectStep_sameTopology hd1).2.1, hnode]
      obtain ⟨fin', hfin', hn'⟩ := ih st2 fin h st2' hnode2
        (fun e he => detectStep_alt_mono hd2 e (halt e he))
      refine ⟨fin', ?_, by rw [hn', hn]⟩
      rw [List.foldlM_cons, hstep']
      exact hfin'

/-- C14: if `findHeterozygousBulges` has run and returned, and the unbranching-path
enumeration depends only on the topology, lengths and coverages of the graph, then a
second run on the resulting state returns 0. -/
theorem bulges_second_run_zero (env : ResolverEnv) (r : Resolver) (res : Int × Resolver)
    (henum : ∀ g g2 : RepeatGraph, SameTopology g g2 →
      env.getUnbranchingPaths g2 = env.getUnbranchingPaths g)
    (hfirst : findHeterozygousBulges env r = some res) :
    ∃ r2 : Resolver, findHeterozygousBulges env res.2 = some (0, r2) := by
  have hd := findHeterozygousBulges_detectStep env r res hfirst
  have htop := detectStep_sameTopology hd
  unfold findHeterozygousBulges at hfirst ⊢
  rw [henum r.graph res.2.graph htop]
  obtain ⟨fin', hfin', hn⟩ := foldlM_bulgeStep_second env _ _ (0, r) res hfirst (0, res.2)
    htop.2.1 (fun e he => he)
  refine ⟨fin'.2, ?_⟩
  rw [hfin']
  have hpair : fin' = (0, fin'.2) := Prod.ext hn rfl
  rw [← hpair]

theorem singleEdgePaths_sameTopology (g g2 : RepeatGraph) (h : SameTopology g g2) :
    singleEdgePaths g2 = singleEdgePaths g := by
  obtain ⟨h1, _, _, _, h5⟩ := h
  unfold singleEdgePaths
  rw [h1]
  apply List.map_congr_left
  intro e _
  obtain ⟨x1, x2, x3, x4, x5, _, _⟩ := h5 e
  simp only [GraphEdge.isLooped, x1, x2, x3, x4, x5]

/-- C14 on the diamond of scenario S3: the first run returns 1, the second 0. -/
theorem bulges_second_run_zero_witness :
    (findHeterozygousBulges exampleResolverEnv ⟨diamondGraph, []⟩).map (fun res => res.1) =
      some 1 ∧
    (findHeterozygousBulges exampleResolverEnv
      ((findHeterozygousBulges exampleResolverEnv ⟨diamondGraph, []⟩).get
        diamond_bulges_isSome).2).map (fun res => res.1) = some 0 :=
  ⟨by decide,
    (bulges_second_run_zero exampleResolverEnv ⟨diamondGraph, []⟩
      ((findHeterozygousBulges exampleResolverEnv ⟨diamondGraph, []⟩).get diamond_bulges_isSome)
      singleEdgePaths_sameTopology
      (Option.some_get diamond_bulges_isSome).symm).elim
      (fun r2 h2 => by rw [h2]; rfl)⟩

/-! ## Theorems: bridging sequences registered by the bulge and loop phases -/

theorem lookup_filter_ne (m : BridgingSeqs) (k k2 : EdgePtr × EdgePtr) :
    (m.filter (fun p => p.1 ≠ k)).lookup k2 = if k2 = k then none else m.lookup k2 := by
  induction m with
  | nil => simp
  | cons p rest ih =>
    obtain ⟨pk, pv⟩ := p
    by_cases hpk : pk = k
    · subst hpk
      rw [List.filter_cons]
      simp only [ne_eq, not_true_eq_false, decide_False, Bool.false_eq_true, if_false]
      rw [ih, List.lookup_cons]
      by_cases hk : k2 = pk
      · simp [hk]
      · have hb : (k2 == pk) = false := by simpa using hk
        simp [hk, hb]
    · rw [List.filter_cons]
      simp only [ne_eq, hpk, not_false_eq_true, decide_True, if_true]
      rw [List.lookup_cons, List.lookup_cons, ih]
      by_cases hk : k2 = pk
      · subst hk
        simp [hpk]
      · have hb : (k2 == pk) = false := by simpa using hk
        simp only [hb]

theorem lookup_bridgingSet (m : BridgingSeqs) (k k2 : EdgePtr × EdgePtr) (s : DnaSequence) :
    (m.set k s).lookup k2 = if k2 = k then some s else m.lookup k2 := by
  unfold BridgingSeqs.set
  rw [List.lookup_cons, lookup_filter_ne]
  by_cases hk : k2 = k
  · subst hk
    simp
  · have hb : (k2 == k) = false := by simpa using hk
    simp [hk, hb]

theorem pathSequence_sameTopology {g g2 : RepeatGraph} (h : SameTopology g g2)
    (path : List EdgePtr) : pathSequence g2 path = pathSequence g path := by
  unfold pathSequence
  have hfold : ∀ (l : List EdgePtr) (acc : String),
      l.foldl (fun strSeq e => strSeq ++ (g2.edge e).seq) acc =
        l.foldl (fun strSeq e => strSeq ++ (g.edge e).seq) acc := by
    intro l
    induction l with
    | nil => intro acc; rfl
    | cons e rest ih =>
      intro acc
      rw [List.foldl_cons, List.foldl_cons, (h.2.2.2.2 e).2.2.2.2.2.2, ih]
  rw [hfold]

theorem linkAndBridge_of_set (r : Resolver) (inEdge outEdge : EdgePtr)
    (seq seqCompl : DnaSequence)
    (h : ((r.graph.edge inEdge).rightLink.isSome || (r.graph.edge outEdge).leftLink.isSome) =
      true) :
    linkAndBridge r inEdge outEdge seq seqCompl = r := by
  unfold linkAndBridge
  rw [if_pos h]

theorem linkAndBridge_of_unset (r : Resolver) (inEdge outEdge : EdgePtr)
    (seq seqCompl : DnaSequence)
    (h : ¬ (((r.graph.edge inEdge).rightLink.isSome ||
      (r.graph.edge outEdge).leftLink.isSome) = true)) :
    linkAndBridge r inEdge outEdge seq seqCompl =
      ⟨(r.graph.linkEdges inEdge outEdge).linkEdges (r.graph.complementEdge outEdge)
          (r.graph.complementEdge inEdge),
        (r.bridgingSeqs.set (inEdge, outEdge) seq).set
          (r.graph.complementEdge outEdge, r.graph.complementEdge inEdge) seqCompl⟩ := by
  unfold linkAndBridge
  rw [if_neg h]
  rfl

/-- The four links after `linkEdges(i, o); linkEdges(c(o), c(i))`, `c` an involution. -/
theorem linkPair_installed (g : RepeatGraph)
    (hinv : ∀ e, g.complementEdge (g.complementEdge e) = e) (i o : EdgePtr) :
    (((g.linkEdges i o).linkEdges (g.complementEdge o) (g.complementEdge i)).edge i).rightLink
      = some o ∧
    (((g.linkEdges i o).linkEdges (g.complementEdge o) (g.complementEdge i)).edge o).leftLink
      = some i ∧
    (((g.linkEdges i o).linkEdges (g.complementEdge o) (g.complementEdge i)).edge
      (g.complementEdge o)).rightLink = some (g.complementEdge i) ∧
    (((g.linkEdges i o).linkEdges (g.complementEdge o) (g.complementEdge i)).edge
      (g.complementEdge i)).leftLink = some (g.complementEdge o) := by
  refine ⟨?_, ?_, ?_, ?_⟩
  · rw [linkEdges_rightLink, linkEdges_rightLink, if_pos rfl]
    split
    · next h => rw [h, hinv]
    · rfl
  · rw [linkEdges_leftLink, linkEdges_leftLink, if_pos rfl]
    split
    · next h => rw [h, hinv]
    · rfl
  · rw [linkEdges_rightLink, if_pos rfl]
  · rw [linkEdges_leftLink, if_pos rfl]

theorem bulgeMask_registered (env : ResolverEnv) (unbranchingPaths : List UnbranchingPath)
    (st st2 : Int × Resolver) (path p0 p1 entrancePath exitPath : UnbranchingPath)
    (hinv : ∀ e, st.2.graph.complementEdge (st.2.graph.complementEdge e) = e)
    (hfilter : unbranchingPaths.filter
        (fun candEdge => candEdge.nodeLeft == path.nodeLeft &&
          candEdge.nodeRight == path.nodeRight) = [p0, p1])
    (hent : lastPathWhere (fun cand => cand.nodeRight == path.nodeLeft) unbranchingPaths =
      some entrancePath)
    (hexit : lastPathWhere (fun cand => cand.nodeLeft == path.nodeRight) unbranchingPaths =
      some exitPath)
    (h : bulgeMask env st p0 p1 entrancePath exitPath = some st2)
    (hreg : st2.2.bridgingSeqs ≠ st.2.bridgingSeqs) :
    BulgeRegistered env unbranchingPaths st st2 path := by
  obtain ⟨front0, front1, inEdge, outEdge, h0, h1, h2, h3, hst2⟩ :=
    (bulgeMask_eq_some env st st2 p0 p1 entrancePath exitPath).mp h
  have hsplit : ∃ t0 t1 : UnbranchingPath,
      (if p0.meanCoverage > p1.meanCoverage then (p1, p0) else (p0, p1)) = (t0, t1) ∧
      (unbranchingPaths.filter
          (fun candEdge => candEdge.nodeLeft == path.nodeLeft &&
            candEdge.nodeRight == path.nodeRight) = [t0, t1] ∨
        unbranchingPaths.filter
          (fun candEdge => candEdge.nodeLeft == path.nodeLeft &&
            candEdge.nodeRight == path.nodeRight) = [t1, t0]) ∧
      t0.meanCoverage ≤ t1.meanCoverage := by
    by_cases hcov : p0.meanCoverage > p1.meanCoverage
    · exact ⟨p1, p0, by rw [if_pos hcov], Or.inr hfilter, le_of_lt hcov⟩
    · exact ⟨p0, p1, by rw [if_neg hcov], Or.inl hfilter, not_lt.mp hcov⟩
  obtain ⟨t0, t1, ht, hfil, hle⟩ := hsplit
  rw [ht] at hst2
  simp only at hst2
  have htop : SameTopology st.2.graph ((st.2.graph.markEdges t0.path).markEdges t1.path) :=
    sameTopology_trans (markEdges_sameTopology _ _) (markEdges_sameTopology _ _)
  have hlinks : ∀ x : EdgePtr,
      ((((st.2.graph.markEdges t0.path).markEdges t1.path).edge x).rightLink =
        (st.2.graph.edge x).rightLink) ∧
      ((((st.2.graph.markEdges t0.path).markEdges t1.path).edge x).leftLink =
        (st.2.graph.edge x).leftLink) := by
    intro x
    rw [((markEdges_links t1.path _).2 x).1, ((markEdges_links t1.path _).2 x).2]
    exact (markEdges_links t0.path _).2 x
  have hc : ((st.2.graph.markEdges t0.path).markEdges t1.path).complementEdge =
      st.2.graph.complementEdge := htop.2.2.2.1
  rw [pathSequence_sameTopology htop] at hst2
  by_cases hguard :
      (((((st.2.graph.markEdges t0.path).markEdges t1.path).edge inEdge).rightLink.isSome ||
        (((st.2.graph.markEdges t0.path).markEdges t1.path).edge outEdge).leftLink.isSome) =
        true)
  · exfalso
    apply hreg
    rw [hst2]
    simp only
    rw [linkAndBridge_of_set _ _ _ _ _ hguard]
  · rw [linkAndBridge_of_unset _ _ _ _ _ hguard] at hst2
    simp only [hc] at hst2
    have hinst := linkPair_installed ((st.2.graph.markEdges t0.path).markEdges t1.path)
      (by intro e; rw [hc]; exact hinv e) inEdge outEdge
    rw [hc] at hinst
    refine ⟨t0, t1, entrancePath, exitPath, inEdge, outEdge, hfil, hle, hent, hexit, h2, h3,
      ?_, ?_, ?_⟩
    · rw [hst2]
    · intro hne
      rw [hst2]
      simp only
      rw [lookup_bridgingSet, if_neg hne, lookup_bridgingSet, if_pos rfl]
    · rw [hst2]
      exact hinst

/-- C15: whenever an iteration of `findHeterozygousBulges` registers a bridging
sequence (the map changes), the sequence registered for `(inEdge, outEdge)` is the path
sequence of the branch of mean coverage at most the other's, `inEdge` is the last edge
of the entrance and `outEdge` the first edge of the exit, and the links
`inEdge → outEdge` and `complement(outEdge) → complement(inEdge)` are installed. -/
theorem bulge_registration (env : ResolverEnv) (unbranchingPaths : List UnbranchingPath)
    (st st2 : Int × Resolver) (path : UnbranchingPath)
    (hinv : ∀ e, st.2.graph.complementEdge (st.2.graph.complementEdge e) = e)
    (h : bulgeStep env unbranchingPaths st path = some st2)
    (hreg : st2.2.bridgingSeqs ≠ st.2.bridgingSeqs) :
    BulgeRegistered env unbranchingPaths st st2 path := by
  unfold bulgeStep at h
  split at h
  · injection h with h; subst h; exact absurd rfl hreg
  · split at h
    · next p0 p1 hfilter =>
      have hp0 : p0.nodeLeft = path.nodeLeft ∧ p0.nodeRight = path.nodeRight := by
        have hmem : p0 ∈ unbranchingPaths.filter
            (fun candEdge => candEdge.nodeLeft == path.nodeLeft &&
              candEdge.nodeRight == path.nodeRight) := by
          rw [hfilter]
          exact List.mem_cons_self _ _
        have := (List.mem_filter.mp hmem).2
        simpa using this
      split at h
      · injection h with h; subst h; exact absurd rfl hreg
      · split at h
        · injection h with h; subst h; exact absurd rfl hreg
        · simp only [Option.bind_eq_bind, Option.bind_eq_some] at h
          obtain ⟨entrancePath, hent, exitPath, hexit, h⟩ := h
          split at h
          · injection h with h; subst h; exact absurd rfl hreg
          · split at h
            · injection h with h; subst h; exact absurd rfl hreg
            · rw [hp0.1] at hent
              rw [hp0.2] at hexit
              exact bulgeMask_registered env unbranchingPaths st st2 path p0 p1 entrancePath
                exitPath hinv hfilter hent hexit h hreg
    · injection h with h; subst h; exact absurd rfl hreg

theorem diamond_bulgeStep_isSome :
    (bulgeStep exampleResolverEnv (singleEdgePaths diamondGraph) (0, ⟨diamondGraph, []⟩)
      diamondPathA).isSome = true := by
  decide

/-- C15 on scenario S3: the run returns 1 with the sequence of `A` (coverage 15, the
lower one) registered for `(E, X) = (0, 6)`; the registration is made by the iteration
on `A`. -/
theorem bulge_registration_witness :
    (findHeterozygousBulges exampleResolverEnv ⟨diamondGraph, []⟩).map
        (fun res => (res.1, res.2.bridgingSeqs.lookup (0, 6))) = some (1, some "AC") ∧
    pathSequence diamondGraph diamondPathA.path = "AC" ∧
    BulgeRegistered exampleResolverEnv (singleEdgePaths diamondGraph) (0, ⟨diamondGraph, []⟩)
      ((bulgeStep exampleResolverEnv (singleEdgePaths diamondGraph) (0, ⟨diamondGraph, []⟩)
        diamondPathA).get diamond_bulgeStep_isSome) diamondPathA :=
  ⟨by decide, by decide,
    bulge_registration exampleResolverEnv (singleEdgePaths diamondGraph)
      (0, ⟨diamondGraph, []⟩)
      ((bulgeStep exampleResolverEnv (singleEdgePaths diamondGraph) (0, ⟨diamondGraph, []⟩)
        diamondPathA).get diamond_bulgeStep_isSome) diamondPathA
      exampleRc_involutive (Option.some_get diamond_bulgeStep_isSome).symm (by decide)⟩

/-! ## Theorems: which flags `findHeterozygousBulges` raises -/

theorem lastPathWhere_some (p : UnbranchingPath → Bool) (paths : List UnbranchingPath) :
    ∀ (init : Option UnbranchingPath) (x : UnbranchingPath),
      paths.foldl (fun ptr cand => if p cand then some cand else ptr) init = some x →
        (x ∈ paths ∧ p x = true) ∨ init = some x := by
  induction paths with
  | nil => intro init x h; exact Or.inr h
  | cons c rest ih =>
    intro init x h
    rw [List.foldl_cons] at h
    rcases ih _ x h with ⟨hm, hp⟩ | hinit
    · exact Or.inl ⟨List.mem_cons_of_mem _ hm, hp⟩
    · by_cases hc : p c = true
      · rw [if_pos hc] at hinit
        injection hinit with hinit
        subst hinit
        exact Or.inl ⟨List.mem_cons_self _ _, hc⟩
      · rw [if_neg hc] at hinit
        exact Or.inr hinit

theorem lastPathWhere_mem {p : UnbranchingPath → Bool} {paths : List UnbranchingPath}
    {x : UnbranchingPath} (h : lastPathWhere p paths = some x) : x ∈ paths ∧ p x = true := by
  unfold lastPathWhere at h
  rcases lastPathWhere_some p paths none x h with h | h
  · exact h
  · exact absurd h (by simp)

/-- The flags after `bulgeMask` on an accepted pair of branches. -/
theorem bulgeMask_altHaplotype (env : ResolverEnv) (st st2 : Int × Resolver)
    (p0 p1 entrancePath exitPath : UnbranchingPath)
    (h : bulgeMask env st p0 p1 entrancePath exitPath = some st2) (x : EdgePtr) :
    (st2.2.graph.edge x).altHaplotype = true ↔
      ((st.2.graph.edge x).altHaplotype = true ∨ x ∈ p0.path ∨ x ∈ p1.path ∨
        (∃ e ∈ p0.path, x = st.2.graph.complementEdge e) ∨
        (∃ e ∈ p1.path, x = st.2.graph.complementEdge e)) := by
  obtain ⟨front0, front1, inEdge, outEdge, _, _, _, _, hst2⟩ :=
    (bulgeMask_eq_some env st st2 p0 p1 entrancePath exitPath).mp h
  rw [hst2]
  simp only
  rw [linkAndBridge_altHaplotype]
  simp only
  rw [markEdges_altHaplotype, markEdges_altHaplotype, (markEdges_links _ _).1]
  by_cases hcov : p0.meanCoverage > p1.meanCoverage
  · simp only [if_pos hcov]
    generalize (∃ e ∈ p0.path, x = st.2.graph.complementEdge e) = A0
    generalize (∃ e ∈ p1.path, x = st.2.graph.complementEdge e) = A1
    tauto
  · simp only [if_neg hcov]
    generalize (∃ e ∈ p0.path, x = st.2.graph.complementEdge e) = A0
    generalize (∃ e ∈ p1.path, x = st.2.graph.complementEdge e) = A1
    tauto

theorem bulgeStep_flags (env : ResolverEnv) (unbranchingPaths : List UnbranchingPath)
    (st st2 : Int × Resolver) (path : UnbranchingPath) (hpath : path ∈ unbranchingPaths)
    (hloop : ∀ p ∈ unbranchingPaths, p.isLooped = true ↔ p.nodeLeft = p.nodeRight)
    (h : bulgeStep env unbranchingPaths st path = some st2) (x : EdgePtr)
    (hx : (st2.2.graph.edge x).altHaplotype = true) :
    (st.2.graph.edge x).altHaplotype = true ∨
    ∃ p0 p1 entrancePath exitPath,
      AcceptedBubble env unbranchingPaths st.2.graph.node p0 p1 entrancePath exitPath ∧
      (x ∈ p0.path ∨ x ∈ p1.path ∨ (∃ e ∈ p0.path, x = st.2.graph.complementEdge e) ∨
        (∃ e ∈ p1.path, x = st.2.graph.complementEdge e)) := by
  unfold bulgeStep at h
  split at h
  · injection h with h; subst h; exact Or.inl hx
  · next hnl =>
    split at h
    · next p0 p1 hfilter =>
      have hmem : ∀ q, q ∈ [p0, p1] → q ∈ unbranchingPaths ∧ q.nodeLeft = path.nodeLeft ∧
          q.nodeRight = path.nodeRight := by
        intro q hq
        rw [← hfilter] at hq
        have hq2 := List.mem_filter.mp hq
        refine ⟨hq2.1, ?_⟩
        simpa using hq2.2
      have hp0 := hmem p0 (List.mem_cons_self _ _)
      have hp1 := hmem p1 (List.mem_cons_of_mem _ (List.mem_cons_self _ _))
      have hnotLooped : ∀ q, q ∈ unbranchingPaths → q.nodeLeft = path.nodeLeft →
          q.nodeRight = path.nodeRight → q.isLooped = false := by
        intro q hq hl hr
        cases hq2 : q.isLooped with
        | false => rfl
        | true =>
          exfalso
          apply hnl
          have h1 := (hloop q hq).mp hq2
          rw [hl, hr] at h1
          exact (hloop path hpath).mpr h1
      split at h
      · injection h with h; subst h; exact Or.inl hx
      · next hid =>
        split at h
        · injection h with h; subst h; exact Or.inl hx
        · next hdeg =>
          simp only [Option.bind_eq_bind, Option.bind_eq_some] at h
          obtain ⟨entrancePath, hent, exitPath, hexit, h⟩ := h
          split at h
          · injection h with h; subst h; exact Or.inl hx
          · next hids =>
            split at h
            · injection h with h; subst h; exact Or.inl hx
            · next hlen =>
              rcases (bulgeMask_altHaplotype env st st2 p0 p1 entrancePath exitPath h x).mp hx
                with hold | hnew
              · exact Or.inl hold
              · right
                refine ⟨p0, p1, entrancePath, exitPath, ?_, hnew⟩
                have hent2 := lastPathWhere_mem hent
                have hexit2 := lastPathWhere_mem hexit
                have hmax : ¬ (max p0.length p1.length > env.MAX_BUBBLE_LEN) := hlen
                refine ⟨?_, hnotLooped p0 hp0.1 hp0.2.1 hp0.2.2,
                  hnotLooped p1 hp1.1 hp1.2.1 hp1.2.2, hid, ?_, ?_, ?_, ?_, hent2.1, ?_,
                  hexit2.1, ?_, ?_, ?_, ?_, ?_⟩
                · rw [hp0.2.1, hp0.2.2]
                  exact hfilter
                · by_contra hcon
                  exact hdeg (Or.inl hcon)
                · by_contra hcon
                  exact hdeg (Or.inr (Or.inl hcon))
                · by_contra hcon
                  exact hdeg (Or.inr (Or.inr (Or.inr hcon)))
                · by_contra hcon
                  exact hdeg (Or.inr (Or.inr (Or.inl hcon)))
                · simpa using hent2.2
                · simpa using hexit2.2
                · intro hcon
                  exact hids (Or.inl hcon)
                · intro hcon
                  exact hids (Or.inr hcon)
                · exact le_trans (le_max_left _ _) (not_lt.mp hmax)
                · exact le_trans (le_max_right _ _) (not_lt.mp hmax)
    · injection h with h; subst h; exact Or.inl hx

theorem foldlM_bulgeStep_flags (env : ResolverEnv) (unbranchingPaths : List UnbranchingPath)
    (hloop : ∀ p ∈ unbranchingPaths, p.isLooped = true ↔ p.nodeLeft = p.nodeRight)
    (paths : List UnbranchingPath) :
    (∀ p ∈ paths, p ∈ unbranchingPaths) →
    ∀ (st fin : Int × Resolver), paths.foldlM (bulgeStep env unbranchingPaths) st = some fin →
      ∀ x : EdgePtr, (fin.2.graph.edge x).altHaplotype = true →
        (st.2.graph.edge x).altHaplotype = true ∨
        ∃ p0 p1 entrancePath exitPath,
          AcceptedBubble env unbranchingPaths st.2.graph.node p0 p1 entrancePath exitPath ∧
          (x ∈ p0.path ∨ x ∈ p1.path ∨ (∃ e ∈ p0.path, x = st.2.graph.complementEdge e) ∨
            (∃ e ∈ p1.path, x = st.2.graph.complementEdge e)) := by
  induction paths with
  | nil =>
    intro _ st fin h x hx
    simp only [List.foldlM_nil, pure, Option.some.injEq] at h
    subst h
    exact Or.inl hx
  | cons path rest ih =>
    intro hsub st fin h x hx
    rw [List.foldlM_cons] at h
    cases hstep : bulgeStep env unbranchingPaths st path with
    | none => rw [hstep] at h; exact absurd h (by simp)
    | some st2 =>
      rw [hstep] at h
      have htop := detectStep_sameTopology
        (bulgeStep_detectStep env unbranchingPaths st st2 path hstep)
      rcases ih (fun p hp => hsub p (List.mem_cons_of_mem _ hp)) st2 fin h x hx with h2 | h2
      · exact bulgeStep_flags env unbranchingPaths st st2 path
          (hsub path (List.mem_cons_self _ _)) hloop hstep x h2
      · right
        rw [htop.2.1, htop.2.2.2.1] at h2
        exact h2

/-- C16: `findHeterozygousBulges` changes `altHaplotype` only from `false` to `true`, and
only on an edge that lies, itself or its complement, on a branch of an accepted bubble
(`AcceptedBubble`); the flag of every other edge is unchanged. `isLooped` is assumed to
mean that a path starts and ends at the same node. -/
theorem bulges_flag_only_bubbles (env : ResolverEnv) (r : Resolver) (res : Int × Resolver)
    (hinv : ∀ e, r.graph.complementEdge (r.graph.complementEdge e) = e)
    (hloop : ∀ p ∈ env.getUnbranchingPaths r.graph,
      p.isLooped = true ↔ p.nodeLeft = p.nodeRight)
    (h : findHeterozygousBulges env r = some res) (x : EdgePtr)
    (hchange : (res.2.graph.edge x).altHaplotype ≠ (r.graph.edge x).altHaplotype) :
    ((r.graph.edge x).altHaplotype = false ∧ (res.2.graph.edge x).altHaplotype = true) ∧
    ∃ p0 p1 entrancePath exitPath,
      AcceptedBubble env (env.getUnbranchingPaths r.graph) r.graph.node p0 p1 entrancePath
        exitPath ∧
      (x ∈ p0.path ∨ x ∈ p1.path ∨ r.graph.complementEdge x ∈ p0.path ∨
        r.graph.complementEdge x ∈ p1.path) := by
  have hmono := detectStep_alt_mono (findHeterozygousBulges_detectStep env r res h) x
  have hvals : (r.graph.edge x).altHaplotype = false ∧
      (res.2.graph.edge x).altHaplotype = true := by
    cases hb : (r.graph.edge x).altHaplotype with
    | true =>
      exfalso
      apply hchange
      rw [hmono hb, hb]
    | false =>
      refine ⟨rfl, ?_⟩
      cases ha : (res.2.graph.edge x).altHaplotype with
      | true => rfl
      | false =>
        exfalso
        apply hchange
        rw [ha, hb]
  refine ⟨hvals, ?_⟩
  unfold findHeterozygousBulges at h
  rcases foldlM_bulgeStep_flags env _ hloop _ (fun p hp => hp) (0, r) res h x hvals.2
    with hold | ⟨p0, p1, entrancePath, exitPath, hacc, hon⟩
  · rw [hvals.1] at hold
    exact absurd hold (by simp)
  · refine ⟨p0, p1, entrancePath, exitPath, hacc, ?_⟩
    rcases hon with h1 | h1 | ⟨e, he, hxe⟩ | ⟨e, he, hxe⟩
    · exact Or.inl h1
    · exact Or.inr (Or.inl h1)
    · right; right; left
      show r.graph.complementEdge x ∈ p0.path
      have hxe2 : x = r.graph.complementEdge e := hxe
      rw [hxe2, hinv]
      exact he
    · right; right; right
      show r.graph.complementEdge x ∈ p1.path
      have hxe2 : x = r.graph.complementEdge e := hxe
      rw [hxe2, hinv]
      exact he

theorem diamond_paths_looped :
    ∀ p ∈ exampleResolverEnv.getUnbranchingPaths diamondGraph,
      p.isLooped = true ↔ p.nodeLeft = p.nodeRight := by
  decide

/-- C16 on the diamond of scenario S3: edge 3, the complement of branch `A`, is
flagged by the run, and it is the complement of an edge of an accepted bubble. -/
theorem bulges_flag_only_bubbles_witness :
    ((diamondGraph.edge 3).altHaplotype = false ∧
      (((findHeterozygousBulges exampleResolverEnv ⟨diamondGraph, []⟩).get
        diamond_bulges_isSome).2.graph.edge 3).altHaplotype = true) ∧
    ∃ p0 p1 entrancePath exitPath,
      AcceptedBubble exampleResolverEnv (exampleResolverEnv.getUnbranchingPaths diamondGraph)
        diamondGraph.node p0 p1 entrancePath exitPath ∧
      (3 ∈ p0.path ∨ 3 ∈ p1.path ∨ diamondGraph.complementEdge 3 ∈ p0.path ∨
        diamondGraph.complementEdge 3 ∈ p1.path) :=
  bulges_flag_only_bubbles exampleResolverEnv ⟨diamondGraph, []⟩
    ((findHeterozygousBulges exampleResolverEnv ⟨diamondGraph, []⟩).get diamond_bulges_isSome)
    exampleRc_involutive diamond_paths_looped
    (Option.some_get diamond_bulges_isSome).symm 3 (by decide)

theorem loopMask_registered (env : ResolverEnv) (st st2 : Int × Resolver)
    (loop entrancePath exitPath : UnbranchingPath) (loopFront : EdgePtr)
    (h : loopMask env st loop entrancePath exitPath loopFront = some st2)
    (hreg : st2.2.bridgingSeqs ≠ st.2.bridgingSeqs) :
    ∃ inEdge outEdge : EdgePtr,
      entrancePath.path.getLast? = some inEdge ∧
      exitPath.path.head? = some outEdge ∧
      st2.2.bridgingSeqs =
        (st.2.bridgingSeqs.set (inEdge, outEdge)
          (if loop.meanCoverage <
              Int.tdiv (entrancePath.meanCoverage + exitPath.meanCoverage) 4 then "A"
            else pathSequence st.2.graph loop.path)).set
          (st.2.graph.complementEdge outEdge, st.2.graph.complementEdge inEdge)
          (if loop.meanCoverage <
              Int.tdiv (entrancePath.meanCoverage + exitPath.meanCoverage) 4 then "A"
            else env.dnaComplement (pathSequence st.2.graph loop.path)) := by
  unfold loopMask at h
  simp only [Option.bind_eq_bind, Option.bind_eq_some] at h
  obtain ⟨inEdge, hin, outEdge, hout, h⟩ := h
  have htop : SameTopology st.2.graph (st.2.graph.markEdges loop.path) :=
    markEdges_sameTopology _ _
  have hc : (st.2.graph.markEdges loop.path).complementEdge = st.2.graph.complementEdge :=
    htop.2.2.2.1
  refine ⟨inEdge, outEdge, hin, hout, ?_⟩
  by_cases hguard :
      ((((st.2.graph.markEdges loop.path).edge inEdge).rightLink.isSome ||
        ((st.2.graph.markEdges loop.path).edge outEdge).leftLink.isSome) = true)
  · exfalso
    apply hreg
    split at h
    · injection h with h
      rw [← h]
      simp only
      rw [linkAndBridge_of_set _ _ _ _ _ hguard]
    · injection h with h
      rw [← h]
      simp only
      rw [linkAndBridge_of_set _ _ _ _ _ hguard]
  · split at h
    · next hcond =>
      injection h with h
      rw [← h]
      simp only
      rw [linkAndBridge_of_unset _ _ _ _ _ hguard]
      simp only [hc, if_pos hcond]
    · next hcond =>
      injection h with h
      rw [← h]
      simp only
      rw [linkAndBridge_of_unset _ _ _ _ _ hguard]
      simp only [hc, if_neg hcond, pathSequence_sameTopology htop]

/-- C17 as stated fails: with loop coverage 15, entrance 30 and exit 31 the exact
comparison `15 < (30 + 31) / 4 = 15.25` holds, but the code compares with the integer
quotient 15 and registers the loop's full sequence `"ACG"`, not the stub `"A"`. -/
theorem loop_stub_counterexample :
    ((15 : ℚ) < ((30 : ℚ) + 31) / 4) ∧
    (findHeterozygousLoops revCompEnv ⟨loopGraph 15 30 31, []⟩).map
        (fun res => (res.1, res.2.bridgingSeqs.lookup (0, 4))) = some (1, some "ACG") ∧
    pathSequence (loopGraph 15 30 31) (loopPathL 15).path = "ACG" ∧
    ("ACG" : DnaSequence) ≠ "A" := by
  refine ⟨by norm_num, by decide, by decide, by decide⟩

/-- C17 amended: whenever an iteration of `findHeterozygousLoops` registers a bridging
sequence (the map changes), the sequence registered for `(inEdge, outEdge)` is the stub
`"A"` when `cov(L) < (cov(entrance) + cov(exit)) / 4` with the division an integer
division, and the loop's full path sequence otherwise. -/
theorem loop_registration (env : ResolverEnv) (unbranchingPaths : List UnbranchingPath)
    (st st2 : Int × Resolver) (loop : UnbranchingPath)
    (h : loopStep env unbranchingPaths st loop = some st2)
    (hreg : st2.2.bridgingSeqs ≠ st.2.bridgingSeqs) :
    LoopRegistered env unbranchingPaths st st2 loop := by
  unfold loopStep at h
  split at h
  · injection h with h; subst h; exact absurd rfl hreg
  · split at h
    · injection h with h; subst h; exact absurd rfl hreg
    · simp only [Option.bind_eq_bind, Option.bind_eq_some] at h
      obtain ⟨loopFront, _, h⟩ := h
      split at h
      · injection h with h; subst h; exact absurd rfl hreg
      · split at h
        · injection h with h; subst h; exact absurd rfl hreg
        · simp only [Option.bind_eq_some] at h
          obtain ⟨entrancePath, hent, exitPath, hexit, h⟩ := h
          split at h
          · injection h with h; subst h; exact absurd rfl hreg
          · split at h
            · injection h with h; subst h; exact absurd rfl hreg
            · split at h
              · injection h with h; subst h; exact absurd rfl hreg
              · split at h
                · injection h with h; subst h; exact absurd rfl hreg
                · obtain ⟨inEdge, outEdge, hin, hout, hmap⟩ :=
                    loopMask_registered env st st2 loop entrancePath exitPath loopFront h hreg
                  refine ⟨entrancePath, exitPath, inEdge, outEdge, hent, hexit, hin, hout,
                    hmap, ?_⟩
                  intro hne
                  rw [hmap, lookup_bridgingSet, if_neg hne, lookup_bridgingSet, if_pos rfl]

theorem loop_loopStep_isSome :
    (loopStep revCompEnv (singleEdgePaths (loopGraph 10 30 30)) (0, ⟨loopGraph 10 30 30, []⟩)
      (loopPathL 10)).isSome = true := by
  decide

/-- C17 amended, on scenario S4: loop coverage 10, entrance and exit 30; the run returns
1 and registers `"A"` for `(entrance, exit) = (0, 4)`. -/
theorem loop_registration_witness :
    (findHeterozygousLoops revCompEnv ⟨loopGraph 10 30 30, []⟩).map
        (fun res => (res.1, res.2.bridgingSeqs.lookup (0, 4))) = some (1, some "A") ∧
    LoopRegistered revCompEnv (singleEdgePaths (loopGraph 10 30 30))
      (0, ⟨loopGraph 10 30 30, []⟩)
      ((loopStep revCompEnv (singleEdgePaths (loopGraph 10 30 30))
        (0, ⟨loopGraph 10 30 30, []⟩) (loopPathL 10)).get loop_loopStep_isSome)
      (loopPathL 10) :=
  ⟨by decide,
    loop_registration revCompEnv (singleEdgePaths (loopGraph 10 30 30))
      (0, ⟨loopGraph 10 30 30, []⟩)
      ((loopStep revCompEnv (singleEdgePaths (loopGraph 10 30 30))
        (0, ⟨loopGraph 10 30 30, []⟩) (loopPathL 10)).get loop_loopStep_isSome)
      (loopPathL 10) (Option.some_get loop_loopStep_isSome).symm (by decide)⟩

/-! ## The bubble found by `findVariantSegment` -/

theorem repeatsOf_count (e : EdgePtr) : ∀ (p : GraphAlignment) (seen : List EdgePtr),
    e ∉ repeatsOf p seen →
    (e ∈ seen → ∀ a ∈ p, a.edge ≠ e) ∧ (p.map (fun a => a.edge)).count e ≤ 1 := by
  intro p
  induction p with
  | nil => intro seen _; simp
  | cons a rest ih =>
    intro seen h
    unfold repeatsOf at h
    by_cases hs : seen.contains a.edge = true
    · rw [if_pos hs] at h
      have hne : e ≠ a.edge := fun hc => h (by rw [hc]; exact List.mem_cons_self _ _)
      have hrest : e ∉ repeatsOf rest (a.edge :: seen) := fun hc => h (List.mem_cons_of_mem _ hc)
      obtain ⟨ih1, ih2⟩ := ih _ hrest
      refine ⟨?_, ?_⟩
      · intro hseen x hx
        rcases List.mem_cons.mp hx with rfl | hx
        · exact fun hc => hne hc.symm
        · exact ih1 (List.mem_cons_of_mem _ hseen) x hx
      · rw [List.map_cons, List.count_cons_of_ne hne]
        exact ih2
    · rw [if_neg hs] at h
      obtain ⟨ih1, ih2⟩ := ih _ h
      have hnot : a.edge ∉ seen := by simpa using hs
      refine ⟨?_, ?_⟩
      · intro hseen x hx
        rcases List.mem_cons.mp hx with rfl | hx
        · exact fun hc => hnot (hc ▸ hseen)
        · exact ih1 (List.mem_cons_of_mem _ hseen) x hx
      · rw [List.map_cons]
        by_cases hae : a.edge = e
        · have hzero : (rest.map (fun a => a.edge)).count e = 0 := by
            rw [List.count_eq_zero]
            intro hmem
            obtain ⟨x, hx, hxe⟩ := List.mem_map.mp hmem
            exact ih1 (by rw [hae]; exact List.mem_cons_self _ _) x hx hxe
          rw [hae, List.count_cons_self, hzero]
        · rw [List.count_cons_of_ne (fun hc => hae hc.symm)]
          exact ih2

theorem unique_split (e : EdgePtr) (p pre post : GraphAlignment) (a : EdgeAlignment)
    (hcount : (p.map (fun a => a.edge)).count e ≤ 1) (hp : p = pre ++ a :: post)
    (ha : a.edge = e) :
    (∀ x ∈ pre, x.edge ≠ e) ∧ (∀ x ∈ post, x.edge ≠ e) := by
  subst hp
  rw [List.map_append, List.map_cons, List.count_append, ha, List.count_cons_self] at hcount
  have h1 : (pre.map (fun a => a.edge)).count e = 0 := by omega
  have h2 : (post.map (fun a => a.edge)).count e = 0 := by omega
  rw [List.count_eq_zero] at h1 h2
  exact ⟨fun x hx hc => h1 (List.mem_map.mpr ⟨x, hx, hc⟩),
    fun x hx hc => h2 (List.mem_map.mpr ⟨x, hx, hc⟩)⟩

theorem lastIndex_foldl_none (e : EdgePtr) : ∀ (post : GraphAlignment) (n acc : Nat),
    (∀ x ∈ post, x.edge ≠ e) →
    (post.enumFrom n).foldl (fun idx p => if p.2.edge == e then p.1 else idx) acc = acc := by
  intro post
  induction post with
  | nil => intro n acc _; rfl
  | cons a rest ih =>
    intro n acc h
    have ha : a.edge ≠ e := h a (List.mem_cons_self _ _)
    rw [List.enumFrom_cons, List.foldl_cons]
    have : (a.edge == e) = false := by simpa using ha
    simp only [this]
    exact ih _ _ (fun x hx => h x (List.mem_cons_of_mem _ hx))

theorem lastIndex_foldl_split (e : EdgePtr) (a : EdgeAlignment) (post : GraphAlignment)
    (ha : a.edge = e) (hpost : ∀ x ∈ post, x.edge ≠ e) :
    ∀ (pre : GraphAlignment) (n acc : Nat),
    ((pre ++ a :: post).enumFrom n).foldl (fun idx p => if p.2.edge == e then p.1 else idx) acc
      = n + pre.length := by
  intro pre
  induction pre with
  | nil =>
    intro n acc
    rw [List.nil_append, List.enumFrom_cons, List.foldl_cons]
    have : (a.edge == e) = true := by simpa using ha
    simp only [this, if_true]
    rw [lastIndex_foldl_none e post _ _ hpost]
    rfl
  | cons b rest ih =>
    intro n acc
    rw [List.cons_append, List.enumFrom_cons, List.foldl_cons, ih]
    simp only [List.length_cons]
    omega

theorem lastIndexOfEdge_split (e : EdgePtr) (p pre post : GraphAlignment) (a : EdgeAlignment)
    (hp : p = pre ++ a :: post) (ha : a.edge = e) (hpost : ∀ x ∈ post, x.edge ≠ e) :
    lastIndexOfEdge e p = pre.length := by
  subst hp
  unfold lastIndexOfEdge List.enum
  rw [lastIndex_foldl_split e a post ha hpost]
  omega

theorem alignmentSuffix_head (startEdge : EdgePtr) (aln p : GraphAlignment)
    (h : alignmentSuffix startEdge aln = some p) :
    ∃ a rest, p = a :: rest ∧ a.edge = startEdge := by
  unfold alignmentSuffix at h
  split at h
  · exact absurd h (by simp)
  · rename_i a rest hdw
    injection h with h
    subst h
    refine ⟨a, rest, rfl, ?_⟩
    have := List.head_dropWhile_not (fun a => a.edge != startEdge) aln
      (by rw [hdw]; exact List.cons_ne_nil _ _)
    simp only [hdw, List.head_cons] at this
    simpa using this

theorem mem_sortOutPaths (l : List GraphAlignment) (p : GraphAlignment) :
    p ∈ sortOutPaths l ↔ p ∈ l :=
  (List.perm_insertionSort _ l).mem_iff

theorem isContained_of_prefix : ∀ (b a : GraphAlignment),
    (b.map (fun x => x.edge)) <+: (a.map (fun x => x.edge)) → isContained a b = true := by
  intro b
  induction b with
  | nil => intro a _; cases a <;> rfl
  | cons y rest ih =>
    intro a h
    cases a with
    | nil => rfl
    | cons x arest =>
      rw [List.map_cons, List.map_cons, List.cons_prefix_cons] at h
      unfold isContained
      have : (x.edge != y.edge) = false := by simp [h.1]
      simp only [this]
      exact ih arest h.2
theorem addToGroups_mem (trg : GraphAlignment) : ∀ (groups : List PathWithScore)
    (h : PathWithScore), h ∈ addToGroups trg groups →
    (∃ h0 ∈ groups, h.path = h0.path) ∨
      (h.path = trg ∧ ∀ g ∈ groups, isContained trg g.path = false) := by
  intro groups
  induction groups with
  | nil =>
    intro h hmem
    unfold addToGroups at hmem
    rw [List.mem_singleton] at hmem
    subst hmem
    exact Or.inr ⟨rfl, by simp⟩
  | cons r rest ih =>
    intro h hmem
    unfold addToGroups at hmem
    by_cases hc : isContained trg r.path = true
    · rw [if_pos hc] at hmem
      rcases List.mem_cons.mp hmem with rfl | hmem
      · exact Or.inl ⟨r, List.mem_cons_self _ _, rfl⟩
      · exact Or.inl ⟨h, List.mem_cons_of_mem _ hmem, rfl⟩
    · rw [if_neg hc] at hmem
      rcases List.mem_cons.mp hmem with rfl | hmem
      · exact Or.inl ⟨h, List.mem_cons_self _ _, rfl⟩
      · rcases ih h hmem with ⟨h0, hh0, hp⟩ | ⟨hp, hall⟩
        · exact Or.inl ⟨h0, List.mem_cons_of_mem _ hh0, hp⟩
        · refine Or.inr ⟨hp, ?_⟩
          intro g hg
          rcases List.mem_cons.mp hg with rfl | hg
          · simpa using hc
          · exact hall g hg

theorem addToGroups_pairwise (trg : GraphAlignment) : ∀ (groups : List PathWithScore),
    groups.Pairwise (fun g h => isContained h.path g.path = false) →
    (addToGroups trg groups).Pairwise (fun g h => isContained h.path g.path = false) := by
  intro groups
  induction groups with
  | nil => intro _; unfold addToGroups; exact List.pairwise_singleton _ _
  | cons r rest ih =>
    intro hp
    rw [List.pairwise_cons] at hp
    unfold addToGroups
    by_cases hc : isContained trg r.path = true
    · rw [if_pos hc, List.pairwise_cons]
      exact ⟨fun h hh => hp.1 h hh, hp.2⟩
    · rw [if_neg hc, List.pairwise_cons]
      refine ⟨?_, ih hp.2⟩
      intro h hh
      rcases addToGroups_mem trg rest h hh with ⟨h0, hh0, hpath⟩ | ⟨hpath, _⟩
      · rw [hpath]; exact hp.1 h0 hh0
      · rw [hpath]; simpa using hc

theorem grouping_invariant (P : GraphAlignment → Prop) : ∀ (paths : List GraphAlignment)
    (groups : List PathWithScore),
    groups.Pairwise (fun g h => isContained h.path g.path = false) →
    (∀ g ∈ groups, P g.path) → (∀ p ∈ paths, P p) →
    (paths.foldl (fun groups trgPath => addToGroups trgPath groups) groups).Pairwise
        (fun g h => isContained h.path g.path = false) ∧
      ∀ g ∈ paths.foldl (fun groups trgPath => addToGroups trgPath groups) groups,
        P g.path := by
  intro paths
  induction paths with
  | nil => intro groups hp hg _; exact ⟨hp, hg⟩
  | cons p rest ih =>
    intro groups hp hg hpaths
    rw [List.foldl_cons]
    refine ih _ (addToGroups_pairwise p groups hp) ?_
      (fun q hq => hpaths q (List.mem_cons_of_mem _ hq))
    intro g hmem
    rcases addToGroups_mem p groups g hmem with ⟨h0, hh0, hpath⟩ | ⟨hpath, _⟩
    · rw [hpath]; exact hg h0 hh0
    · rw [hpath]; exact hpaths p (List.mem_cons_self _ _)

theorem convergence_fold : ∀ (others : List PathWithScore) (conv0 : List EdgePtr)
    (e : EdgePtr),
    e ∈ others.foldl
      (fun conv g => (g.path.map (fun a => a.edge)).filter (fun e => conv.contains e)) conv0 →
    e ∈ conv0 ∧ ∀ g ∈ others, e ∈ g.path.map (fun a => a.edge) := by
  intro others
  induction others with
  | nil => intro conv0 e h; exact ⟨h, by simp⟩
  | cons g rest ih =>
    intro conv0 e h
    rw [List.foldl_cons] at h
    obtain ⟨h1, h2⟩ := ih _ e h
    rw [List.mem_filter] at h1
    have hc : e ∈ conv0 := by simpa using h1.2
    refine ⟨hc, ?_⟩
    intro g' hg'
    rcases List.mem_cons.mp hg' with rfl | hg'
    · exact h1.1
    · exact h2 g' hg'

theorem agreeUpTo_succ (refPath : GraphAlignment) (i : Nat) (g : PathWithScore)
    (h : AgreeUpTo refPath i g) (href : i + 1 < refPath.length) (hg : i + 1 < g.path.length)
    (hedge : g.path[i + 1].edge = refPath[i + 1].edge) : AgreeUpTo refPath (i + 1) g := by
  refine ⟨href, hg, ?_⟩
  rw [List.take_succ, List.take_succ (l := refPath), List.getElem?_eq_getElem hg,
    List.getElem?_eq_getElem href, List.map_append, List.map_append, h.2.2]
  simp [hedge]

theorem groupsAgree_some (refPath : GraphAlignment) (conv : List EdgePtr) (i : Nat) :
    ∀ (others : List PathWithScore),
    (∀ g ∈ others, AgreeUpTo refPath i g) →
    (∀ g ∈ others, isContained g.path refPath = false) →
    ∃ b, groupsAgree refPath conv i others = some b ∧
      (b = true → ∀ g ∈ others, AgreeUpTo refPath (i + 1) g) := by
  intro others
  induction others with
  | nil => intro _ _; exact ⟨true, rfl, by simp⟩
  | cons g rest ih =>
    intro hag hnc
    obtain ⟨hi, hgi, htake⟩ := hag g (List.mem_cons_self _ _)
    have hncg := hnc g (List.mem_cons_self _ _)
    unfold groupsAgree
    by_cases h1 : i + 1 ≥ g.path.length
    · rw [if_pos h1]; exact ⟨false, rfl, by simp⟩
    · rw [if_neg h1]
      have hg1 : i + 1 < g.path.length := by omega
      have href : i + 1 < refPath.length := by
        by_contra hcon
        have hlen : refPath.length ≤ i + 1 := by omega
        have hpre : isContained g.path refPath = true := by
          apply isContained_of_prefix
          have heq : refPath.map (fun a => a.edge)
              = (g.path.map (fun a => a.edge)).take (i + 1) := by
            rw [← List.map_take, htake, List.take_of_length_le hlen]
          rw [heq]
          exact List.take_prefix _ _
        rw [hncg] at hpre
        exact absurd hpre (by decide)
      rw [List.getElem?_eq_getElem href, List.getElem?_eq_getElem hg1]
      simp only [Option.bind_eq_bind, Option.some_bind]
      by_cases h2 : (!conv.contains refPath[i + 1].edge) = true
      · rw [if_pos h2]; exact ⟨false, rfl, by simp⟩
      · rw [if_neg h2]
        by_cases h3 : (g.path[i + 1].edge != refPath[i + 1].edge) = true
        · rw [if_pos h3]; exact ⟨false, rfl, by simp⟩
        · rw [if_neg h3]
          obtain ⟨b, hb, hall⟩ := ih (fun x hx => hag x (List.mem_cons_of_mem _ hx))
            (fun x hx => hnc x (List.mem_cons_of_mem _ hx))
          refine ⟨b, hb, ?_⟩
          intro hbt x hx
          rcases List.mem_cons.mp hx with rfl | hx
          · exact agreeUpTo_succ refPath i x (hag x (List.mem_cons_self _ _)) href hg1
              (by simpa using h3)
          · exact hall hbt x hx

theorem findBubbleStart_some (refPath : GraphAlignment) (conv : List EdgePtr)
    (g1 : PathWithScore) (rest : List PathWithScore)
    (hnc : ∀ g ∈ g1 :: rest, isContained g.path refPath = false) :
    ∀ (fuel i : Nat), (∀ g ∈ g1 :: rest, AgreeUpTo refPath i g) →
    g1.path.length ≤ i + fuel →
    ∃ s, findBubbleStart refPath conv (g1 :: rest) fuel i = some s ∧
      ∀ g ∈ g1 :: rest, AgreeUpTo refPath s g := by
  intro fuel
  induction fuel with
  | zero =>
    intro i hag hlen
    have := (hag g1 (List.mem_cons_self _ _)).2.1
    omega
  | succ fuel ih =>
    intro i hag hlen
    obtain ⟨b, hb, hall⟩ := groupsAgree_some refPath conv i (g1 :: rest) hag hnc
    unfold findBubbleStart
    rw [hb]
    simp only [Option.bind_eq_bind, Option.some_bind]
    cases b with
    | false => exact ⟨i, by simp, hag⟩
    | true =>
      have hnext := hall rfl
      have := (hnext g1 (List.mem_cons_self _ _)).2.1
      simpa using ih (i + 1) hnext (by omega)
theorem split_at_index (p : GraphAlignment) (i : Nat) (h : i < p.length) :
    p = p.take i ++ p[i] :: p.drop (i + 1) := by
  rw [← List.drop_eq_getElem_cons h, List.take_append_drop]

theorem take_succ_append (mid post : GraphAlignment) (b : EdgeAlignment) :
    (mid ++ b :: post).take (mid.length + 1) = mid ++ [b] := by
  induction mid with
  | nil => simp
  | cons x rest ih => simp only [List.cons_append, List.length_cons, List.take_succ_cons, ih]

theorem addBranch_of_clip (startE endE : EdgePtr) (n : Nat) (g : PathWithScore)
    (branches : List PathWithScore) (hclip : ClipsAt startE endE n g.path)
    (hgood : ∀ b ∈ branches, GoodBranch startE endE b) :
    ∃ out, addBranch startE endE branches g = some out ∧
      ∀ b ∈ out, GoodBranch startE endE b := by
  obtain ⟨pre, a, mid, b, post, hp, _, ha, hb, hS, hT⟩ := hclip
  have hstart : lastIndexOfEdge startE g.path = pre.length :=
    lastIndexOfEdge_split startE g.path pre (mid ++ b :: post) a hp ha hS
  have hend : lastIndexOfEdge endE g.path = pre.length + 1 + mid.length := by
    rw [lastIndexOfEdge_split endE g.path (pre ++ a :: mid) post b (by rw [hp]; simp) hb hT]
    simp only [List.length_append, List.length_cons]
    omega
  have hlen : g.path.length = pre.length + 1 + mid.length + 1 + post.length := by
    rw [hp]
    simp only [List.length_append, List.length_cons]
    omega
  have hnew : (g.path.drop pre.length).take (pre.length + 1 + mid.length + 1 - pre.length)
      = a :: (mid ++ [b]) := by
    rw [hp, List.drop_left]
    have : pre.length + 1 + mid.length + 1 - pre.length = (mid.length + 1) + 1 := by omega
    rw [this, List.take_succ_cons, take_succ_append]
  have hnewGood : ∀ sc : Int, GoodBranch startE endE ⟨a :: (mid ++ [b]), sc⟩ := by
    intro sc
    refine ⟨?_, ?_, ?_⟩
    · simp only [List.length_cons, List.length_append, List.length_nil]; omega
    · simp [ha]
    · rw [← List.cons_append, List.getLast?_append]
      simp [hb]
  have hmerged : ∀ (f : PathWithScore → Bool) (sc : Int),
      ∀ x ∈ branches.map (fun b => if f b then { b with score := b.score + sc } else b),
        GoodBranch startE endE x := by
    intro f sc x hx
    obtain ⟨y, hy, hxy⟩ := List.mem_map.mp hx
    have hyg := hgood y hy
    by_cases hf : f y = true
    · rw [if_pos hf] at hxy; subst hxy; exact hyg
    · rw [if_neg hf] at hxy; subst hxy; exact hyg
  unfold addBranch
  simp only [hstart, hend, hnew]
  rw [if_pos ⟨by omega, by omega⟩]
  split
  · refine ⟨_, rfl, ?_⟩
    intro x hx
    rcases List.mem_append.mp hx with hx | hx
    · exact hmerged _ _ x hx
    · rw [List.mem_singleton] at hx; subst hx; exact hnewGood _
  · exact ⟨_, rfl, fun x hx => hmerged _ _ x hx⟩

theorem foldlM_addBranch (startE endE : EdgePtr) (n : Nat) :
    ∀ (groups branches : List PathWithScore),
    (∀ g ∈ groups, ClipsAt startE endE n g.path) →
    (∀ b ∈ branches, GoodBranch startE endE b) →
    ∃ out, groups.foldlM (addBranch startE endE) branches = some out ∧
      ∀ b ∈ out, GoodBranch startE endE b := by
  intro groups
  induction groups with
  | nil => intro branches _ hb; exact ⟨branches, rfl, hb⟩
  | cons g rest ih =>
    intro branches hc hb
    obtain ⟨mid, hmid, hgood⟩ :=
      addBranch_of_clip startE endE n g branches (hc g (List.mem_cons_self _ _)) hb
    rw [List.foldlM_cons, hmid]
    exact ih mid (fun x hx => hc x (List.mem_cons_of_mem _ hx)) hgood

theorem clipsAt_of_agree (refPath path : GraphAlignment) (s t : Nat) (hst : s < t)
    (ht : t < refPath.length) (hs : s < refPath.length) (hsg : s < path.length)
    (hag : (path.take (s + 1)).map (fun a => a.edge)
      = (refPath.take (s + 1)).map (fun a => a.edge))
    (hrefS : (refPath.map (fun a => a.edge)).count refPath[s].edge ≤ 1)
    (hrefT : (refPath.map (fun a => a.edge)).count refPath[t].edge ≤ 1)
    (hgS : (path.map (fun a => a.edge)).count refPath[s].edge ≤ 1)
    (hgT : (path.map (fun a => a.edge)).count refPath[t].edge ≤ 1)
    (hmem : refPath[t].edge ∈ path.map (fun a => a.edge)) :
    refPath[s].edge ≠ refPath[t].edge ∧
      ClipsAt refPath[s].edge refPath[t].edge s path := by
  -- the edge of the group at index `s`
  have hgs : path[s].edge = refPath[s].edge := by
    have h1 := congrArg (fun l => l[s]?) hag
    simp only [List.getElem?_map, List.getElem?_take_of_lt (Nat.lt_succ_self s),
      List.getElem?_eq_getElem hsg, List.getElem?_eq_getElem hs, Option.map_some'] at h1
    exact Option.some.inj h1
  -- the prefixes before index `s` hold the same edges
  have hpre : (path.take s).map (fun a => a.edge) = (refPath.take s).map (fun a => a.edge) := by
    have h1 := congrArg (fun l => l.take s) hag
    simp only [← List.map_take, List.take_take, Nat.min_eq_left (Nat.le_succ s)] at h1
    exact h1
  have hsplitRefS := unique_split _ refPath _ _ _ hrefS (split_at_index refPath s hs) rfl
  have hsplitRefT := unique_split _ refPath _ _ _ hrefT (split_at_index refPath t ht) rfl
  have hsplitS := unique_split _ path _ _ _ hgS (split_at_index path s hsg) hgs
  have hne : refPath[s].edge ≠ refPath[t].edge := by
    intro hc
    have hin : refPath[t] ∈ refPath.drop (s + 1) := by
      rw [List.mem_iff_getElem?]
      refine ⟨t - (s + 1), ?_⟩
      rw [List.getElem?_drop, show s + 1 + (t - (s + 1)) = t by omega,
        List.getElem?_eq_getElem ht]
    exact hsplitRefS.2 _ hin hc.symm
  refine ⟨hne, ?_⟩
  -- the end edge is not before index `s` in the group
  have hnotpre : ∀ x ∈ path.take s, x.edge ≠ refPath[t].edge := by
    intro x hx hc
    have h1 : refPath[t].edge ∈ (path.take s).map (fun a => a.edge) :=
      List.mem_map.mpr ⟨x, hx, hc⟩
    rw [hpre] at h1
    obtain ⟨y, hy, hye⟩ := List.mem_map.mp h1
    have hy2 : y ∈ refPath.take t := by
      have : refPath.take s = (refPath.take t).take s := by
        rw [List.take_take, Nat.min_eq_left (Nat.le_of_lt hst)]
      rw [this] at hy
      exact List.mem_of_mem_take hy
    exact hsplitRefT.1 y hy2 hye
  have hin : ∃ b ∈ path.drop (s + 1), b.edge = refPath[t].edge := by
    obtain ⟨b, hb, hbe⟩ := List.mem_map.mp hmem
    rw [split_at_index path s hsg] at hb
    rcases List.mem_append.mp hb with hb | hb
    · exact absurd hbe (hnotpre b hb)
    · rcases List.mem_cons.mp hb with rfl | hb
      · exact absurd (hgs.symm.trans hbe) hne
      · exact ⟨b, hb, hbe⟩
  obtain ⟨b, hb, hbe⟩ := hin
  obtain ⟨mid, post, hmp⟩ := List.append_of_mem hb
  have hp : path = path.take s ++ path[s] :: (mid ++ b :: post) := by
    rw [← hmp]; exact split_at_index path s hsg
  have hsplitT := unique_split _ path (path.take s ++ path[s] :: mid) post b hgT
    (by rw [List.append_assoc, List.cons_append]; exact hp) hbe
  refine ⟨path.take s, path[s], mid, b, post, hp, ?_, hgs, hbe, ?_, hsplitT.2⟩
  · rw [List.length_take]; omega
  · rw [← hmp]; exact hsplitS.2
theorem bubbleFromConvergence_ok (refGroup g1 : PathWithScore) (rest : List PathWithScore)
    (conv : List EdgePtr)
    (hconv : ∀ e ∈ conv, ∀ g ∈ refGroup :: g1 :: rest,
      (g.path.map (fun a => a.edge)).count e ≤ 1 ∧ e ∈ g.path.map (fun a => a.edge))
    (hnc : ∀ g ∈ g1 :: rest, isContained g.path refGroup.path = false)
    (hag0 : ∀ g ∈ g1 :: rest, AgreeUpTo refGroup.path 0 g) :
    ∃ vp, bubbleFromConvergence (refGroup :: g1 :: rest) refGroup.path (g1 :: rest)
        (g1.path.length + 1) conv = some vp ∧
      ∀ s e, vp.startEdge = some s → vp.endEdge = some e →
        s ≠ e ∧ ∀ b ∈ vp.altPaths, GoodBranch s e b := by
  have hempty : ∀ s e, VariantPaths.empty.startEdge = some s →
      VariantPaths.empty.endEdge = some e →
      s ≠ e ∧ ∀ b ∈ VariantPaths.empty.altPaths, GoodBranch s e b := by
    intro s e hs
    exact absurd hs (by simp [VariantPaths.empty])
  obtain ⟨s, hstart, hag⟩ := findBubbleStart_some refGroup.path conv g1 rest hnc
    (g1.path.length + 1) 0 hag0 (by omega)
  have hs : s < refGroup.path.length := (hag g1 (List.mem_cons_self _ _)).1
  unfold bubbleFromConvergence
  rw [hstart]
  simp only [Option.bind_eq_bind, Option.some_bind, List.getElem?_eq_getElem hs]
  by_cases h1 : (!conv.contains refGroup.path[s].edge) = true
  · rw [if_pos h1]; exact ⟨_, rfl, hempty⟩
  · rw [if_neg h1]
    have hSconv : refGroup.path[s].edge ∈ conv := by simpa using h1
    cases hfind : (refGroup.path.drop (s + 1)).findIdx? (fun a => conv.contains a.edge) with
    | none => exact ⟨_, rfl, hempty⟩
    | some offset =>
      obtain ⟨hoff, hp, _⟩ := List.findIdx?_eq_some_iff_getElem.mp hfind
      rw [List.length_drop] at hoff
      have ht : s + 1 + offset < refGroup.path.length := by omega
      have hTconv : refGroup.path[s + 1 + offset].edge ∈ conv := by
        rw [List.getElem_drop] at hp
        simpa using hp
      simp only [List.getElem?_eq_getElem ht, Option.some_bind]
      have hclips : ∀ g ∈ refGroup :: g1 :: rest,
          refGroup.path[s].edge ≠ refGroup.path[s + 1 + offset].edge ∧
          ClipsAt refGroup.path[s].edge refGroup.path[s + 1 + offset].edge s g.path := by
        intro g hg
        have hagree : s < g.path.length ∧ (g.path.take (s + 1)).map (fun a => a.edge)
            = (refGroup.path.take (s + 1)).map (fun a => a.edge) := by
          rcases List.mem_cons.mp hg with rfl | hg
          · exact ⟨hs, rfl⟩
          · exact (hag g hg).2
        exact clipsAt_of_agree refGroup.path g.path s (s + 1 + offset) (by omega) ht hs
          hagree.1 hagree.2
          (hconv _ hSconv refGroup (List.mem_cons_self _ _)).1
          (hconv _ hTconv refGroup (List.mem_cons_self _ _)).1
          (hconv _ hSconv g hg).1 (hconv _ hTconv g hg).1 (hconv _ hTconv g hg).2
      obtain ⟨out, hout, hgood⟩ := foldlM_addBranch refGroup.path[s].edge
        refGroup.path[s + 1 + offset].edge s (refGroup :: g1 :: rest) []
        (fun g hg => (hclips g hg).2) (by simp)
      rw [hout]
      simp only [Option.some_bind]
      by_cases h2 : out.length < 2
      · rw [if_pos h2]; exact ⟨_, rfl, hempty⟩
      · rw [if_neg h2]
        refine ⟨_, rfl, ?_⟩
        intro s' e' hs' he'
        simp only [Option.some.injEq] at hs' he'
        subst hs' he'
        exact ⟨(hclips refGroup (List.mem_cons_self _ _)).1, hgood⟩

theorem variantFromGroups_ok (startEdge : EdgePtr) (loopedEdges : List EdgePtr)
    (pathGroups : List PathWithScore)
    (hpair : pathGroups.Pairwise (fun g h => isContained h.path g.path = false))
    (hhead : ∀ g ∈ pathGroups, ∃ a rest, g.path = a :: rest ∧ a.edge = startEdge) :
    ∃ vp, variantFromGroups loopedEdges pathGroups = some vp ∧
      ∀ s e, vp.startEdge = some s → vp.endEdge = some e →
        s ≠ e ∧ ∀ b ∈ vp.altPaths, GoodBranch s e b := by
  have hempty : ∀ s e, VariantPaths.empty.startEdge = some s →
      VariantPaths.empty.endEdge = some e →
      s ≠ e ∧ ∀ b ∈ VariantPaths.empty.altPaths, GoodBranch s e b := by
    intro s e hs
    exact absurd hs (by simp [VariantPaths.empty])
  unfold variantFromGroups
  split
  · exact ⟨_, rfl, hempty⟩
  · exact ⟨_, rfl, hempty⟩
  · rename_i refGroup g1 rest
    simp only []
    apply bubbleFromConvergence_ok
    · intro e he g hg
      obtain ⟨h0, hothers⟩ := convergence_fold _ _ e he
      rw [List.mem_filter] at h0
      have hnotrep : e ∉ (refGroup :: g1 :: rest).flatMap (fun g => repeatsOf g.path []) := by
        have := h0.2
        simp only [Bool.and_eq_true, Bool.not_eq_true', List.contains_eq_any_beq,
          List.any_eq_false, beq_iff_eq] at this
        intro hc
        exact this.2 e hc rfl
      refine ⟨(repeatsOf_count e g.path [] ?_).2, ?_⟩
      · intro hc
        exact hnotrep (List.mem_flatMap.mpr ⟨g, hg, hc⟩)
      · rcases List.mem_cons.mp hg with rfl | hg
        · exact h0.1
        · exact hothers g hg
    · exact fun g hg => (List.pairwise_cons.mp hpair).1 g hg
    · intro g hg
      obtain ⟨a, ra, hra, hae⟩ := hhead refGroup (List.mem_cons_self _ _)
      obtain ⟨b, rb, hrb, hbe⟩ := hhead g (List.mem_cons_of_mem _ hg)
      refine ⟨by rw [hra]; simp, by rw [hrb]; simp, ?_⟩
      rw [hra, hrb]
      simp [hae, hbe]

/-- C18: `findVariantSegment` makes no out-of-bounds access (it returns a result for every
start edge, alignment list and looped-edge set, the access
`pathGroups[0].path[bubbleStartId + 1]` included), and when the result has a start and an
end edge, these differ and every branch of `altPaths` has at least two edges, starts with
the start edge and ends with the end edge. -/
theorem findVariantSegment_invariant (startEdge : EdgePtr) (alnignments : List GraphAlignment)
    (loopedEdges : List EdgePtr) :
    ∃ vp, findVariantSegment startEdge alnignments loopedEdges = some vp ∧
      ∀ s e, vp.startEdge = some s → vp.endEdge = some e →
        s ≠ e ∧ ∀ b ∈ vp.altPaths, GoodBranch s e b := by
  unfold findVariantSegment
  simp only []
  split
  · refine ⟨_, rfl, ?_⟩
    intro s e hs
    exact absurd hs (by simp [VariantPaths.empty])
  · have hsorted : ∀ p ∈ sortOutPaths (alnignments.filterMap (alignmentSuffix startEdge)),
        ∃ a rest, p = a :: rest ∧ a.edge = startEdge := by
      intro p hp
      rw [mem_sortOutPaths, List.mem_filterMap] at hp
      obtain ⟨aln, _, haln⟩ := hp
      exact alignmentSuffix_head startEdge aln p haln
    obtain ⟨hpair, hhead⟩ := grouping_invariant
      (fun p => ∃ a rest, p = a :: rest ∧ a.edge = startEdge) _ []
      List.Pairwise.nil (by simp) hsorted
    exact variantFromGroups_ok startEdge loopedEdges _
      (hpair.sublist (List.filter_sublist _))
      (fun g hg => hhead g (List.mem_of_mem_filter hg))

/-- Witness for C18 on the diamond: the reads along `E A X` and `E B X` give a non-empty
result from `E` to `X`, to which the invariant applies. -/
theorem findVariantSegment_invariant_witness :
    (findVariantSegment 0 diamondAlignments []).map (fun vp => (vp.startEdge, vp.endEdge))
        = some (some 0, some 6) ∧
      ∃ vp, findVariantSegment 0 diamondAlignments [] = some vp ∧
        ∀ s e, vp.startEdge = some s → vp.endEdge = some e →
          s ≠ e ∧ ∀ b ∈ vp.altPaths, GoodBranch s e b :=
  ⟨by decide, findVariantSegment_invariant 0 diamondAlignments []⟩

/-! ## The return value of `findComplexHaplotypes` -/

/-- C19 (fails for `findComplexHaplotypes`): on the diamond with reads along both
branches, a first run accepts the variant from `E` to `X`, counts it as new and flags the
inner edges `A`, `B` and their complements. A second run on the graph left by the first
one counts no new variant (`foundNew` is 0) and still returns 1, the number of accepted
variants. -/
theorem findComplexHaplotypes_returns_found_count :
    (findComplexHaplotypes alignedEnv ⟨diamondGraph, []⟩).map
        (fun r1 => (r1.1, [2, 3, 4, 5].map (fun e => (r1.2.graph.edge e).altHaplotype)))
        = some (1, [true, true, true, true]) ∧
      (findComplexHaplotypes alignedEnv ⟨diamondGraph, []⟩).bind
        (fun r1 => complexFoundNew alignedEnv r1.2) = some 0 ∧
      (findComplexHaplotypes alignedEnv ⟨diamondGraph, []⟩).bind
        (fun r1 => (findComplexHaplotypes alignedEnv r1.2).map Prod.fst) = some 1 := by
  refine ⟨by decide, by decide, by decide⟩

/-! ## The bounded Dijkstra `getShortestPathsLen` -/

theorem distSet_lookup (dist : List (EdgePtr × Int)) (e x : EdgePtr) (d : Int) :
    (distSet dist e d).lookup x = if x = e then some d else dist.lookup x := by
  unfold distSet
  rw [List.lookup_cons]
  by_cases hx : x = e
  · subst hx; simp
  · have hb : (x == e) = false := by simpa using hx
    simp only [hb, if_neg hx]
    induction dist with
    | nil => rfl
    | cons p rest ih =>
      obtain ⟨pk, pv⟩ := p
      by_cases hpk : pk = e
      · subst hpk
        have hb2 : (x == pk) = false := by simpa using hx
        simp only [List.filter_cons, bne_self_eq_false, Bool.false_eq_true, if_false,
          List.lookup_cons, hb2]
        exact ih
      · have hb3 : (pk != e) = true := by simpa using hpk
        simp only [List.filter_cons, hb3, if_true, List.lookup_cons]
        rw [ih]

theorem lookup_erase_key (dist : List (EdgePtr × Int)) (e x : EdgePtr) :
    (dist.filter (fun p => p.1 != e)).lookup x = if x = e then none else dist.lookup x := by
  induction dist with
  | nil => simp
  | cons p rest ih =>
    obtain ⟨pk, pv⟩ := p
    by_cases hpk : pk = e
    · subst hpk
      simp only [List.filter_cons, bne_self_eq_false, Bool.false_eq_true, if_false,
        List.lookup_cons]
      rw [ih]
      by_cases hx : x = pk
      · simp [hx]
      · have hb : (x == pk) = false := by simpa using hx
        simp only [hb]
    · have hb3 : (pk != e) = true := by simpa using hpk
      simp only [List.filter_cons, hb3, if_true, List.lookup_cons]
      rw [ih]
      by_cases hx : x = pk
      · subst hx; simp [hpk]
      · have hb : (x == pk) = false := by simpa using hx
        simp only [hb]

theorem foldl_lowest (rest : List (EdgePtr × Int)) : ∀ (init : EdgePtr × Int),
    (rest.foldl (fun best cand => if cand.2 < best.2 then cand else best) init = init ∨
      rest.foldl (fun best cand => if cand.2 < best.2 then cand else best) init ∈ rest) ∧
    (rest.foldl (fun best cand => if cand.2 < best.2 then cand else best) init).2 ≤ init.2 ∧
    ∀ y ∈ rest,
      (rest.foldl (fun best cand => if cand.2 < best.2 then cand else best) init).2 ≤ y.2 := by
  induction rest with
  | nil => intro init; simp
  | cons c rest ih =>
    intro init
    rw [List.foldl_cons]
    by_cases hc : c.2 < init.2
    · rw [if_pos hc]
      obtain ⟨h1, h2, h3⟩ := ih c
      refine ⟨Or.inr ?_, by omega, ?_⟩
      · rcases h1 with h1 | h1
        · rw [h1]; exact List.mem_cons_self _ _
        · exact List.mem_cons_of_mem _ h1
      · intro y hy
        rcases List.mem_cons.mp hy with rfl | hy
        · exact h2
        · exact h3 y hy
    · rw [if_neg hc]
      obtain ⟨h1, h2, h3⟩ := ih init
      refine ⟨?_, h2, ?_⟩
      · rcases h1 with h1 | h1
        · exact Or.inl h1
        · exact Or.inr (List.mem_cons_of_mem _ h1)
      · intro y hy
        rcases List.mem_cons.mp hy with rfl | hy
        · omega
        · exact h3 y hy

theorem popLowest_spec (first : EdgePtr × Int) (rest : List (EdgePtr × Int)) :
    ∃ best, popLowest (first :: rest) = some (best, (first :: rest).erase best) ∧
      best ∈ first :: rest ∧ ∀ y ∈ first :: rest, best.2 ≤ y.2 := by
  obtain ⟨h1, h2, h3⟩ := foldl_lowest rest first
  refine ⟨_, rfl, ?_, ?_⟩
  · rcases h1 with h1 | h1
    · rw [h1]; exact List.mem_cons_self _ _
    · exact List.mem_cons_of_mem _ h1
  · intro y hy
    rcases List.mem_cons.mp hy with rfl | hy
    · exact h2
    · exact h3 y hy

theorem openSum_mono (f : EdgePtr → Nat) (closed : List EdgePtr) (c : EdgePtr) :
    ∀ (es : List EdgePtr),
    ((es.filter (fun e => !(c :: closed).contains e)).map f).sum
      ≤ ((es.filter (fun e => !closed.contains e)).map f).sum := by
  intro es
  induction es with
  | nil => simp
  | cons e rest ih =>
    by_cases h1 : (c :: closed).contains e = true
    · by_cases h2 : closed.contains e = true
      · simp only [List.filter_cons, h1, h2, Bool.not_true, Bool.false_eq_true, if_false]
        exact ih
      · simp only [List.filter_cons, h1, h2, Bool.not_true, Bool.false_eq_true, if_false,
          Bool.not_false, if_true, List.map_cons, List.sum_cons]
        omega
    · have h2 : ¬ closed.contains e = true := by
        intro hc
        apply h1
        simp only [List.contains_eq_any_beq, List.any_eq_true, beq_iff_eq] at hc ⊢
        obtain ⟨x, hx, hxe⟩ := hc
        exact ⟨x, List.mem_cons_of_mem _ hx, hxe⟩
      simp only [List.filter_cons, h1, h2, Bool.not_false, if_true, List.map_cons,
        List.sum_cons]
      omega

theorem openSum_close (f : EdgePtr → Nat) (closed : List EdgePtr) (c : EdgePtr)
    (hnot : c ∉ closed) : ∀ (es : List EdgePtr), c ∈ es →
    ((es.filter (fun e => !(c :: closed).contains e)).map f).sum + f c
      ≤ ((es.filter (fun e => !closed.contains e)).map f).sum := by
  intro es
  induction es with
  | nil => intro hc; exact absurd hc (List.not_mem_nil _)
  | cons e rest ih =>
    intro hc
    have hrest := openSum_mono f closed c rest
    by_cases hec : e = c
    · subst hec
      have h1 : (e :: closed).contains e = true := by simp
      have h2 : closed.contains e = false := by simpa using hnot
      simp only [List.filter_cons, h1, h2, Bool.not_true, Bool.false_eq_true, if_false,
        Bool.not_false, if_true, List.map_cons, List.sum_cons]
      omega
    · have hcr : c ∈ rest := by
        rcases List.mem_cons.mp hc with h | h
        · exact absurd h.symm hec
        · exact h
      have ih2 := ih hcr
      by_cases h2 : closed.contains e = true
      · have h1 : (c :: closed).contains e = true := by
          simp only [List.contains_eq_any_beq, List.any_eq_true, beq_iff_eq] at h2 ⊢
          obtain ⟨x, hx, hxe⟩ := h2
          exact ⟨x, List.mem_cons_of_mem _ hx, hxe⟩
        simp only [List.filter_cons, h1, h2, Bool.not_true, Bool.false_eq_true, if_false]
        exact ih2
      · have h1 : ¬ (c :: closed).contains e = true := by
          intro hcon
          simp only [List.contains_eq_any_beq, List.any_eq_true, beq_iff_eq] at hcon h2
          obtain ⟨x, hx, hxe⟩ := hcon
          rcases List.mem_cons.mp hx with rfl | hx
          · exact hec hxe
          · exact h2 ⟨x, hx, hxe⟩
        simp only [List.filter_cons, h1, h2, Bool.not_false, if_true, List.map_cons,
          List.sum_cons]
        omega

theorem openWork_close (g : RepeatGraph) (closed : List EdgePtr) (c : EdgePtr)
    (hc : c ∈ g.edges) (hnot : c ∉ closed) :
    openWork g (c :: closed) + outDegree g c ≤ openWork g closed :=
  openSum_close (outDegree g) closed c hnot g.edges hc
theorem relaxOutEdges_sink (g : RepeatGraph) (sink : EdgePtr) (maxBubble p : Int)
    (rest : List EdgePtr) (st : List (EdgePtr × Int) × List (EdgePtr × Int)) :
    relaxOutEdges g sink maxBubble p (sink :: rest) st
      = relaxOutEdges g sink maxBubble p rest st := by
  rw [relaxOutEdges, if_pos rfl]

theorem relaxOutEdges_keep (g : RepeatGraph) (sink : EdgePtr) (maxBubble p : Int)
    (n : EdgePtr) (rest : List EdgePtr) (st : List (EdgePtr × Int) × List (EdgePtr × Int))
    (old : Int) (hsink : n ≠ sink) (hlook : st.1.lookup n = some old)
    (hkeep : ¬ p + (g.edge n).length + 1 < old) :
    relaxOutEdges g sink maxBubble p (n :: rest) st
      = relaxOutEdges g sink maxBubble p rest st := by
  rw [relaxOutEdges, if_neg hsink]
  simp only [hlook, decide_eq_true_eq, if_neg hkeep]

theorem relaxOutEdges_improve (g : RepeatGraph) (sink : EdgePtr) (maxBubble p : Int)
    (n : EdgePtr) (rest : List EdgePtr) (st : List (EdgePtr × Int) × List (EdgePtr × Int))
    (hsink : n ≠ sink)
    (himp : st.1.lookup n = none ∨
      ∃ old, st.1.lookup n = some old ∧ p + (g.edge n).length + 1 < old) :
    relaxOutEdges g sink maxBubble p (n :: rest) st
      = if p + (g.edge n).length + 1 > maxBubble then (st.1, st.2, true)
        else relaxOutEdges g sink maxBubble p rest
          (distSet st.1 n (p + (g.edge n).length + 1),
            st.2 ++ [(n, p + (g.edge n).length + 1)]) := by
  rw [relaxOutEdges, if_neg hsink]
  rcases himp with hnone | ⟨old, hold, hlt⟩
  · simp only [hnone, if_true]
  · simp only [hold, decide_eq_true_eq, if_pos hlt]

theorem dijkstraInv_skip (g : RepeatGraph) (source sink : EdgePtr) (maxBubble : Int)
    (dist queue : List (EdgePtr × Int)) (closed : List EdgePtr) (cur n : EdgePtr)
    (rest : List EdgePtr)
    (hinv : DijkstraInv g source sink maxBubble dist queue closed cur (n :: rest))
    (hdone : n ≠ sink → ∀ d, dist.lookup cur = some d →
      ∃ dn, dist.lookup n = some dn ∧ dn ≤ d + (g.edge n).length + 1) :
    DijkstraInv g source sink maxBubble dist queue closed cur rest where
  source_zero := hinv.source_zero
  sound := hinv.sound
  bounded := hinv.bounded
  queued := hinv.queued
  open_queued := hinv.open_queued
  closed_low := hinv.closed_low
  relaxed := by
    intro x hx d hd m hm hms
    rcases hinv.relaxed x hx d hd m hm hms with ⟨hxc, hmem⟩ | h
    · rcases List.mem_cons.mp hmem with rfl | hmem
      · subst hxc
        exact Or.inr (hdone hms d hd)
      · exact Or.inl ⟨hxc, hmem⟩
    · exact Or.inr h

theorem dijkstraInv_improve (g : RepeatGraph) (source sink : EdgePtr) (maxBubble : Int)
    (dist queue : List (EdgePtr × Int)) (closed : List EdgePtr) (cur n : EdgePtr)
    (rest : List EdgePtr) (p : Int)
    (hinv : DijkstraInv g source sink maxBubble dist queue closed cur (n :: rest))
    (hcur : cur ∈ closed) (hp : dist.lookup cur = some p) (hp0 : 0 ≤ p)
    (hlow : ∀ x ∈ closed, ∀ d, dist.lookup x = some d → d ≤ p)
    (hn : n ∈ g.edges) (hnout : n ∈ (g.node (g.edge cur).nodeRight).outEdges)
    (hw : 0 ≤ (g.edge n).length) (hsink : n ≠ sink)
    (himp : dist.lookup n = none ∨
      ∃ old, dist.lookup n = some old ∧ p + (g.edge n).length + 1 < old)
    (hmax : ¬ p + (g.edge n).length + 1 > maxBubble) :
    DijkstraInv g source sink maxBubble (distSet dist n (p + (g.edge n).length + 1))
        (queue ++ [(n, p + (g.edge n).length + 1)]) closed cur rest ∧
      (distSet dist n (p + (g.edge n).length + 1)).lookup cur = some p ∧
      ∀ x ∈ closed, ∀ d,
        (distSet dist n (p + (g.edge n).length + 1)).lookup x = some d → d ≤ p := by
  have hnC : n ∉ closed := by
    intro hc
    obtain ⟨d, hd, _⟩ := hinv.closed_low n hc
    have hdp := hlow n hc d hd
    rcases himp with hnone | ⟨old, hold, hlt⟩
    · rw [hnone] at hd; exact absurd hd (by simp)
    · rw [hold] at hd
      have := Option.some.inj hd
      omega
  have hns : n ≠ source := by
    intro hc
    have hz := hinv.source_zero
    rw [← hc] at hz
    rcases himp with hnone | ⟨old, hold, hlt⟩
    · rw [hnone] at hz; exact absurd hz (by simp)
    · rw [hold] at hz
      have := Option.some.inj hz
      omega
  have hclosed_ne : ∀ x ∈ closed, x ≠ n := fun x hx hc => hnC (hc ▸ hx)
  have hlk := distSet_lookup dist n
  refine ⟨?_, ?_, ?_⟩
  · refine ⟨?_, ?_, ?_, ?_, ?_, ?_, ?_⟩
    · rw [hlk, if_neg (fun hc => hns hc.symm)]
      exact hinv.source_zero
    · intro x d hd
      rw [hlk] at hd
      by_cases hx : x = n
      · rw [if_pos hx] at hd
        have := Option.some.inj hd
        subst this
        subst hx
        exact SinkFreeWalk.step x (hinv.sound cur p hp) hnout hsink
      · rw [if_neg hx] at hd
        exact hinv.sound x d hd
    · intro x d hd hxs
      rw [hlk] at hd
      by_cases hx : x = n
      · rw [if_pos hx] at hd
        have := Option.some.inj hd
        subst hx
        exact ⟨by omega, hsink⟩
      · rw [if_neg hx] at hd
        exact hinv.bounded x d hd hxs
    · intro y hy
      rcases List.mem_append.mp hy with hy | hy
      · obtain ⟨h1, h2, d, hd, hdy⟩ := hinv.queued y hy
        refine ⟨h1, h2, ?_⟩
        rw [hlk]
        by_cases hx : y.1 = n
        · rw [if_pos hx]
          refine ⟨_, rfl, ?_⟩
          rw [hx] at hd
          rcases himp with hnone | ⟨old, hold, hlt⟩
          · rw [hnone] at hd; exact absurd hd (by simp)
          · rw [hold] at hd
            have := Option.some.inj hd
            omega
        · rw [if_neg hx]
          exact ⟨d, hd, hdy⟩
      · rw [List.mem_singleton] at hy
        subst hy
        refine ⟨hn, by simp only []; omega, ?_⟩
        rw [hlk, if_pos rfl]
        exact ⟨_, rfl, le_refl _⟩
    · intro x d hd hxc
      rw [hlk] at hd
      by_cases hx : x = n
      · rw [if_pos hx] at hd
        have := Option.some.inj hd
        subst this
        subst hx
        exact List.mem_append.mpr (Or.inr (List.mem_singleton.mpr rfl))
      · rw [if_neg hx] at hd
        exact List.mem_append.mpr (Or.inl (hinv.open_queued x d hd hxc))
    · intro x hx d hd m hm hms
      rw [hlk, if_neg (hclosed_ne x hx)] at hd
      rcases hinv.relaxed x hx d hd m hm hms with ⟨hxc, hmem⟩ | ⟨dn, hdn, hle⟩
      · rcases List.mem_cons.mp hmem with rfl | hmem
        · right
          refine ⟨_, by rw [hlk, if_pos rfl], ?_⟩
          subst hxc
          rw [hp] at hd
          have := Option.some.inj hd
          omega
        · exact Or.inl ⟨hxc, hmem⟩
      · right
        by_cases hmn : m = n
        · refine ⟨_, by rw [hlk, if_pos hmn], ?_⟩
          subst hmn
          rcases himp with hnone | ⟨old, hold, hlt⟩
          · rw [hnone] at hdn; exact absurd hdn (by simp)
          · rw [hold] at hdn
            have := Option.some.inj hdn
            have := hlow x hx d hd
            omega
        · exact ⟨dn, by rw [hlk, if_neg hmn]; exact hdn, hle⟩
    · intro x hx
      obtain ⟨d, hd, hall⟩ := hinv.closed_low x hx
      refine ⟨d, by rw [hlk, if_neg (hclosed_ne x hx)]; exact hd, ?_⟩
      intro y hy
      rcases List.mem_append.mp hy with hy | hy
      · exact hall y hy
      · rw [List.mem_singleton] at hy
        subst hy
        have := hlow x hx d hd
        simp only []
        omega
  · rw [hlk, if_neg (hclosed_ne cur hcur)]
    exact hp
  · intro x hx d hd
    rw [hlk, if_neg (hclosed_ne x hx)] at hd
    exact hlow x hx d hd
theorem relaxOutEdges_inv (g : RepeatGraph) (source sink : EdgePtr) (maxBubble : Int)
    (closed : List EdgePtr) (cur : EdgePtr) (p : Int)
    (hlen : ∀ e ∈ g.edges, 0 ≤ (g.edge e).length) (hcur : cur ∈ closed) (hp0 : 0 ≤ p) :
    ∀ (outs : List EdgePtr) (dist queue : List (EdgePtr × Int)),
    DijkstraInv g source sink maxBubble dist queue closed cur outs →
    dist.lookup cur = some p →
    (∀ x ∈ closed, ∀ d, dist.lookup x = some d → d ≤ p) →
    (∀ n ∈ outs, n ∈ g.edges ∧ n ∈ (g.node (g.edge cur).nodeRight).outEdges) →
    (relaxOutEdges g sink maxBubble p outs (dist, queue)).2.2 = false →
    DijkstraInv g source sink maxBubble
        (relaxOutEdges g sink maxBubble p outs (dist, queue)).1
        (relaxOutEdges g sink maxBubble p outs (dist, queue)).2.1 closed cur [] ∧
      (relaxOutEdges g sink maxBubble p outs (dist, queue)).2.1.length
        ≤ queue.length + outs.length := by
  intro outs
  induction outs with
  | nil =>
    intro dist queue hinv _ _ _ _
    rw [relaxOutEdges]
    exact ⟨hinv, by simp⟩
  | cons n rest ih =>
    intro dist queue hinv hp hlow houts hfail
    obtain ⟨hn, hnout⟩ := houts n (List.mem_cons_self _ _)
    have hrest : ∀ m ∈ rest, m ∈ g.edges ∧ m ∈ (g.node (g.edge cur).nodeRight).outEdges :=
      fun m hm => houts m (List.mem_cons_of_mem _ hm)
    by_cases hsink : n = sink
    · subst hsink
      rw [relaxOutEdges_sink] at hfail ⊢
      obtain ⟨h1, h2⟩ := ih dist queue
        (dijkstraInv_skip g source n maxBubble dist queue closed cur n rest hinv
          (fun h => absurd rfl h)) hp hlow hrest hfail
      exact ⟨h1, by simp only [List.length_cons]; omega⟩
    · have himprove : (dist.lookup n = none ∨
          ∃ old, dist.lookup n = some old ∧ p + (g.edge n).length + 1 < old) →
          DijkstraInv g source sink maxBubble
            (relaxOutEdges g sink maxBubble p (n :: rest) (dist, queue)).1
            (relaxOutEdges g sink maxBubble p (n :: rest) (dist, queue)).2.1 closed cur [] ∧
          (relaxOutEdges g sink maxBubble p (n :: rest) (dist, queue)).2.1.length
            ≤ queue.length + (n :: rest).length := by
        intro himp
        rw [relaxOutEdges_improve g sink maxBubble p n rest (dist, queue) hsink himp]
          at hfail ⊢
        by_cases hmax : p + (g.edge n).length + 1 > maxBubble
        · rw [if_pos hmax] at hfail
          exact absurd hfail (by simp)
        · rw [if_neg hmax] at hfail ⊢
          obtain ⟨hinv2, hp2, hlow2⟩ := dijkstraInv_improve g source sink maxBubble dist queue
            closed cur n rest p hinv hcur hp hp0 hlow hn hnout (hlen n hn) hsink himp hmax
          obtain ⟨h1, h2⟩ := ih _ _ hinv2 hp2 hlow2 hrest hfail
          refine ⟨h1, ?_⟩
          simp only [List.length_append, List.length_cons, List.length_nil] at h2 ⊢
          omega
      cases hlook : dist.lookup n with
      | none => exact himprove (Or.inl hlook)
      | some old =>
        by_cases hlt : p + (g.edge n).length + 1 < old
        · exact himprove (Or.inr ⟨old, hlook, hlt⟩)
        · rw [relaxOutEdges_keep g sink maxBubble p n rest (dist, queue) old hsink hlook hlt]
            at hfail ⊢
          obtain ⟨h1, h2⟩ := ih dist queue
            (dijkstraInv_skip g source sink maxBubble dist queue closed cur n rest hinv
              (by
                intro _ d hd
                rw [hp] at hd
                have := Option.some.inj hd
                exact ⟨old, hlook, by omega⟩)) hp hlow hrest hfail
          exact ⟨h1, by simp only [List.length_cons]; omega⟩

theorem dijkstraInv_cur (g : RepeatGraph) (source sink : EdgePtr) (maxBubble : Int)
    (dist queue : List (EdgePtr × Int)) (closed : List EdgePtr) (cur cur2 : EdgePtr)
    (hinv : DijkstraInv g source sink maxBubble dist queue closed cur []) :
    DijkstraInv g source sink maxBubble dist queue closed cur2 [] where
  source_zero := hinv.source_zero
  sound := hinv.sound
  bounded := hinv.bounded
  queued := hinv.queued
  open_queued := hinv.open_queued
  closed_low := hinv.closed_low
  relaxed := by
    intro x hx d hd m hm hms
    rcases hinv.relaxed x hx d hd m hm hms with ⟨_, hmem⟩ | h
    · exact absurd hmem (List.not_mem_nil _)
    · exact Or.inr h

theorem dijkstraInv_final (g : RepeatGraph) (source sink : EdgePtr) (maxBubble : Int)
    (dist : List (EdgePtr × Int)) (closed : List EdgePtr) (cur : EdgePtr)
    (hinv : DijkstraInv g source sink maxBubble dist [] closed cur []) :
    ∀ x c, SinkFreeWalk g source sink x c → ∃ d, dist.lookup x = some d ∧ d ≤ c := by
  intro x c hwalk
  induction hwalk with
  | start => exact ⟨0, hinv.source_zero, le_refl _⟩
  | @step e ce n _ hout hsink ih =>
    obtain ⟨de, hde, hle⟩ := ih
    have hclosed : e ∈ closed := by
      by_contra hc
      exact absurd (hinv.open_queued e de hde hc) (List.not_mem_nil _)
    rcases hinv.relaxed e hclosed de hde n hout hsink with ⟨_, hmem⟩ | ⟨dn, hdn, hdle⟩
    · exact absurd hmem (List.not_mem_nil _)
    · exact ⟨dn, hdn, by omega⟩
theorem dijkstraInv_pop_closed (g : RepeatGraph) (source sink : EdgePtr) (maxBubble : Int)
    (dist queue : List (EdgePtr × Int)) (closed : List EdgePtr) (best : EdgePtr × Int)
    (hinv : DijkstraInv g source sink maxBubble dist queue closed source [])
    (hc : best.1 ∈ closed) :
    DijkstraInv g source sink maxBubble dist (queue.erase best) closed source [] where
  source_zero := hinv.source_zero
  sound := hinv.sound
  bounded := hinv.bounded
  queued := fun y hy => hinv.queued y (List.mem_of_mem_erase hy)
  open_queued := by
    intro x d hd hx
    have hne : (x, d) ≠ best := by
      intro h
      rw [← h] at hc
      exact hx hc
    exact (List.mem_erase_of_ne hne).mpr (hinv.open_queued x d hd hx)
  relaxed := hinv.relaxed
  closed_low := by
    intro x hx
    obtain ⟨d, hd, hall⟩ := hinv.closed_low x hx
    exact ⟨d, hd, fun y hy => hall y (List.mem_of_mem_erase hy)⟩

theorem dijkstraInv_pop_open (g : RepeatGraph) (source sink : EdgePtr) (maxBubble : Int)
    (dist queue : List (EdgePtr × Int)) (closed : List EdgePtr) (best : EdgePtr × Int)
    (hinv : DijkstraInv g source sink maxBubble dist queue closed source [])
    (hmem : best ∈ queue) (hmin : ∀ y ∈ queue, best.2 ≤ y.2) (hc : best.1 ∉ closed) :
    DijkstraInv g source sink maxBubble dist (queue.erase best) (best.1 :: closed) best.1
        (g.node (g.edge best.1).nodeRight).outEdges ∧
      dist.lookup best.1 = some best.2 ∧ 0 ≤ best.2 ∧ best.1 ∈ g.edges ∧
      ∀ x ∈ best.1 :: closed, ∀ d, dist.lookup x = some d → d ≤ best.2 := by
  obtain ⟨hedge, hp0, d, hd, hdp⟩ := hinv.queued best hmem
  have hpd := hmin _ (hinv.open_queued best.1 d hd hc)
  have hlabel : dist.lookup best.1 = some best.2 := by
    rw [hd]
    have : d = best.2 := by simp only [] at hpd; omega
    rw [this]
  have hlow : ∀ x ∈ best.1 :: closed, ∀ d, dist.lookup x = some d → d ≤ best.2 := by
    intro x hx dx hdx
    rcases List.mem_cons.mp hx with rfl | hx
    · rw [hlabel] at hdx
      have := Option.some.inj hdx
      omega
    · obtain ⟨d2, hd2, hall⟩ := hinv.closed_low x hx
      rw [hd2] at hdx
      have := Option.some.inj hdx
      have := hall best hmem
      omega
  refine ⟨⟨hinv.source_zero, hinv.sound, hinv.bounded,
    fun y hy => hinv.queued y (List.mem_of_mem_erase hy), ?_, ?_, ?_⟩,
    hlabel, hp0, hedge, hlow⟩
  · intro x dx hdx hx
    have hxb : x ≠ best.1 := fun h => hx (h ▸ List.mem_cons_self _ _)
    have hxc : x ∉ closed := fun h => hx (List.mem_cons_of_mem _ h)
    have hne : (x, dx) ≠ best := fun h => hxb (by rw [← h])
    exact (List.mem_erase_of_ne hne).mpr (hinv.open_queued x dx hdx hxc)
  · intro x hx dx hdx m hm hms
    rcases List.mem_cons.mp hx with rfl | hx
    · exact Or.inl ⟨rfl, hm⟩
    · rcases hinv.relaxed x hx dx hdx m hm hms with ⟨_, hmem2⟩ | h
      · exact absurd hmem2 (List.not_mem_nil _)
      · exact Or.inr h
  · intro x hx
    rcases List.mem_cons.mp hx with rfl | hx
    · exact ⟨best.2, hlabel, fun y hy => hmin y (List.mem_of_mem_erase hy)⟩
    · obtain ⟨d2, hd2, hall⟩ := hinv.closed_low x hx
      exact ⟨d2, hd2, fun y hy => hall y (List.mem_of_mem_erase hy)⟩

theorem dijkstraLoop_inv (g : RepeatGraph) (source sink : EdgePtr) (maxBubble : Int)
    (hclosed : ∀ e ∈ g.edges, ∀ n ∈ (g.node (g.edge e).nodeRight).outEdges, n ∈ g.edges)
    (hlen : ∀ e ∈ g.edges, 0 ≤ (g.edge e).length) :
    ∀ (fuel : Nat) (queue : List (EdgePtr × Int)) (closed : List EdgePtr)
      (dist : List (EdgePtr × Int)),
    DijkstraInv g source sink maxBubble dist queue closed source [] →
    queue.length + openWork g closed ≤ fuel →
    ∃ res, dijkstraLoop g source sink maxBubble fuel queue closed dist = some res ∧
      (res.failure = false → ∃ finalDist finalClosed,
        DijkstraInv g source sink maxBubble finalDist [] finalClosed source [] ∧
        res.dist = finalDist.filter (fun p => p.1 != source)) := by
  intro fuel
  induction fuel with
  | zero =>
    intro queue closed dist hinv hfuel
    cases queue with
    | nil =>
      rw [dijkstraLoop]
      exact ⟨_, rfl, fun _ => ⟨dist, closed, hinv, rfl⟩⟩
    | cons first rest =>
      simp only [List.length_cons] at hfuel
      omega
  | succ fuel ih =>
    intro queue closed dist hinv hfuel
    cases queue with
    | nil =>
      rw [dijkstraLoop]
      exact ⟨_, rfl, fun _ => ⟨dist, closed, hinv, rfl⟩⟩
    | cons first rest =>
      obtain ⟨best, hpop, hmem, hmin⟩ := popLowest_spec first rest
      have hlenErase : ((first :: rest).erase best).length + 1 = (first :: rest).length := by
        rw [List.length_erase_of_mem hmem]
        simp only [List.length_cons]
        omega
      rw [dijkstraLoop, hpop]
      simp only []
      by_cases hc : closed.contains best.1 = true
      · rw [if_pos hc]
        have hcm : best.1 ∈ closed := by simpa using hc
        exact ih _ closed dist
          (dijkstraInv_pop_closed g source sink maxBubble dist _ closed best hinv hcm)
          (by omega)
      · rw [if_neg hc]
        have hcm : best.1 ∉ closed := by simpa using hc
        obtain ⟨hmid, hlabel, hp0, hedge, hlow⟩ :=
          dijkstraInv_pop_open g source sink maxBubble dist _ closed best hinv hmem hmin hcm
        by_cases hfail : (relaxOutEdges g sink maxBubble best.2
            (g.node (g.edge best.1).nodeRight).outEdges
            (dist, (first :: rest).erase best)).2.2 = true
        · rw [if_pos hfail]
          exact ⟨_, rfl, fun h => absurd h (by simp)⟩
        · rw [if_neg hfail]
          obtain ⟨hinv2, hlen2⟩ := relaxOutEdges_inv g source sink maxBubble (best.1 :: closed)
            best.1 best.2 hlen (List.mem_cons_self _ _) hp0 _ dist _ hmid hlabel hlow
            (fun n hn => ⟨hclosed best.1 hedge n hn, hn⟩) (by simpa using hfail)
          have hwork := openWork_close g closed best.1 hedge hcm
          unfold outDegree at hwork
          exact ih _ _ _
            (dijkstraInv_cur g source sink maxBubble _ _ _ best.1 source hinv2) (by omega)

/-- C20: `getShortestPathsLen` is a correct bounded Dijkstra. On a graph whose edge list
holds the source and the out-edges of its edges, with non-negative edge lengths,
`dijkstraFuel g` iterations are enough for the loop to end, and when the result has
`failure == false` every key `x` of the distance map differs from `source` and from
`sink`, its distance is at most `maxBubble`, is the cost of a walk from `source` to `x`
that never enters `sink` and is not above the cost of any such walk; and every other
edge than `source` reached by such a walk is a key. -/
theorem getShortestPathsLen_correct (g : RepeatGraph) (source sink : EdgePtr)
    (maxBubble : Int) (fuel : Nat) (hsource : source ∈ g.edges)
    (hclosed : ∀ e ∈ g.edges, ∀ n ∈ (g.node (g.edge e).nodeRight).outEdges, n ∈ g.edges)
    (hlen : ∀ e ∈ g.edges, 0 ≤ (g.edge e).length) (hfuel : dijkstraFuel g ≤ fuel) :
    ∃ res, getShortestPathsLen g fuel source sink maxBubble = some res ∧
      (res.failure = false →
        (∀ x d, res.dist.lookup x = some d →
          x ≠ source ∧ x ≠ sink ∧ d ≤ maxBubble ∧ SinkFreeWalk g source sink x d ∧
            ∀ c, SinkFreeWalk g source sink x c → d ≤ c) ∧
        (∀ x c, x ≠ source → SinkFreeWalk g source sink x c →
          ∃ d, res.dist.lookup x = some d)) := by
  have hinit : DijkstraInv g source sink maxBubble [(source, 0)] [(source, 0)] [] source [] := by
    have hlk : ∀ x d, List.lookup x [(source, (0 : Int))] = some d → x = source ∧ d = 0 := by
      intro x d h
      rw [List.lookup_cons] at h
      by_cases hx : x = source
      · subst hx
        simp only [beq_self_eq_true] at h
        exact ⟨rfl, (Option.some.inj h).symm⟩
      · have hb : (x == source) = false := by simpa using hx
        simp only [hb, List.lookup_nil] at h
        exact absurd h (by simp)
    refine ⟨by simp, ?_, ?_, ?_, ?_, ?_, ?_⟩
    · intro x d h
      obtain ⟨rfl, rfl⟩ := hlk x d h
      exact SinkFreeWalk.start
    · intro x d h hx
      exact absurd (hlk x d h).1 hx
    · intro y hy
      rw [List.mem_singleton] at hy
      subst hy
      exact ⟨hsource, le_refl _, 0, by simp, le_refl _⟩
    · intro x d h _
      obtain ⟨rfl, rfl⟩ := hlk x d h
      exact List.mem_singleton.mpr rfl
    · intro x hx
      exact absurd hx (List.not_mem_nil _)
    · intro x hx
      exact absurd hx (List.not_mem_nil _)
  have hwork : [(source, (0 : Int))].length + openWork g [] ≤ fuel := by
    unfold dijkstraFuel at hfuel
    unfold openWork
    simpa using hfuel
  obtain ⟨res, hres, hfinal⟩ := dijkstraLoop_inv g source sink maxBubble hclosed hlen fuel
    [(source, 0)] [] [(source, 0)] hinit hwork
  refine ⟨res, hres, ?_⟩
  intro hok
  obtain ⟨finalDist, finalClosed, hinv, hdist⟩ := hfinal hok
  have hwalks := dijkstraInv_final g source sink maxBubble finalDist finalClosed source hinv
  refine ⟨?_, ?_⟩
  · intro x d hd
    rw [hdist, lookup_erase_key] at hd
    by_cases hx : x = source
    · rw [if_pos hx] at hd
      exact absurd hd (by simp)
    · rw [if_neg hx] at hd
      obtain ⟨hmax, hsink⟩ := hinv.bounded x d hd hx
      refine ⟨hx, hsink, hmax, hinv.sound x d hd, ?_⟩
      intro c hc
      obtain ⟨d2, hd2, hle⟩ := hwalks x c hc
      rw [hd] at hd2
      have := Option.some.inj hd2
      omega
  · intro x c hx hc
    obtain ⟨d, hd, _⟩ := hwalks x c hc
    exact ⟨d, by rw [hdist, lookup_erase_key, if_neg hx]; exact hd⟩

/-- Witness for C20 on the diamond of scenario S3, from `E` with sink `X`: the loop ends
without failure and finds `A` and `B` at distance 5001. -/
theorem getShortestPathsLen_correct_witness :
    getShortestPathsLen diamondGraph 9 0 6 50000 = some ⟨[(4, 5001), (2, 5001)], false⟩ ∧
    ∃ res, getShortestPathsLen diamondGraph 9 0 6 50000 = some res ∧
      (res.failure = false →
        (∀ x d, res.dist.lookup x = some d →
          x ≠ 0 ∧ x ≠ 6 ∧ d ≤ 50000 ∧ SinkFreeWalk diamondGraph 0 6 x d ∧
            ∀ c, SinkFreeWalk diamondGraph 0 6 x c → d ≤ c) ∧
        (∀ x c, x ≠ 0 → SinkFreeWalk diamondGraph 0 6 x c →
          ∃ d, res.dist.lookup x = some d)) :=
  ⟨by decide, getShortestPathsLen_correct diamondGraph 0 6 50000 9 (by decide) (by decide)
    (by decide) (by decide)⟩

/-! ## Checks that `findHeterozygousBulges` and `findHeterozygousLoops` do not make -/

/-- C24 (fails): on the diamond whose entrance `E` and exit `X` have length 1,000 and
whose branches `A` and `B` have length 5,000, `findHeterozygousBulges` masks the bubble:
it returns 1 and flags both branches, although each branch is longer than the entrance
and the exit. -/
theorem bulges_mask_long_branches :
    (findHeterozygousBulges exampleResolverEnv ⟨shortArmsGraph, []⟩).map
        (fun res => (res.1, [2, 4].map (fun e => (res.2.graph.edge e).altHaplotype)))
        = some (1, [true, true]) ∧
      (shortArmsGraph.edge 0).nodeRight = (shortArmsGraph.edge 2).nodeLeft ∧
      (shortArmsGraph.edge 6).nodeLeft = (shortArmsGraph.edge 2).nodeRight ∧
      (shortArmsGraph.edge 0).length < (shortArmsGraph.edge 2).length ∧
      (shortArmsGraph.edge 6).length < (shortArmsGraph.edge 2).length ∧
      (shortArmsGraph.edge 0).length < (shortArmsGraph.edge 4).length ∧
      (shortArmsGraph.edge 6).length < (shortArmsGraph.edge 4).length := by
  refine ⟨by decide, by decide, by decide, by decide, by decide, by decide, by decide⟩

/-- C25 (fails): on the loop graph with coverage 30 on the loop and the entrance and 10
on the exit, `findHeterozygousLoops` masks the loop: it returns 1 and flags the loop
edge, although the loop coverage 30 is above 1.5 times the smaller of the entrance and
exit coverages, 15. The loop is compared with the entrance coverage only. -/
theorem loops_mask_ignores_exit_coverage :
    (findHeterozygousLoops revCompEnv ⟨loopGraph 30 30 10, []⟩).map
        (fun res => (res.1, (res.2.graph.edge 2).altHaplotype)) = some (1, true) ∧
      ¬ (2 * ((loopGraph 30 30 10).edge 2).meanCoverage ≤
        3 * min ((loopGraph 30 30 10).edge 0).meanCoverage
          ((loopGraph 30 30 10).edge 4).meanCoverage) ∧
      2 * ((loopGraph 30 30 10).edge 2).meanCoverage ≤
        3 * min ((loopGraph 30 30 10).edge 0).meanCoverage
          ((loopGraph 30 30 10).edge 0).meanCoverage := by
  refine ⟨by decide, by decide, by decide⟩

/-! ## The adjacent case of `collapseHaplotypes` -/

theorem separeteAdjacentEdges_node (g : RepeatGraph) (inEdge outEdge : EdgePtr) (n : NodePtr)
    (hadj : (g.edge inEdge).nodeRight = (g.edge outEdge).nodeLeft)
    (hold : (g.edge inEdge).nodeRight ≠ g.numNodes) :
    (separeteAdjacentEdges g inEdge outEdge).node n =
      if n = g.numNodes then ⟨[inEdge], [outEdge]⟩
      else if n = (g.edge inEdge).nodeRight then
        ⟨vecRemove (g.node n).inEdges inEdge, vecRemove (g.node n).outEdges outEdge⟩
      else g.node n := by
  have hold2 : g.numNodes ≠ (g.edge inEdge).nodeRight := fun h => hold h.symm
  have hleft : (g.edge outEdge).nodeLeft ≠ g.numNodes := hadj ▸ hold
  by_cases hio : outEdge = inEdge
  · subst hio
    by_cases h1 : n = g.numNodes
    · subst h1
      simp [separeteAdjacentEdges, RepeatGraph.addNode, RepeatGraph.setNode,
        RepeatGraph.setEdge, Function.update_apply, hold2, ← hadj]
    · by_cases h2 : n = (g.edge outEdge).nodeRight
      · subst h2
        simp [separeteAdjacentEdges, RepeatGraph.addNode, RepeatGraph.setNode,
          RepeatGraph.setEdge, Function.update_apply, hold, hold2, ← hadj]
      · simp [separeteAdjacentEdges, RepeatGraph.addNode, RepeatGraph.setNode,
          RepeatGraph.setEdge, Function.update_apply, h1, h2, hold, hold2, ← hadj]
  · by_cases h1 : n = g.numNodes
    · subst h1
      simp [separeteAdjacentEdges, RepeatGraph.addNode, RepeatGraph.setNode,
        RepeatGraph.setEdge, Function.update_apply, hold2, hio, ← hadj]
    · by_cases h2 : n = (g.edge inEdge).nodeRight
      · subst h2
        simp [separeteAdjacentEdges, RepeatGraph.addNode, RepeatGraph.setNode,
          RepeatGraph.setEdge, Function.update_apply, hold, hold2, hio, ← hadj]
      · simp [separeteAdjacentEdges, RepeatGraph.addNode, RepeatGraph.setNode,
          RepeatGraph.setEdge, Function.update_apply, h1, h2, hold, hold2, hio, ← hadj]

theorem separeteAdjacentEdges_edge (g : RepeatGraph) (inEdge outEdge e : EdgePtr) :
    (separeteAdjacentEdges g inEdge outEdge).edge e =
      { g.edge e with
        nodeRight := if e = inEdge then g.numNodes else (g.edge e).nodeRight
        nodeLeft := if e = outEdge then g.numNodes else (g.edge e).nodeLeft } := by
  by_cases h1 : e = inEdge
  · subst h1
    by_cases h2 : e = outEdge
    · subst h2
      simp [separeteAdjacentEdges, RepeatGraph.addNode, RepeatGraph.setNode,
        RepeatGraph.setEdge, Function.update_apply]
    · have h3 : outEdge ≠ e := fun h => h2 h.symm
      simp [separeteAdjacentEdges, RepeatGraph.addNode, RepeatGraph.setNode,
        RepeatGraph.setEdge, Function.update_apply, h2, h3]
  · by_cases h2 : e = outEdge
    · subst h2
      simp [separeteAdjacentEdges, RepeatGraph.addNode, RepeatGraph.setNode,
        RepeatGraph.setEdge, Function.update_apply, h1]
    · simp [separeteAdjacentEdges, RepeatGraph.addNode, RepeatGraph.setNode,
        RepeatGraph.setEdge, Function.update_apply, h1, h2]
theorem separeteAdjacentEdges_edges (g : RepeatGraph) (inEdge outEdge : EdgePtr) :
    (separeteAdjacentEdges g inEdge outEdge).edges = g.edges ∧
      (separeteAdjacentEdges g inEdge outEdge).numNodes = g.numNodes + 1 := by
  simp [separeteAdjacentEdges, RepeatGraph.addNode, RepeatGraph.setNode, RepeatGraph.setEdge]

theorem mem_vecRemove (v : List EdgePtr) (x y : EdgePtr) :
    y ∈ vecRemove v x ↔ y ∈ v ∧ y ≠ x := by
  simp [vecRemove]

/-- C23: the adjacent case. For an edge `inEdge` of the graph whose right node `N` is the
left node of `outEdge`, in a graph whose edges end at existing nodes,
`separeteAdjacentEdges(inEdge, outEdge)` adds one node `M` with `M.inEdges == [inEdge]`
and `M.outEdges == [outEdge]`, makes `M` the right node of `inEdge` and the left node of
`outEdge`, removes `inEdge` from `N.inEdges` and `outEdge` from `N.outEdges` and nothing
else, leaves the other nodes, the other end nodes of the edges and the edge list as they
were, and preserves the incidence invariant. -/
theorem separeteAdjacentEdges_frame (g : RepeatGraph) (inEdge outEdge : EdgePtr)
    (hin : inEdge ∈ g.edges)
    (hwf : ∀ e ∈ g.edges, (g.edge e).nodeLeft < g.numNodes ∧ (g.edge e).nodeRight < g.numNodes)
    (hadj : (g.edge inEdge).nodeRight = (g.edge outEdge).nodeLeft) :
    (separeteAdjacentEdges g inEdge outEdge).numNodes = g.numNodes + 1 ∧
    ((separeteAdjacentEdges g inEdge outEdge).node g.numNodes).inEdges = [inEdge] ∧
    ((separeteAdjacentEdges g inEdge outEdge).node g.numNodes).outEdges = [outEdge] ∧
    ((separeteAdjacentEdges g inEdge outEdge).edge inEdge).nodeRight = g.numNodes ∧
    ((separeteAdjacentEdges g inEdge outEdge).edge outEdge).nodeLeft = g.numNodes ∧
    inEdge ∉ ((separeteAdjacentEdges g inEdge outEdge).node (g.edge inEdge).nodeRight).inEdges ∧
    outEdge ∉
      ((separeteAdjacentEdges g inEdge outEdge).node (g.edge inEdge).nodeRight).outEdges ∧
    ((separeteAdjacentEdges g inEdge outEdge).node (g.edge inEdge).nodeRight).inEdges =
      vecRemove (g.node (g.edge inEdge).nodeRight).inEdges inEdge ∧
    ((separeteAdjacentEdges g inEdge outEdge).node (g.edge inEdge).nodeRight).outEdges =
      vecRemove (g.node (g.edge inEdge).nodeRight).outEdges outEdge ∧
    (∀ n, n ≠ (g.edge inEdge).nodeRight → n ≠ g.numNodes →
      (separeteAdjacentEdges g inEdge outEdge).node n = g.node n) ∧
    (∀ e, e ≠ inEdge →
      ((separeteAdjacentEdges g inEdge outEdge).edge e).nodeRight = (g.edge e).nodeRight) ∧
    (∀ e, e ≠ outEdge →
      ((separeteAdjacentEdges g inEdge outEdge).edge e).nodeLeft = (g.edge e).nodeLeft) ∧
    (separeteAdjacentEdges g inEdge outEdge).edges = g.edges ∧
    (Incidence g → Incidence (separeteAdjacentEdges g inEdge outEdge)) := by
  have hold : (g.edge inEdge).nodeRight ≠ g.numNodes := Nat.ne_of_lt (hwf inEdge hin).2
  have hnode := fun n => separeteAdjacentEdges_node g inEdge outEdge n hadj hold
  have hedge := separeteAdjacentEdges_edge g inEdge outEdge
  have hM := hnode g.numNodes
  rw [if_pos rfl] at hM
  have hN := hnode (g.edge inEdge).nodeRight
  rw [if_neg hold, if_pos rfl] at hN
  refine ⟨(separeteAdjacentEdges_edges g inEdge outEdge).2, by rw [hM], by rw [hM],
    by rw [hedge]; simp, by rw [hedge]; simp, ?_, ?_, by rw [hN], by rw [hN], ?_, ?_, ?_,
    (separeteAdjacentEdges_edges g inEdge outEdge).1, ?_⟩
  · rw [hN, mem_vecRemove]
    exact fun h => h.2 rfl
  · rw [hN, mem_vecRemove]
    exact fun h => h.2 rfl
  · intro n h1 h2
    rw [hnode n, if_neg h2, if_neg h1]
  · intro e he
    rw [hedge]
    simp [he]
  · intro e he
    rw [hedge]
    simp [he]
  · intro hinc e he
    rw [(separeteAdjacentEdges_edges g inEdge outEdge).1] at he
    obtain ⟨hr, hl⟩ := hinc e he
    obtain ⟨hwl, hwr⟩ := hwf e he
    rw [hedge]
    constructor
    · by_cases h1 : e = inEdge
      · simp only [h1, if_true]
        rw [hM]
        exact List.mem_singleton.mpr rfl
      · simp only [h1, if_false]
        rw [hnode, if_neg (Nat.ne_of_lt hwr)]
        by_cases h2 : (g.edge e).nodeRight = (g.edge inEdge).nodeRight
        · rw [if_pos h2]
          exact (mem_vecRemove _ _ _).mpr ⟨hr, h1⟩
        · rw [if_neg h2]
          exact hr
    · by_cases h1 : e = outEdge
      · simp only [h1, if_true]
        rw [hM]
        exact List.mem_singleton.mpr rfl
      · simp only [h1, if_false]
        rw [hnode, if_neg (Nat.ne_of_lt hwl)]
        by_cases h2 : (g.edge e).nodeLeft = (g.edge inEdge).nodeRight
        · rw [if_pos h2]
          exact (mem_vecRemove _ _ _).mpr ⟨hl, h1⟩
        · rw [if_neg h2]
          exact hl

theorem diamondGraph_incidence : Incidence diamondGraph := by
  unfold Incidence
  decide

/-- Witness for C23 on the diamond, whose edges satisfy the incidence invariant: `E` and
`A` are adjacent at node 1. -/
theorem separeteAdjacentEdges_frame_witness :
    ((separeteAdjacentEdges diamondGraph 0 2).node 8).inEdges = [0] ∧
    ((separeteAdjacentEdges diamondGraph 0 2).node 8).outEdges = [2] ∧
    ((separeteAdjacentEdges diamondGraph 0 2).node 1).outEdges = [4] ∧
    Incidence (separeteAdjacentEdges diamondGraph 0 2) :=
  have h := separeteAdjacentEdges_frame diamondGraph 0 2 (by decide) (by decide) (by decide)
  ⟨h.2.1, h.2.2.1, by decide, h.2.2.2.2.2.2.2.2.2.2.2.2.2 diamondGraph_incidence⟩

/-! ## Scores in `findVariantSegment` -/

theorem addToGroups_scores (trg : GraphAlignment) : ∀ (groups : List PathWithScore),
    ((addToGroups trg groups).map (fun g => g.score)).sum
        = (groups.map (fun g => g.score)).sum + 1 ∧
      ((∀ g ∈ groups, 1 ≤ g.score) → ∀ g ∈ addToGroups trg groups, 1 ≤ g.score) := by
  intro groups
  induction groups with
  | nil =>
    unfold addToGroups
    refine ⟨by simp, ?_⟩
    intro _ g hg
    rw [List.mem_singleton] at hg
    subst hg
    exact le_refl _
  | cons r rest ih =>
    unfold addToGroups
    by_cases hc : isContained trg r.path = true
    · rw [if_pos hc]
      refine ⟨by simp only [List.map_cons, List.sum_cons]; omega, ?_⟩
      intro hall g hg
      rcases List.mem_cons.mp hg with rfl | hg
      · have := hall r (List.mem_cons_self _ _)
        simp only []
        omega
      · exact hall g (List.mem_cons_of_mem _ hg)
    · rw [if_neg hc]
      refine ⟨by simp only [List.map_cons, List.sum_cons]; rw [ih.1]; omega, ?_⟩
      intro hall g hg
      rcases List.mem_cons.mp hg with rfl | hg
      · exact hall g (List.mem_cons_self _ _)
      · exact ih.2 (fun x hx => hall x (List.mem_cons_of_mem _ hx)) g hg

theorem grouping_scores : ∀ (paths : List GraphAlignment) (groups : List PathWithScore),
    (∀ g ∈ groups, 1 ≤ g.score) →
    ((paths.foldl (fun groups trgPath => addToGroups trgPath groups) groups).map
        (fun g => g.score)).sum = (groups.map (fun g => g.score)).sum + paths.length ∧
      ∀ g ∈ paths.foldl (fun groups trgPath => addToGroups trgPath groups) groups,
        1 ≤ g.score := by
  intro paths
  induction paths with
  | nil => intro groups h; exact ⟨by simp, h⟩
  | cons p rest ih =>
    intro groups h
    rw [List.foldl_cons]
    obtain ⟨h1, h2⟩ := ih (addToGroups p groups) ((addToGroups_scores p groups).2 h)
    refine ⟨?_, h2⟩
    rw [h1, (addToGroups_scores p groups).1]
    simp only [List.length_cons, Nat.cast_add, Nat.cast_one]
    omega

theorem alignmentSuffix_isSome (startEdge : EdgePtr) (aln : GraphAlignment) :
    (alignmentSuffix startEdge aln).isSome = aln.any (fun a => a.edge == startEdge) := by
  unfold alignmentSuffix
  induction aln with
  | nil => rfl
  | cons a rest ih =>
    by_cases ha : a.edge = startEdge
    · have hb : (a.edge != startEdge) = false := by simp [ha]
      simp [List.dropWhile_cons, hb, ha]
    · have hb : (a.edge != startEdge) = true := by simpa using ha
      have hb2 : (a.edge == startEdge) = false := by simpa using ha
      rw [List.dropWhile_cons, if_pos hb, List.any_cons, hb2, Bool.false_or]
      exact ih

theorem length_filterMap_isSome {α β : Type} (f : α → Option β) (l : List α) :
    (l.filterMap f).length = (l.filter (fun x => (f x).isSome)).length := by
  induction l with
  | nil => rfl
  | cons x rest ih =>
    cases hx : f x with
    | none => simp [List.filterMap_cons, List.filter_cons, hx, ih]
    | some y => simp [List.filterMap_cons, List.filter_cons, hx, ih]

theorem outPaths_length (startEdge : EdgePtr) (alnignments : List GraphAlignment) :
    (sortOutPaths (alnignments.filterMap (alignmentSuffix startEdge))).length =
      (alnignments.filter (fun aln => aln.any (fun a => a.edge == startEdge))).length := by
  unfold sortOutPaths
  rw [(List.perm_insertionSort _ _).length_eq, length_filterMap_isSome]
  congr 1
  apply List.filter_congr
  intro aln _
  exact alignmentSuffix_isSome startEdge aln

theorem sum_scores_filter_le (p : PathWithScore → Bool) : ∀ (groups : List PathWithScore),
    (∀ g ∈ groups, 1 ≤ g.score) →
    ((groups.filter p).map (fun g => g.score)).sum ≤ (groups.map (fun g => g.score)).sum := by
  intro groups
  induction groups with
  | nil => intro _; simp
  | cons r rest ih =>
    intro h
    have h1 := h r (List.mem_cons_self _ _)
    have h2 := ih (fun x hx => h x (List.mem_cons_of_mem _ hx))
    by_cases hp : p r = true
    · simp only [List.filter_cons, hp, if_true, List.map_cons, List.sum_cons]
      omega
    · simp only [List.filter_cons, hp, if_false, List.map_cons, List.sum_cons,
        Bool.false_eq_true]
      omega

theorem sum_scores_ge (groups : List PathWithScore) (h : ∀ g ∈ groups, 2 ≤ g.score) :
    0 ≤ (groups.map (fun g => g.score)).sum := by
  induction groups with
  | nil => simp
  | cons r rest ih =>
    have h1 := h r (List.mem_cons_self _ _)
    have h2 := ih (fun x hx => h x (List.mem_cons_of_mem _ hx))
    simp only [List.map_cons, List.sum_cons]
    omega

theorem addBranch_scores (startE endE : EdgePtr) (branches out : List PathWithScore)
    (g : PathWithScore) (hg : 2 ≤ g.score) (hb : ∀ b ∈ branches, 2 ≤ b.score)
    (hpair : branches.Pairwise (fun b1 b2 =>
      b1.path.map (fun a => a.edge) ≠ b2.path.map (fun a => a.edge)))
    (h : addBranch startE endE branches g = some out) :
    (∀ b ∈ out, 2 ≤ b.score) ∧
      out.Pairwise (fun b1 b2 =>
        b1.path.map (fun a => a.edge) ≠ b2.path.map (fun a => a.edge)) := by
  unfold addBranch at h
  simp only [] at h
  split at h
  · have hmergedScore : ∀ (np : GraphAlignment),
        ∀ x ∈ branches.map (fun b => if sameEdges np b.path then
            { b with score := b.score + g.score } else b), 2 ≤ x.score := by
      intro np x hx
      obtain ⟨y, hy, hxy⟩ := List.mem_map.mp hx
      have := hb y hy
      by_cases hs : sameEdges np y.path = true
      · rw [if_pos hs] at hxy; subst hxy; simp only []; omega
      · rw [if_neg hs] at hxy; subst hxy; exact this
    have hmergedPair : ∀ (np : GraphAlignment),
        (branches.map (fun b => if sameEdges np b.path then
            { b with score := b.score + g.score } else b)).Pairwise (fun b1 b2 =>
          b1.path.map (fun a => a.edge) ≠ b2.path.map (fun a => a.edge)) := by
      intro np
      rw [List.pairwise_map]
      refine hpair.imp ?_
      intro a b hab
      by_cases h1 : sameEdges np a.path = true <;> by_cases h2 : sameEdges np b.path = true <;>
        simp only [h1, h2, if_true, if_false, Bool.false_eq_true] <;> exact hab
    split at h
    · rename_i hdup
      injection h with h
      subst h
      refine ⟨?_, ?_⟩
      · intro x hx
        rcases List.mem_append.mp hx with hx | hx
        · exact hmergedScore _ x hx
        · rw [List.mem_singleton] at hx; subst hx; exact hg
      · rw [List.pairwise_append]
        refine ⟨hmergedPair _, List.pairwise_singleton _ _, ?_⟩
        intro x hx y hy
        rw [List.mem_singleton] at hy
        subst hy
        obtain ⟨z, hz, hxz⟩ := List.mem_map.mp hx
        have hnd : sameEdges ((g.path.drop (lastIndexOfEdge startE g.path)).take
            (lastIndexOfEdge endE g.path + 1 - lastIndexOfEdge startE g.path)) z.path
            = false := by
          simp only [Bool.not_eq_true', List.any_eq_false] at hdup
          simpa using hdup z hz
        rw [if_neg (by rw [hnd]; simp)] at hxz
        subst hxz
        intro hc
        unfold sameEdges at hnd
        simp only [beq_eq_false_iff_ne, ne_eq] at hnd
        exact hnd hc.symm
    · injection h with h
      subst h
      exact ⟨fun x hx => hmergedScore _ x hx, hmergedPair _⟩
  · exact absurd h (by simp)

theorem foldlM_addBranch_scores (startE endE : EdgePtr) :
    ∀ (groups branches out : List PathWithScore),
    (∀ g ∈ groups, 2 ≤ g.score) → (∀ b ∈ branches, 2 ≤ b.score) →
    branches.Pairwise (fun b1 b2 =>
      b1.path.map (fun a => a.edge) ≠ b2.path.map (fun a => a.edge)) →
    groups.foldlM (addBranch startE endE) branches = some out →
    (∀ b ∈ out, 2 ≤ b.score) ∧
      out.Pairwise (fun b1 b2 =>
        b1.path.map (fun a => a.edge) ≠ b2.path.map (fun a => a.edge)) := by
  intro groups
  induction groups with
  | nil =>
    intro branches out _ hb hp h
    rw [List.foldlM_nil] at h
    injection h with h
    subst h
    exact ⟨hb, hp⟩
  | cons g rest ih =>
    intro branches out hg hb hp h
    rw [List.foldlM_cons] at h
    cases hstep : addBranch startE endE branches g with
    | none => rw [hstep] at h; exact absurd h (by simp)
    | some mid =>
      rw [hstep] at h
      obtain ⟨h1, h2⟩ := addBranch_scores startE endE branches mid g
        (hg g (List.mem_cons_self _ _)) hb hp hstep
      exact ih mid out (fun x hx => hg x (List.mem_cons_of_mem _ hx)) h1 h2 h
theorem bubbleFromConvergence_scores (pathGroups : List PathWithScore)
    (refPath : GraphAlignment) (others : List PathWithScore) (fuel : Nat)
    (conv : List EdgePtr) (vp : VariantPaths) (hg : ∀ g ∈ pathGroups, 2 ≤ g.score)
    (h : bubbleFromConvergence pathGroups refPath others fuel conv = some vp) :
    (∀ b ∈ vp.altPaths, 2 ≤ b.score) ∧
      vp.altPaths.Pairwise (fun b1 b2 =>
        b1.path.map (fun a => a.edge) ≠ b2.path.map (fun a => a.edge)) := by
  have hempty : (∀ b ∈ VariantPaths.empty.altPaths, 2 ≤ b.score) ∧
      VariantPaths.empty.altPaths.Pairwise (fun b1 b2 =>
        b1.path.map (fun a => a.edge) ≠ b2.path.map (fun a => a.edge)) := by
    simp [VariantPaths.empty]
  unfold bubbleFromConvergence at h
  cases hstart : findBubbleStart refPath conv others fuel 0 with
  | none => rw [hstart] at h; exact absurd h (by simp)
  | some s =>
    rw [hstart] at h
    simp only [Option.bind_eq_bind, Option.some_bind] at h
    cases hsa : refPath[s]? with
    | none => rw [hsa] at h; exact absurd h (by simp)
    | some startAln =>
      rw [hsa] at h
      simp only [Option.some_bind] at h
      split at h
      · injection h with h; subst h; exact hempty
      · split at h
        · injection h with h; subst h; exact hempty
        · rename_i offset _
          cases hea : refPath[s + 1 + offset]? with
          | none => rw [hea] at h; exact absurd h (by simp)
          | some endAln =>
            rw [hea] at h
            simp only [Option.some_bind] at h
            cases hfold : pathGroups.foldlM (addBranch startAln.edge endAln.edge) [] with
            | none => rw [hfold] at h; exact absurd h (by simp)
            | some branches =>
              rw [hfold] at h
              simp only [Option.some_bind] at h
              split at h
              · injection h with h; subst h; exact hempty
              · injection h with h
                subst h
                exact foldlM_addBranch_scores startAln.edge endAln.edge pathGroups []
                  branches hg (by simp) List.Pairwise.nil hfold

/-- C27: the scores in `findVariantSegment`. The scores of the groups formed from the
suffixes sum to the number of alignments that contain `startEdge`; when fewer than 4
alignments contain `startEdge` the result is the empty `VariantPaths`; and in every
result each branch has score at least 2 and no two branches have the same edges. -/
theorem findVariantSegment_scores (startEdge : EdgePtr) (alnignments : List GraphAlignment)
    (loopedEdges : List EdgePtr) :
    (((sortOutPaths (alnignments.filterMap (alignmentSuffix startEdge))).foldl
        (fun groups trgPath => addToGroups trgPath groups) []).map (fun g => g.score)).sum
      = ((alnignments.filter (fun aln => aln.any (fun a => a.edge == startEdge))).length : Int) ∧
    ((alnignments.filter (fun aln => aln.any (fun a => a.edge == startEdge))).length < 4 →
      findVariantSegment startEdge alnignments loopedEdges = some VariantPaths.empty) ∧
    (∀ vp, findVariantSegment startEdge alnignments loopedEdges = some vp →
      (∀ b ∈ vp.altPaths, 2 ≤ b.score) ∧
        vp.altPaths.Pairwise (fun b1 b2 =>
          b1.path.map (fun a => a.edge) ≠ b2.path.map (fun a => a.edge))) := by
  obtain ⟨hsum, hpos⟩ := grouping_scores
    (sortOutPaths (alnignments.filterMap (alignmentSuffix startEdge))) [] (by simp)
  rw [outPaths_length] at hsum
  simp only [List.map_nil, List.sum_nil, zero_add] at hsum
  have hfilt : ∀ g ∈ ((sortOutPaths (alnignments.filterMap (alignmentSuffix startEdge))).foldl
      (fun groups trgPath => addToGroups trgPath groups) []).filter
        (fun p => !(decide (p.score < 2))), 2 ≤ g.score := by
    intro g hg
    have := (List.mem_filter.mp hg).2
    simp only [Bool.not_eq_true', decide_eq_false_iff_not, not_lt] at this
    exact this
  refine ⟨hsum, ?_, ?_⟩
  · intro hfew
    unfold findVariantSegment
    simp only []
    split
    · rfl
    · have hle := sum_scores_filter_le (fun p => !(decide (p.score < 2))) _ hpos
      rw [hsum] at hle
      generalize ((sortOutPaths (alnignments.filterMap (alignmentSuffix startEdge))).foldl
        (fun groups trgPath => addToGroups trgPath groups) []).filter
          (fun p => !(decide (p.score < 2))) = pathGroups at hfilt hle ⊢
      match pathGroups, hfilt, hle with
      | [], _, _ => rfl
      | [_], _, _ => rfl
      | a :: b :: rest, hfilt, hle =>
        have ha := hfilt a (List.mem_cons_self _ _)
        have hb := hfilt b (List.mem_cons_of_mem _ (List.mem_cons_self _ _))
        have hr := sum_scores_ge rest (fun x hx =>
          hfilt x (List.mem_cons_of_mem _ (List.mem_cons_of_mem _ hx)))
        simp only [List.map_cons, List.sum_cons] at hle
        omega
  · intro vp h
    unfold findVariantSegment at h
    simp only [] at h
    split at h
    · injection h with h
      subst h
      simp [VariantPaths.empty]
    · unfold variantFromGroups at h
      split at h
      · injection h with h; subst h; simp [VariantPaths.empty]
      · injection h with h; subst h; simp [VariantPaths.empty]
      · rename_i refGroup g1 rest heq
        simp only [] at h
        exact bubbleFromConvergence_scores _ _ _ _ _ vp hfilt h

/-- Witness for C27: of the reads over the diamond, four contain `E` and the scores of the
two groups sum to 4; with three of them only, the result is empty. -/
theorem findVariantSegment_scores_witness :
    (diamondAlignments.filter (fun aln => aln.any (fun a => a.edge == 0))).length = 4 ∧
    (findVariantSegment 0 diamondAlignments []).map
        (fun vp => vp.altPaths.map (fun b => b.score)) = some [2, 2] ∧
    findVariantSegment 0 (diamondAlignments.take 3) [] = some VariantPaths.empty :=
  ⟨by decide, by decide,
    (findVariantSegment_scores 0 (diamondAlignments.take 3) []).2.1 (by decide)⟩

/-! ## The result of `isRightSuperbubble` -/

theorem goodBubble_spec (g : RepeatGraph) (maxBubbleLen : Int)
    (fromSource fromSink : DijkstraResult)
    (h : goodBubble g maxBubbleLen fromSource fromSink = true) :
    ∀ x d, (x, d) ∈ fromSource.dist →
      ∃ d2, fromSink.dist.lookup (g.complementEdge x) = some d2 ∧
        d + d2 - (g.edge (g.complementEdge x)).length ≤ maxBubbleLen := by
  intro x d hmem
  unfold goodBubble at h
  rw [List.all_eq_true] at h
  have hx := h (x, d) hmem
  simp only [] at hx
  cases hl : fromSink.dist.lookup (g.complementEdge x) with
  | none => rw [hl] at hx; exact absurd hx (by simp)
  | some d2 =>
    rw [hl] at hx
    simp only [Bool.not_eq_true', decide_eq_false_iff_not, not_lt] at hx
    exact ⟨d2, rfl, by omega⟩

theorem superbubbleScan_sound (g : RepeatGraph) (fuel : Nat) (startEdge : EdgePtr)
    (maxBubbleLen : Int) (refPath : List EdgePtr) (sb : Superbubble) (e : EdgePtr) :
    ∀ (cands : List EdgePtr),
    superbubbleScan g fuel startEdge maxBubbleLen refPath cands = some sb →
    sb.bubbleEnd = some e →
    e ∈ cands ∧ e ≠ startEdge ∧ sb.start = some startEdge ∧ sb.refPath = refPath ∧
    ∃ dSrc dSnk,
      getShortestPathsLen g fuel startEdge e maxBubbleLen = some dSrc ∧
      getShortestPathsLen g fuel (g.complementEdge e) (g.complementEdge startEdge)
        maxBubbleLen = some dSnk ∧
      dSrc.failure = false ∧ dSnk.failure = false ∧
      goodBubble g maxBubbleLen dSrc dSnk = true ∧
      sb.internalEdges = (dSrc.dist.map (fun p => p.1)).filter
        (fun x => x != startEdge && x != e) := by
  intro cands
  induction cands with
  | nil =>
    intro h he
    unfold superbubbleScan at h
    injection h with h
    subst h
    exact absurd he (by simp [Superbubble.empty])
  | cons c rest ih =>
    intro h he
    have hrec : superbubbleScan g fuel startEdge maxBubbleLen refPath rest = some sb →
        e ∈ c :: rest ∧ e ≠ startEdge ∧ sb.start = some startEdge ∧ sb.refPath = refPath ∧
        ∃ dSrc dSnk,
          getShortestPathsLen g fuel startEdge e maxBubbleLen = some dSrc ∧
          getShortestPathsLen g fuel (g.complementEdge e) (g.complementEdge startEdge)
            maxBubbleLen = some dSnk ∧
          dSrc.failure = false ∧ dSnk.failure = false ∧
          goodBubble g maxBubbleLen dSrc dSnk = true ∧
          sb.internalEdges = (dSrc.dist.map (fun p => p.1)).filter
            (fun x => x != startEdge && x != e) := by
      intro h2
      obtain ⟨h3, h4⟩ := ih h2 he
      exact ⟨List.mem_cons_of_mem _ h3, h4⟩
    unfold superbubbleScan at h
    by_cases hc : c = startEdge
    · rw [if_pos hc] at h
      exact hrec h
    · rw [if_neg hc] at h
      cases hsrc : getShortestPathsLen g fuel startEdge c maxBubbleLen with
      | none => rw [hsrc] at h; exact absurd h (by simp)
      | some dSrc =>
        cases hsnk : getShortestPathsLen g fuel (g.complementEdge c)
            (g.complementEdge startEdge) maxBubbleLen with
        | none => rw [hsrc, hsnk] at h; exact absurd h (by simp)
        | some dSnk =>
          rw [hsrc, hsnk] at h
          simp only [Option.bind_eq_bind, Option.some_bind] at h
          by_cases hfail : (dSrc.failure || dSnk.failure) = true
          · rw [if_pos hfail] at h
            exact hrec h
          · rw [if_neg hfail] at h
            by_cases hgood : goodBubble g maxBubbleLen dSrc dSnk = true
            · rw [if_pos hgood] at h
              injection h with h
              subst h
              simp only [Option.some.injEq] at he
              subst he
              simp only [Bool.or_eq_true, not_or, Bool.not_eq_true] at hfail
              exact ⟨List.mem_cons_self _ _, hc, rfl, rfl, dSrc, dSnk, hsrc, hsnk,
                hfail.1, hfail.2, hgood, rfl⟩
            · rw [if_neg hgood] at h
              exact hrec h

/-- C22: a result of `isRightSuperbubble` with a non-null end. The end lies on the
reference path returned by `anyPath` and differs from the start; both Dijkstra runs
returned without failure; every edge `x` of the source-side distance map has its
complement in the sink-side map with
`dSrc(x) + dSnk(complement(x)) - length(complement(x)) <= maxBubbleLen`; and
`internalEdges` holds the keys of the source-side map other than the start and the end,
so neither of them. -/
theorem isRightSuperbubble_sound (g : RepeatGraph) (fuel : Nat) (startEdge : EdgePtr)
    (maxBubbleLen : Int) (sb : Superbubble) (e : EdgePtr)
    (h : isRightSuperbubble g fuel startEdge maxBubbleLen = some sb)
    (he : sb.bubbleEnd = some e) :
    ∃ refPath dSrc dSnk,
      anyPath g fuel startEdge maxBubbleLen = some refPath ∧ sb.refPath = refPath ∧
      sb.start = some startEdge ∧ e ∈ refPath ∧ e ≠ startEdge ∧
      getShortestPathsLen g fuel startEdge e maxBubbleLen = some dSrc ∧
      getShortestPathsLen g fuel (g.complementEdge e) (g.complementEdge startEdge)
        maxBubbleLen = some dSnk ∧
      dSrc.failure = false ∧ dSnk.failure = false ∧
      (∀ x d, (x, d) ∈ dSrc.dist →
        ∃ d2, dSnk.dist.lookup (g.complementEdge x) = some d2 ∧
          d + d2 - (g.edge (g.complementEdge x)).length ≤ maxBubbleLen) ∧
      (∀ x, x ∈ sb.internalEdges ↔
        (x ∈ dSrc.dist.map (fun p => p.1) ∧ x ≠ startEdge ∧ x ≠ e)) ∧
      startEdge ∉ sb.internalEdges ∧ e ∉ sb.internalEdges := by
  unfold isRightSuperbubble at h
  cases hany : anyPath g fuel startEdge maxBubbleLen with
  | none => rw [hany] at h; exact absurd h (by simp)
  | some refPath =>
    rw [hany] at h
    simp only [Option.bind_eq_bind, Option.some_bind] at h
    split at h
    · injection h with h
      subst h
      exact absurd he (by simp [Superbubble.empty])
    · obtain ⟨hmem, hne, hstart, href, dSrc, dSnk, hsrc, hsnk, hf1, hf2, hgood, hint⟩ :=
        superbubbleScan_sound g fuel startEdge maxBubbleLen refPath sb e refPath h he
      have hiff : ∀ x, x ∈ sb.internalEdges ↔
          (x ∈ dSrc.dist.map (fun p => p.1) ∧ x ≠ startEdge ∧ x ≠ e) := by
        intro x
        rw [hint, List.mem_filter]
        simp only [Bool.and_eq_true, bne_iff_ne, ne_eq]
      exact ⟨refPath, dSrc, dSnk, rfl, href, hstart, hmem, hne, hsrc, hsnk, hf1, hf2,
        goodBubble_spec g maxBubbleLen dSrc dSnk hgood, hiff,
        fun hc => ((hiff startEdge).mp hc).2.1 rfl, fun hc => ((hiff e).mp hc).2.2 rfl⟩

theorem s5_superbubble :
    isRightSuperbubble s5Graph 20 0 50000 = some ⟨some 0, some 8, [6, 4, 2], [0, 6, 8]⟩ := by
  decide

/-- Witness for C22, scenario S5: from `s` the superbubble ends in `e` with the three
branches as internal edges, and `findSuperbubbles` returns 1 and flags the three
branches and their complements. -/
theorem isRightSuperbubble_sound_witness :
    (findSuperbubbles exampleResolverEnv 20 ⟨s5Graph, []⟩).map
        (fun res => (res.1, res.2.graph.edges.filter
          (fun x => (res.2.graph.edge x).altHaplotype))) = some (1, [2, 3, 4, 5, 6, 7]) ∧
    ∃ refPath dSrc dSnk,
      anyPath s5Graph 20 0 50000 = some refPath ∧
      (⟨some 0, some 8, [6, 4, 2], [0, 6, 8]⟩ : Superbubble).refPath = refPath ∧
      (⟨some 0, some 8, [6, 4, 2], [0, 6, 8]⟩ : Superbubble).start = some 0 ∧
      8 ∈ refPath ∧ (8 : EdgePtr) ≠ 0 ∧
      getShortestPathsLen s5Graph 20 0 8 50000 = some dSrc ∧
      getShortestPathsLen s5Graph 20 (s5Graph.complementEdge 8) (s5Graph.complementEdge 0)
        50000 = some dSnk ∧
      dSrc.failure = false ∧ dSnk.failure = false ∧
      (∀ x d, (x, d) ∈ dSrc.dist →
        ∃ d2, dSnk.dist.lookup (s5Graph.complementEdge x) = some d2 ∧
          d + d2 - (s5Graph.edge (s5Graph.complementEdge x)).length ≤ 50000) ∧
      (∀ x, x ∈ (⟨some 0, some 8, [6, 4, 2], [0, 6, 8]⟩ : Superbubble).internalEdges ↔
        (x ∈ dSrc.dist.map (fun p => p.1) ∧ x ≠ 0 ∧ x ≠ 8)) ∧
      0 ∉ (⟨some 0, some 8, [6, 4, 2], [0, 6, 8]⟩ : Superbubble).internalEdges ∧
      8 ∉ (⟨some 0, some 8, [6, 4, 2], [0, 6, 8]⟩ : Superbubble).internalEdges :=
  ⟨by decide,
    isRightSuperbubble_sound s5Graph 20 0 50000 ⟨some 0, some 8, [6, 4, 2], [0, 6, 8]⟩ 8
      s5_superbubble rfl⟩

/-! ## Termination and result of `anyPath` -/

theorem pathOk_length (g : RepeatGraph) (startEdge : EdgePtr) (path : List EdgePtr)
    (h : PathOk g startEdge path) : path.length ≤ g.edges.dedup.length := by
  apply List.Subperm.length_le
  apply List.subperm_of_subset h.2.2.1
  intro e he
  exact List.mem_dedup.mpr (h.2.2.2 e he)

theorem pathOk_extend (g : RepeatGraph) (startEdge : EdgePtr) (path : List EdgePtr)
    (back nextEdge : EdgePtr) (h : PathOk g startEdge path)
    (hback : path.getLast? = some back)
    (hout : nextEdge ∈ (g.node (g.edge back).nodeRight).outEdges)
    (hnew : nextEdge ∉ path) (hedge : nextEdge ∈ g.edges) :
    PathOk g startEdge (path ++ [nextEdge]) := by
  obtain ⟨h1, h2, h3, h4⟩ := h
  have hne : path ≠ [] := by
    intro hc
    rw [hc] at h1
    exact absurd h1 (by simp)
  refine ⟨by rw [List.head?_append_of_ne_nil _ hne]; exact h1, ?_, ?_, ?_⟩
  · rw [List.chain'_append]
    refine ⟨h2, List.chain'_singleton _, ?_⟩
    intro x hx y hy
    rw [hback] at hx
    simp only [Option.mem_def, Option.some.injEq, List.head?_cons] at hx hy
    subst hx hy
    exact hout
  · rw [List.nodup_append]
    refine ⟨h3, List.nodup_singleton _, ?_⟩
    intro x hx hx2
    rw [List.mem_singleton] at hx2
    subst hx2
    exact hnew hx
  · intro e he
    rcases List.mem_append.mp he with he | he
    · exact h4 e he
    · rw [List.mem_singleton] at he
      subst he
      exact hedge

theorem anyPathExpand_ok (g : RepeatGraph) (startEdge : EdgePtr) (maxDepth : Int)
    (curPath : PathWithLen) (back : EdgePtr)
    (hclosed : ∀ e ∈ g.edges, ∀ n ∈ (g.node (g.edge e).nodeRight).outEdges, n ∈ g.edges)
    (hcur : PathOk g startEdge curPath.path) (hback : curPath.path.getLast? = some back) :
    ∀ (outs : List EdgePtr) (st : List PathWithLen × Bool),
    (∀ n ∈ outs, n ∈ (g.node (g.edge back).nodeRight).outEdges) →
    (∀ q ∈ st.1, PathOk g startEdge q.path) → (st.2 = false → st.1 ≠ []) →
    (∀ q ∈ (anyPathExpand g maxDepth curPath outs st).1, PathOk g startEdge q.path) ∧
      ((anyPathExpand g maxDepth curPath outs st).2 = false →
        (anyPathExpand g maxDepth curPath outs st).1 ≠ []) ∧
      stackWork g (anyPathExpand g maxDepth curPath outs st).1 ≤ stackWork g st.1 +
        (if curPath.path.length < g.edges.dedup.length then
          outs.length * anyPathWork ((g.edges.map (outDegree g)).sum)
            (g.edges.dedup.length - curPath.path.length - 1)
        else 0) := by
  have hbackE : back ∈ g.edges := hcur.2.2.2 back (List.mem_of_mem_getLast? hback)
  intro outs
  induction outs with
  | nil =>
    intro st _ hq hflag
    unfold anyPathExpand
    refine ⟨hq, hflag, ?_⟩
    split <;> simp
  | cons n rest ih =>
    intro st houts hq hflag
    have hrest : ∀ m ∈ rest, m ∈ (g.node (g.edge back).nodeRight).outEdges :=
      fun m hm => houts m (List.mem_cons_of_mem _ hm)
    have hskip : (∀ q ∈ (anyPathExpand g maxDepth curPath rest st).1,
          PathOk g startEdge q.path) ∧
        ((anyPathExpand g maxDepth curPath rest st).2 = false →
          (anyPathExpand g maxDepth curPath rest st).1 ≠ []) ∧
        stackWork g (anyPathExpand g maxDepth curPath rest st).1 ≤ stackWork g st.1 +
          (if curPath.path.length < g.edges.dedup.length then
            (n :: rest).length * anyPathWork ((g.edges.map (outDegree g)).sum)
              (g.edges.dedup.length - curPath.path.length - 1)
          else 0) := by
      obtain ⟨h1, h2, h3⟩ := ih st hrest hq hflag
      refine ⟨h1, h2, ?_⟩
      split at h3
      · rename_i hlt
        rw [if_pos hlt, List.length_cons, Nat.succ_mul]
        omega
      · rename_i hlt
        rw [if_neg hlt]
        exact h3
    unfold anyPathExpand
    by_cases hc : curPath.path.contains n = true
    · rw [if_pos hc]
      exact hskip
    · rw [if_neg hc]
      by_cases hl : ((g.edge n).isLooped && decide ((g.edge n).length < maxDepth)) = true
      · rw [if_pos hl]
        exact hskip
      · rw [if_neg hl]
        have hnew : n ∉ curPath.path := by simpa using hc
        have hout := houts n (List.mem_cons_self _ _)
        have hchild : PathOk g startEdge (curPath.path ++ [n]) :=
          pathOk_extend g startEdge curPath.path back n hcur hback hout hnew
            (hclosed back hbackE n hout)
        have hlen := pathOk_length g startEdge _ hchild
        rw [List.length_append, List.length_singleton] at hlen
        obtain ⟨h1, h2, h3⟩ := ih
          (⟨curPath.path ++ [n], curPath.length + (g.edge n).length⟩ :: st.1, false) hrest
          (by
            intro q hq2
            rcases List.mem_cons.mp hq2 with rfl | hq2
            · exact hchild
            · exact hq q hq2)
          (fun _ => List.cons_ne_nil _ _)
        refine ⟨h1, h2, ?_⟩
        have hlt : curPath.path.length < g.edges.dedup.length := by omega
        rw [if_pos hlt] at h3 ⊢
        have hw : stackWork g
            (⟨curPath.path ++ [n], curPath.length + (g.edge n).length⟩ :: st.1)
            = anyPathWork ((g.edges.map (outDegree g)).sum)
                (g.edges.dedup.length - curPath.path.length - 1) + stackWork g st.1 := by
          unfold stackWork
          simp only [List.map_cons, List.sum_cons, List.length_append, List.length_singleton]
          rfl
        rw [hw] at h3
        rw [List.length_cons, Nat.succ_mul]
        omega
theorem anyPathWork_pos (d m : Nat) : 1 ≤ anyPathWork d m := by
  cases m with
  | zero => exact le_refl _
  | succ m => unfold anyPathWork; omega

theorem outDegree_le_sum (g : RepeatGraph) : ∀ (es : List EdgePtr) (e : EdgePtr), e ∈ es →
    outDegree g e ≤ (es.map (outDegree g)).sum := by
  intro es
  induction es with
  | nil => intro e he; exact absurd he (List.not_mem_nil _)
  | cons x rest ih =>
    intro e he
    rw [List.map_cons, List.sum_cons]
    rcases List.mem_cons.mp he with rfl | he
    · omega
    · have := ih e he
      omega

theorem foldl_longest_mem : ∀ (rest : List PathWithLen) (first : PathWithLen),
    rest.foldl (fun best cand => if cand.length > best.length then cand else best) first
      ∈ first :: rest := by
  intro rest
  induction rest with
  | nil => intro first; exact List.mem_cons_self _ _
  | cons c rest ih =>
    intro first
    rw [List.foldl_cons]
    by_cases hc : c.length > first.length
    · rw [if_pos hc]
      exact List.mem_cons_of_mem _ (ih c)
    · rw [if_neg hc]
      rcases List.mem_cons.mp (ih first) with h | h
      · rw [h]; exact List.mem_cons_self _ _
      · exact List.mem_cons_of_mem _ (List.mem_cons_of_mem _ h)

theorem anyPathLoop_spec (g : RepeatGraph) (startEdge : EdgePtr) (maxDepth : Int)
    (hclosed : ∀ e ∈ g.edges, ∀ n ∈ (g.node (g.edge e).nodeRight).outEdges, n ∈ g.edges) :
    ∀ (fuel : Nat) (queue deadEnds : List PathWithLen),
    (∀ q ∈ queue, PathOk g startEdge q.path) →
    (∀ q ∈ deadEnds, PathOk g startEdge q.path) →
    (queue ≠ [] ∨ deadEnds ≠ []) →
    (∀ p, anyPathLoop g maxDepth fuel queue deadEnds = some p → PathOk g startEdge p) ∧
      (stackWork g queue ≤ fuel → ∃ p, anyPathLoop g maxDepth fuel queue deadEnds = some p) := by
  have hempty : ∀ (fuel : Nat) (deadEnds : List PathWithLen),
      (∀ q ∈ deadEnds, PathOk g startEdge q.path) → deadEnds ≠ [] →
      (∀ p, anyPathLoop g maxDepth fuel [] deadEnds = some p → PathOk g startEdge p) ∧
        (stackWork g [] ≤ fuel → ∃ p, anyPathLoop g maxDepth fuel [] deadEnds = some p) := by
    intro fuel deadEnds hd hne
    cases deadEnds with
    | nil => exact absurd rfl hne
    | cons first rest =>
      rw [anyPathLoop]
      unfold longestDeadEnd
      simp only []
      refine ⟨?_, fun _ => ⟨_, rfl⟩⟩
      intro p hp
      injection hp with hp
      subst hp
      exact hd _ (foldl_longest_mem rest first)
  intro fuel
  induction fuel with
  | zero =>
    intro queue deadEnds hq hd hne
    cases queue with
    | nil =>
      exact hempty 0 deadEnds hd (by
        rcases hne with h | h
        · exact absurd rfl h
        · exact h)
    | cons cur queue =>
      rw [anyPathLoop]
      refine ⟨fun p hp => absurd hp (by simp), ?_⟩
      intro hw
      have := anyPathWork_pos ((g.edges.map (outDegree g)).sum)
        (g.edges.dedup.length - cur.path.length)
      unfold stackWork at hw
      simp only [List.map_cons, List.sum_cons] at hw
      omega
  | succ fuel ih =>
    intro queue deadEnds hq hd hne
    cases queue with
    | nil =>
      exact hempty (fuel + 1) deadEnds hd (by
        rcases hne with h | h
        · exact absurd rfl h
        · exact h)
    | cons cur queue =>
      have hcur := hq cur (List.mem_cons_self _ _)
      have hqueue : ∀ q ∈ queue, PathOk g startEdge q.path :=
        fun q hq2 => hq q (List.mem_cons_of_mem _ hq2)
      rw [anyPathLoop]
      by_cases hlong : cur.length > maxDepth
      · rw [if_pos hlong]
        refine ⟨?_, fun _ => ⟨_, rfl⟩⟩
        intro p hp
        injection hp with hp
        subst hp
        exact hcur
      · rw [if_neg hlong]
        have hne2 : cur.path ≠ [] := by
          intro hc
          have := hcur.1
          rw [hc] at this
          exact absurd this (by simp)
        obtain ⟨back, hback⟩ := Option.isSome_iff_exists.mp (List.getLast?_isSome.mpr hne2)
        rw [hback]
        simp only []
        obtain ⟨h1, h2, h3⟩ := anyPathExpand_ok g startEdge maxDepth cur back hclosed hcur
          hback (g.node (g.edge back).nodeRight).outEdges (queue, true) (fun n hn => hn)
          hqueue (fun h => absurd h (by simp))
        have hbackE : back ∈ g.edges := hcur.2.2.2 back (List.mem_of_mem_getLast? hback)
        have hdeg := outDegree_le_sum g g.edges back hbackE
        unfold outDegree at hdeg
        have hwork : stackWork g (cur :: queue) ≤ fuel + 1 →
            stackWork g (anyPathExpand g maxDepth cur
              (g.node (g.edge back).nodeRight).outEdges (queue, true)).1 ≤ fuel := by
          intro hw
          have hcons : stackWork g (cur :: queue)
              = anyPathWork ((g.edges.map (outDegree g)).sum)
                  (g.edges.dedup.length - cur.path.length) + stackWork g queue := by
            unfold stackWork
            simp only [List.map_cons, List.sum_cons]
          rw [hcons] at hw
          by_cases hlt : cur.path.length < g.edges.dedup.length
          · rw [if_pos hlt] at h3
            have hm : g.edges.dedup.length - cur.path.length
                = (g.edges.dedup.length - cur.path.length - 1) + 1 := by omega
            rw [hm, anyPathWork] at hw
            have hmul := Nat.mul_le_mul_right
              (anyPathWork ((g.edges.map (outDegree g)).sum)
                (g.edges.dedup.length - cur.path.length - 1)) hdeg
            unfold outDegree at hmul hw
            unfold outDegree at h3
            simp only [] at h3
            omega
          · rw [if_neg hlt] at h3
            have := anyPathWork_pos ((g.edges.map (outDegree g)).sum)
              (g.edges.dedup.length - cur.path.length)
            simp only [] at h3
            omega
        by_cases hdead : (anyPathExpand g maxDepth cur
            (g.node (g.edge back).nodeRight).outEdges (queue, true)).2 = true
        · rw [if_pos hdead]
          obtain ⟨ih1, ih2⟩ := ih _ (deadEnds ++ [cur]) h1
            (by
              intro q hq2
              rcases List.mem_append.mp hq2 with hq2 | hq2
              · exact hd q hq2
              · rw [List.mem_singleton] at hq2
                subst hq2
                exact hcur)
            (Or.inr (by simp))
          exact ⟨ih1, fun hw => ih2 (hwork hw)⟩
        · rw [if_neg hdead]
          obtain ⟨ih1, ih2⟩ := ih _ deadEnds h1 hd (Or.inl (h2 (by simpa using hdead)))
          exact ⟨ih1, fun hw => ih2 (hwork hw)⟩
theorem anyPath_spec (g : RepeatGraph) (startEdge : EdgePtr) (maxDepth : Int)
    (hstart : startEdge ∈ g.edges)
    (hclosed : ∀ e ∈ g.edges, ∀ n ∈ (g.node (g.edge e).nodeRight).outEdges, n ∈ g.edges)
    (fuel : Nat) :
    (∀ p, anyPath g fuel startEdge maxDepth = some p → PathOk g startEdge p) ∧
      (anyPathFuel g ≤ fuel → ∃ p, anyPath g fuel startEdge maxDepth = some p) := by
  have hinit : ∀ q ∈ [(⟨[startEdge], 0⟩ : PathWithLen)], PathOk g startEdge q.path := by
    intro q hq
    rw [List.mem_singleton] at hq
    subst hq
    refine ⟨rfl, List.chain'_singleton _, List.nodup_singleton _, ?_⟩
    intro e he
    rw [List.mem_singleton] at he
    subst he
    exact hstart
  obtain ⟨h1, h2⟩ := anyPathLoop_spec g startEdge maxDepth hclosed fuel
    [⟨[startEdge], 0⟩] [] hinit (by simp) (Or.inl (by simp))
  refine ⟨h1, ?_⟩
  intro hfuel
  apply h2
  unfold anyPathFuel at hfuel
  unfold stackWork
  simpa using hfuel

/-- C26: on a graph whose edge list holds `startEdge` and the out-edges of its edges,
`anyPath` ends within `anyPathFuel g` iterations, and every path it returns is not empty,
starts with `startEdge`, continues each edge with an out-edge of its right node and holds
no edge twice. So `isRightSuperbubble` never takes the branch for an empty reference path,
and the end of a superbubble it returns occurs in the reference path at an index from 1
on, which makes the range of the bridge path well formed. -/
theorem anyPath_terminates_simple (g : RepeatGraph) (startEdge : EdgePtr) (maxDepth : Int)
    (hstart : startEdge ∈ g.edges)
    (hclosed : ∀ e ∈ g.edges, ∀ n ∈ (g.node (g.edge e).nodeRight).outEdges, n ∈ g.edges) :
    (∀ fuel, anyPathFuel g ≤ fuel → ∃ p, anyPath g fuel startEdge maxDepth = some p) ∧
    (∀ fuel p, anyPath g fuel startEdge maxDepth = some p →
      p ≠ [] ∧ p.head? = some startEdge ∧
      p.Chain' (fun a b => b ∈ (g.node (g.edge a).nodeRight).outEdges) ∧ p.Nodup ∧
      isRightSuperbubble g fuel startEdge maxDepth
        = superbubbleScan g fuel startEdge maxDepth p p) ∧
    (∀ fuel sb e, isRightSuperbubble g fuel startEdge maxDepth = some sb →
      sb.bubbleEnd = some e →
      1 ≤ sb.refPath.indexOf e ∧ sb.refPath.indexOf e < sb.refPath.length) := by
  have hgood : ∀ fuel p, anyPath g fuel startEdge maxDepth = some p →
      p ≠ [] ∧ p.head? = some startEdge ∧
      p.Chain' (fun a b => b ∈ (g.node (g.edge a).nodeRight).outEdges) ∧ p.Nodup := by
    intro fuel p hp
    obtain ⟨h1, h2, h3, _⟩ := (anyPath_spec g startEdge maxDepth hstart hclosed fuel).1 p hp
    refine ⟨?_, h1, h2, h3⟩
    intro hc
    rw [hc] at h1
    exact absurd h1 (by simp)
  refine ⟨fun fuel => (anyPath_spec g startEdge maxDepth hstart hclosed fuel).2, ?_, ?_⟩
  · intro fuel p hp
    obtain ⟨h0, h1, h2, h3⟩ := hgood fuel p hp
    refine ⟨h0, h1, h2, h3, ?_⟩
    unfold isRightSuperbubble
    rw [hp]
    simp only [Option.bind_eq_bind, Option.some_bind]
    rw [if_neg (by simpa using h0)]
  · intro fuel sb e h he
    unfold isRightSuperbubble at h
    cases hany : anyPath g fuel startEdge maxDepth with
    | none => rw [hany] at h; exact absurd h (by simp)
    | some refPath =>
      rw [hany] at h
      simp only [Option.bind_eq_bind, Option.some_bind] at h
      obtain ⟨h0, h1, _, _⟩ := hgood fuel refPath hany
      rw [if_neg (by simpa using h0)] at h
      obtain ⟨hmem, hne, _, href, _⟩ :=
        superbubbleScan_sound g fuel startEdge maxDepth refPath sb e refPath h he
      rw [href]
      refine ⟨?_, List.indexOf_lt_length.mpr hmem⟩
      cases refPath with
      | nil => exact absurd rfl h0
      | cons first rest =>
        simp only [List.head?_cons, Option.some.injEq] at h1
        subst h1
        rw [List.indexOf_cons_ne _ (fun hc => hne hc.symm)]
        omega

/-- Witness for C26 on the graph of scenario S5: from `s` the reference path is `s`, a
branch, `e`, and the end `e` of the superbubble is at index 2. -/
theorem anyPath_terminates_simple_witness :
    anyPath s5Graph 20 0 50000 = some [0, 6, 8] ∧
    (∃ p, anyPath s5Graph (anyPathFuel s5Graph) 0 50000 = some p) ∧
    1 ≤ ([0, 6, 8] : List EdgePtr).indexOf 8 ∧
    ([0, 6, 8] : List EdgePtr).indexOf 8 < ([0, 6, 8] : List EdgePtr).length :=
  have h := anyPath_terminates_simple s5Graph 0 50000 (by decide) (by decide)
  ⟨by decide, h.1 (anyPathFuel s5Graph) (le_refl _),
    h.2.2 20 ⟨some 0, some 8, [6, 4, 2], [0, 6, 8]⟩ 8 s5_superbubble rfl⟩

/-! ## The length counted by `anyPath` -/

theorem accumulatedLength_concat (g : RepeatGraph) (path : List EdgePtr) (n : EdgePtr)
    (hne : path ≠ []) :
    accumulatedLength g (path ++ [n]) = accumulatedLength g path + (g.edge n).length ∧
      innerLength g (path ++ [n]) = accumulatedLength g path := by
  cases path with
  | nil => exact absurd rfl hne
  | cons a t =>
    unfold accumulatedLength innerLength
    simp only [List.cons_append, List.drop_succ_cons, List.drop_zero, List.map_append,
      List.map_cons, List.map_nil, List.sum_append, List.sum_cons, List.sum_nil,
      List.dropLast_concat, add_zero, and_self]

theorem explored_ne_nil (g : RepeatGraph) (maxDepth : Int) (startEdge : EdgePtr)
    (path : List EdgePtr) (h : Explored g maxDepth startEdge path) : path ≠ [] := by
  cases h with
  | start => exact List.cons_ne_nil _ _
  | step n _ _ _ _ _ _ => simp

theorem explored_child (g : RepeatGraph) (maxDepth : Int) (startEdge : EdgePtr)
    (c : List EdgePtr) (hc : c ≠ []) :
    ∀ (q : List EdgePtr), Explored g maxDepth startEdge q → c <+: q → c ≠ q →
    ∃ n back, c.getLast? = some back ∧ n ∈ (g.node (g.edge back).nodeRight).outEdges ∧
      n ∉ c ∧ ¬ ((g.edge n).isLooped = true ∧ (g.edge n).length < maxDepth) ∧
      (c ++ [n]) <+: q := by
  intro q hq
  induction hq with
  | start =>
    intro hpre hneq
    rw [List.prefix_cons_iff] at hpre
    rcases hpre with h | ⟨t, ht, hpre⟩
    · exact absurd h hc
    · rw [List.prefix_nil] at hpre
      subst hpre
      exact absurd ht hneq
  | @step path back n hp hacc hback hout hnew hloop ih =>
    intro hpre hneq
    rcases List.prefix_concat_iff.mp hpre with h | h
    · exact absurd h hneq
    · by_cases hcp : c = path
      · subst hcp
        exact ⟨n, back, hback, hout, hnew, hloop, List.prefix_rfl⟩
      · obtain ⟨m, b, h1, h2, h3, h4, h5⟩ := ih h hcp
        exact ⟨m, b, h1, h2, h3, h4, h5.trans (List.prefix_append _ _)⟩

theorem anyPathExpand_spec (g : RepeatGraph) (maxDepth : Int) (curPath : PathWithLen) :
    ∀ (outs : List EdgePtr) (st : List PathWithLen × Bool),
    (anyPathExpand g maxDepth curPath outs st).2 =
      (st.2 && outs.all (fun n => curPath.path.contains n ||
        ((g.edge n).isLooped && decide ((g.edge n).length < maxDepth)))) ∧
    ∀ c, c ∈ (anyPathExpand g maxDepth curPath outs st).1 ↔
      c ∈ st.1 ∨ ∃ n ∈ outs, curPath.path.contains n = false ∧
        ((g.edge n).isLooped && decide ((g.edge n).length < maxDepth)) = false ∧
        c = ⟨curPath.path ++ [n], curPath.length + (g.edge n).length⟩ := by
  intro outs
  induction outs with
  | nil =>
    intro st
    unfold anyPathExpand
    simp
  | cons n rest ih =>
    intro st
    unfold anyPathExpand
    by_cases hc : curPath.path.contains n = true
    · rw [if_pos hc]
      obtain ⟨h1, h2⟩ := ih st
      refine ⟨by rw [h1, List.all_cons, hc]; simp, ?_⟩
      intro c
      rw [h2 c]
      constructor
      · rintro (h | ⟨m, hm, h3⟩)
        · exact Or.inl h
        · exact Or.inr ⟨m, List.mem_cons_of_mem _ hm, h3⟩
      · rintro (h | ⟨m, hm, h3, h4, h5⟩)
        · exact Or.inl h
        · rcases List.mem_cons.mp hm with rfl | hm
          · rw [hc] at h3; exact absurd h3 (by simp)
          · exact Or.inr ⟨m, hm, h3, h4, h5⟩
    · rw [if_neg hc]
      have hcf : curPath.path.contains n = false := by simpa using hc
      by_cases hl : ((g.edge n).isLooped && decide ((g.edge n).length < maxDepth)) = true
      · rw [if_pos hl]
        obtain ⟨h1, h2⟩ := ih st
        refine ⟨by rw [h1, List.all_cons, hl]; simp, ?_⟩
        intro c
        rw [h2 c]
        constructor
        · rintro (h | ⟨m, hm, h3⟩)
          · exact Or.inl h
          · exact Or.inr ⟨m, List.mem_cons_of_mem _ hm, h3⟩
        · rintro (h | ⟨m, hm, h3, h4, h5⟩)
          · exact Or.inl h
          · rcases List.mem_cons.mp hm with rfl | hm
            · rw [hl] at h4; exact absurd h4 (by simp)
            · exact Or.inr ⟨m, hm, h3, h4, h5⟩
      · rw [if_neg hl]
        have hlf : ((g.edge n).isLooped && decide ((g.edge n).length < maxDepth)) = false := by
          simpa using hl
        obtain ⟨h1, h2⟩ := ih
          (⟨curPath.path ++ [n], curPath.length + (g.edge n).length⟩ :: st.1, false)
        refine ⟨by rw [h1, List.all_cons, hcf, hlf]; simp, ?_⟩
        intro c
        rw [h2 c]
        constructor
        · rintro (h | ⟨m, hm, h3⟩)
          · rcases List.mem_cons.mp h with rfl | h
            · exact Or.inr ⟨n, List.mem_cons_self _ _, hcf, hlf, rfl⟩
            · exact Or.inl h
          · exact Or.inr ⟨m, List.mem_cons_of_mem _ hm, h3⟩
        · rintro (h | ⟨m, hm, h3, h4, h5⟩)
          · exact Or.inl (List.mem_cons_of_mem _ h)
          · rcases List.mem_cons.mp hm with rfl | hm
            · exact Or.inl (by rw [h5]; exact List.mem_cons_self _ _)
            · exact Or.inr ⟨m, hm, h3, h4, h5⟩

theorem foldl_longest_max : ∀ (rest : List PathWithLen) (first : PathWithLen),
    ∀ c ∈ first :: rest, c.length ≤
      (rest.foldl (fun best cand => if cand.length > best.length then cand else best)
        first).length := by
  intro rest
  induction rest with
  | nil =>
    intro first c hc
    rw [List.mem_singleton] at hc
    subst hc
    exact le_refl _
  | cons x rest ih =>
    intro first c hc
    rw [List.foldl_cons]
    by_cases hx : x.length > first.length
    · rw [if_pos hx]
      have h1 := ih x x (List.mem_cons_self _ _)
      rcases List.mem_cons.mp hc with rfl | hc
      · omega
      · exact ih x c hc
    · rw [if_neg hx]
      have h1 := ih first first (List.mem_cons_self _ _)
      rcases List.mem_cons.mp hc with rfl | hc
      · exact h1
      · rcases List.mem_cons.mp hc with rfl | hc
        · omega
        · exact ih first c (List.mem_cons_of_mem _ hc)
theorem explored_inner (g : RepeatGraph) (maxDepth : Int) (startEdge : EdgePtr)
    (path : List EdgePtr) (h : Explored g maxDepth startEdge path) (hmd : 0 ≤ maxDepth) :
    innerLength g path ≤ maxDepth := by
  cases h with
  | start => exact hmd
  | @step p back n hp hacc _ _ _ _ =>
    rw [(accumulatedLength_concat g p n (explored_ne_nil g maxDepth startEdge p hp)).2]
    exact hacc

theorem anyPathLoop_result (g : RepeatGraph) (maxDepth : Int) (startEdge : EdgePtr) :
    ∀ (fuel : Nat) (queue deadEnds : List PathWithLen) (p : List EdgePtr),
    (∀ c ∈ queue, Explored g maxDepth startEdge c.path ∧
      c.length = accumulatedLength g c.path) →
    (∀ c ∈ deadEnds, Explored g maxDepth startEdge c.path ∧
      c.length = accumulatedLength g c.path ∧ isDeadEnd g maxDepth c.path = true) →
    (∀ q, Explored g maxDepth startEdge q →
      (∃ c ∈ queue, c.path <+: q) ∨
        (accumulatedLength g q ≤ maxDepth ∧
          (isDeadEnd g maxDepth q = true → ∃ c ∈ deadEnds, c.path = q))) →
    (queue ≠ [] ∨ deadEnds ≠ []) →
    anyPathLoop g maxDepth fuel queue deadEnds = some p →
    Explored g maxDepth startEdge p ∧
      (accumulatedLength g p > maxDepth ∨
        (accumulatedLength g p ≤ maxDepth ∧ isDeadEnd g maxDepth p = true ∧
          (∀ q, Explored g maxDepth startEdge q → accumulatedLength g q ≤ maxDepth) ∧
          ∀ q, Explored g maxDepth startEdge q → isDeadEnd g maxDepth q = true →
            accumulatedLength g q ≤ accumulatedLength g p)) := by
  have hempty : ∀ (fuel : Nat) (deadEnds : List PathWithLen) (p : List EdgePtr),
      (∀ c ∈ deadEnds, Explored g maxDepth startEdge c.path ∧
        c.length = accumulatedLength g c.path ∧ isDeadEnd g maxDepth c.path = true) →
      (∀ q, Explored g maxDepth startEdge q →
        (∃ c ∈ ([] : List PathWithLen), c.path <+: q) ∨
          (accumulatedLength g q ≤ maxDepth ∧
            (isDeadEnd g maxDepth q = true → ∃ c ∈ deadEnds, c.path = q))) →
      deadEnds ≠ [] →
      anyPathLoop g maxDepth fuel [] deadEnds = some p →
      Explored g maxDepth startEdge p ∧
        (accumulatedLength g p > maxDepth ∨
          (accumulatedLength g p ≤ maxDepth ∧ isDeadEnd g maxDepth p = true ∧
            (∀ q, Explored g maxDepth startEdge q → accumulatedLength g q ≤ maxDepth) ∧
            ∀ q, Explored g maxDepth startEdge q → isDeadEnd g maxDepth q = true →
              accumulatedLength g q ≤ accumulatedLength g p)) := by
    intro fuel deadEnds p hd hcov hne h
    have hall : ∀ q, Explored g maxDepth startEdge q → accumulatedLength g q ≤ maxDepth ∧
        (isDeadEnd g maxDepth q = true → ∃ c ∈ deadEnds, c.path = q) := by
      intro q hq
      rcases hcov q hq with ⟨c, hc, _⟩ | h2
      · exact absurd hc (List.not_mem_nil _)
      · exact h2
    cases deadEnds with
    | nil => exact absurd rfl hne
    | cons first rest =>
      rw [anyPathLoop] at h
      unfold longestDeadEnd at h
      simp only [] at h
      injection h with h
      subst h
      obtain ⟨hb1, hb2, hb3⟩ := hd _ (foldl_longest_mem rest first)
      refine ⟨hb1, Or.inr ⟨(hall _ hb1).1, hb3, fun q hq => (hall q hq).1, ?_⟩⟩
      intro q hq hdead
      obtain ⟨c, hc, hcq⟩ := (hall q hq).2 hdead
      have hmax := foldl_longest_max rest first c hc
      rw [(hd c hc).2.1, hb2, hcq] at hmax
      exact hmax
  intro fuel
  induction fuel with
  | zero =>
    intro queue deadEnds p hq hd hcov hne h
    cases queue with
    | nil =>
      exact hempty 0 deadEnds p hd hcov (by
        rcases hne with h2 | h2
        · exact absurd rfl h2
        · exact h2) h
    | cons cur queue =>
      rw [anyPathLoop] at h
      exact absurd h (by simp)
  | succ fuel ih =>
    intro queue deadEnds p hq hd hcov hne h
    cases queue with
    | nil =>
      exact hempty (fuel + 1) deadEnds p hd hcov (by
        rcases hne with h2 | h2
        · exact absurd rfl h2
        · exact h2) h
    | cons cur queue =>
      obtain ⟨hcurE, hcurL⟩ := hq cur (List.mem_cons_self _ _)
      rw [anyPathLoop] at h
      by_cases hlong : cur.length > maxDepth
      · rw [if_pos hlong] at h
        injection h with h
        subst h
        exact ⟨hcurE, Or.inl (by rw [← hcurL]; exact hlong)⟩
      · rw [if_neg hlong] at h
        have hne2 := explored_ne_nil g maxDepth startEdge cur.path hcurE
        obtain ⟨back, hback⟩ := Option.isSome_iff_exists.mp (List.getLast?_isSome.mpr hne2)
        rw [hback] at h
        simp only [] at h
        obtain ⟨hflag, hmem⟩ := anyPathExpand_spec g maxDepth cur
          (g.node (g.edge back).nodeRight).outEdges (queue, true)
        have hflag2 : (anyPathExpand g maxDepth cur
            (g.node (g.edge back).nodeRight).outEdges (queue, true)).2
            = isDeadEnd g maxDepth cur.path := by
          rw [hflag]
          unfold isDeadEnd
          rw [hback]
          simp
        have hacc : accumulatedLength g cur.path ≤ maxDepth := by
          rw [← hcurL]; omega
        -- the new stack holds explored paths with their lengths
        have hq2 : ∀ c ∈ (anyPathExpand g maxDepth cur
            (g.node (g.edge back).nodeRight).outEdges (queue, true)).1,
            Explored g maxDepth startEdge c.path ∧ c.length = accumulatedLength g c.path := by
          intro c hc
          rcases (hmem c).mp hc with hc | ⟨n, hn, h1, h2, h3⟩
          · exact hq c (List.mem_cons_of_mem _ hc)
          · subst h3
            refine ⟨Explored.step n hcurE hacc hback hn (by simpa using h1) ?_, ?_⟩
            · intro hcon
              simp only [Bool.and_eq_false_imp, decide_eq_false_iff_not] at h2
              exact h2 hcon.1 hcon.2
            · simp only []
              rw [(accumulatedLength_concat g cur.path n hne2).1, hcurL]
        -- every explored path other than `cur` stays covered
        have hcov2 : ∀ q, Explored g maxDepth startEdge q → q ≠ cur.path →
            (∃ c ∈ (anyPathExpand g maxDepth cur
              (g.node (g.edge back).nodeRight).outEdges (queue, true)).1, c.path <+: q) ∨
            (accumulatedLength g q ≤ maxDepth ∧
              (isDeadEnd g maxDepth q = true → ∃ c ∈ deadEnds, c.path = q)) := by
          intro q hqE hneq
          rcases hcov q hqE with ⟨c, hc, hpre⟩ | h2
          · rcases List.mem_cons.mp hc with rfl | hc
            · obtain ⟨n, b, hb, hout, hnew, hloop, hpre2⟩ :=
                explored_child g maxDepth startEdge c.path hne2 q hqE hpre
                  (fun hcq => hneq hcq.symm)
              rw [hback] at hb
              have hbb := Option.some.inj hb
              subst hbb
              left
              refine ⟨⟨c.path ++ [n], c.length + (g.edge n).length⟩, ?_, hpre2⟩
              refine (hmem _).mpr (Or.inr ⟨n, hout, by simpa using hnew, ?_, rfl⟩)
              simp only [Bool.and_eq_false_imp, decide_eq_false_iff_not]
              exact fun h1 h2 => hloop ⟨h1, h2⟩
            · exact Or.inl ⟨c, (hmem c).mpr (Or.inl hc), hpre⟩
          · exact Or.inr h2
        by_cases hdead : (anyPathExpand g maxDepth cur
            (g.node (g.edge back).nodeRight).outEdges (queue, true)).2 = true
        · rw [if_pos hdead] at h
          refine ih _ (deadEnds ++ [cur]) p hq2 ?_ ?_ (Or.inr (by simp)) h
          · intro c hc
            rcases List.mem_append.mp hc with hc | hc
            · exact hd c hc
            · rw [List.mem_singleton] at hc
              subst hc
              exact ⟨hcurE, hcurL, by rw [← hflag2]; exact hdead⟩
          · intro q hqE
            by_cases hqc : q = cur.path
            · right
              subst hqc
              exact ⟨hacc, fun _ => ⟨cur, by simp, rfl⟩⟩
            · rcases hcov2 q hqE hqc with h2 | ⟨h2, h3⟩
              · exact Or.inl h2
              · right
                refine ⟨h2, fun hd2 => ?_⟩
                obtain ⟨c, hc, hcq⟩ := h3 hd2
                exact ⟨c, List.mem_append.mpr (Or.inl hc), hcq⟩
        · rw [if_neg hdead] at h
          have hnotdead : isDeadEnd g maxDepth cur.path = false := by
            rw [← hflag2]; simpa using hdead
          refine ih _ deadEnds p hq2 hd ?_ (Or.inl ?_) h
          · intro q hqE
            by_cases hqc : q = cur.path
            · right
              subst hqc
              refine ⟨hacc, fun hd2 => ?_⟩
              rw [hnotdead] at hd2
              exact absurd hd2 (by simp)
            · exact hcov2 q hqE hqc
          · have hex : ∃ n ∈ (g.node (g.edge back).nodeRight).outEdges,
                (cur.path.contains n ||
                  ((g.edge n).isLooped && decide ((g.edge n).length < maxDepth))) = false := by
              have hf : (anyPathExpand g maxDepth cur
                  (g.node (g.edge back).nodeRight).outEdges (queue, true)).2 = false := by
                simpa using hdead
              rw [hflag] at hf
              simp only [Bool.true_and] at hf
              by_contra hcon
              have : (g.node (g.edge back).nodeRight).outEdges.all (fun n =>
                  cur.path.contains n ||
                    ((g.edge n).isLooped && decide ((g.edge n).length < maxDepth))) = true := by
                rw [List.all_eq_true]
                intro n hn
                by_contra hn2
                exact hcon ⟨n, hn, by simpa using hn2⟩
              rw [this] at hf
              exact absurd hf (by simp)
            obtain ⟨n, hn, hn2⟩ := hex
            rw [Bool.or_eq_false_iff] at hn2
            intro hnil
            have := (hmem ⟨cur.path ++ [n], cur.length + (g.edge n).length⟩).mpr
              (Or.inr ⟨n, hn, hn2.1, hn2.2, rfl⟩)
            rw [hnil] at this
            exact absurd this (List.not_mem_nil _)
theorem explored_head (g : RepeatGraph) (maxDepth : Int) (startEdge : EdgePtr) :
    ∀ (q : List EdgePtr), Explored g maxDepth startEdge q → [startEdge] <+: q := by
  intro q hq
  induction hq with
  | start => exact List.prefix_rfl
  | step n _ _ _ _ _ _ ih => exact ih.trans (List.prefix_append _ _)

/-- C21 as stated fails: on the diamond with `maxDepth = 100`, `anyPath` from `E` returns
the path `E B`, which is long enough (accumulated length 5,000) and no dead end, and the
sum of the lengths of its edges without the first and the last one is 0. -/
theorem anyPath_inner_length_counterexample :
    ¬ ∀ (g : RepeatGraph) (fuel : Nat) (startEdge : EdgePtr) (maxDepth : Int)
      (p : List EdgePtr), anyPath g fuel startEdge maxDepth = some p →
      accumulatedLength g p > maxDepth → isDeadEnd g maxDepth p = false →
      innerLength g p > maxDepth := by
  intro h
  have h0 := h diamondGraph 9 0 100 [0, 4] (by decide) (by decide) (by decide)
  revert h0
  decide

/-- C21 amended: on a graph whose edge list holds `startEdge` and the out-edges of its
edges, `anyPath` returns a path within `anyPathFuel g` iterations, and every path it
returns is one of the explored paths and is of one of two kinds. Either it is long
enough: the sum of the lengths of its edges after the first one, the last one included,
exceeds `maxDepth`, while for `maxDepth >= 0` the sum without the first and the last edge
is at most `maxDepth`. Or no explored path is longer than `maxDepth`, and the path is a
dead end of maximal accumulated length among the explored dead ends. -/
theorem anyPath_result (g : RepeatGraph) (startEdge : EdgePtr) (maxDepth : Int)
    (hstart : startEdge ∈ g.edges)
    (hclosed : ∀ e ∈ g.edges, ∀ n ∈ (g.node (g.edge e).nodeRight).outEdges, n ∈ g.edges) :
    (∀ fuel, anyPathFuel g ≤ fuel → ∃ p, anyPath g fuel startEdge maxDepth = some p) ∧
    (∀ fuel p, anyPath g fuel startEdge maxDepth = some p →
      Explored g maxDepth startEdge p ∧
      ((accumulatedLength g p > maxDepth ∧ (0 ≤ maxDepth → innerLength g p ≤ maxDepth)) ∨
        (accumulatedLength g p ≤ maxDepth ∧ isDeadEnd g maxDepth p = true ∧
          (∀ q, Explored g maxDepth startEdge q → accumulatedLength g q ≤ maxDepth) ∧
          ∀ q, Explored g maxDepth startEdge q → isDeadEnd g maxDepth q = true →
            accumulatedLength g q ≤ accumulatedLength g p))) := by
  refine ⟨fun fuel => (anyPath_spec g startEdge maxDepth hstart hclosed fuel).2, ?_⟩
  intro fuel p hp
  obtain ⟨h1, h2⟩ := anyPathLoop_result g maxDepth startEdge fuel [⟨[startEdge], 0⟩] [] p
    (by
      intro c hc
      rw [List.mem_singleton] at hc
      subst hc
      exact ⟨Explored.start, rfl⟩)
    (fun c hc => absurd hc (List.not_mem_nil _))
    (fun q hq => Or.inl ⟨⟨[startEdge], 0⟩, List.mem_singleton.mpr rfl,
      explored_head g maxDepth startEdge q hq⟩)
    (Or.inl (by simp)) hp
  refine ⟨h1, ?_⟩
  rcases h2 with h2 | h2
  · exact Or.inl ⟨h2, explored_inner g maxDepth startEdge p h1⟩
  · exact Or.inr h2

/-- Witness for C21 amended on the diamond. With `maxDepth = 100` the path `E B` is
returned as long enough: accumulated length 5,000, inner length 0. With
`maxDepth = 50,000` no path is long enough and the dead end `E B X` of accumulated length
25,000 is returned. -/
theorem anyPath_result_witness :
    (∃ p, anyPath diamondGraph (anyPathFuel diamondGraph) 0 100 = some p) ∧
    anyPath diamondGraph 9 0 100 = some [0, 4] ∧
    accumulatedLength diamondGraph [0, 4] = 5000 ∧ innerLength diamondGraph [0, 4] = 0 ∧
    (Explored diamondGraph 100 0 [0, 4] ∧
      ((accumulatedLength diamondGraph [0, 4] > 100 ∧
          (0 ≤ (100 : Int) → innerLength diamondGraph [0, 4] ≤ 100)) ∨
        (accumulatedLength diamondGraph [0, 4] ≤ 100 ∧
          isDeadEnd diamondGraph 100 [0, 4] = true ∧
          (∀ q, Explored diamondGraph 100 0 q → accumulatedLength diamondGraph q ≤ 100) ∧
          ∀ q, Explored diamondGraph 100 0 q → isDeadEnd diamondGraph 100 q = true →
            accumulatedLength diamondGraph q ≤ accumulatedLength diamondGraph [0, 4]))) ∧
    anyPath diamondGraph 9 0 50000 = some [0, 4, 6] ∧
    accumulatedLength diamondGraph [0, 4, 6] = 25000 ∧
    (Explored diamondGraph 50000 0 [0, 4, 6] ∧
      ((accumulatedLength diamondGraph [0, 4, 6] > 50000 ∧
          (0 ≤ (50000 : Int) → innerLength diamondGraph [0, 4, 6] ≤ 50000)) ∨
        (accumulatedLength diamondGraph [0, 4, 6] ≤ 50000 ∧
          isDeadEnd diamondGraph 50000 [0, 4, 6] = true ∧
          (∀ q, Explored diamondGraph 50000 0 q →
            accumulatedLength diamondGraph q ≤ 50000) ∧
          ∀ q, Explored diamondGraph 50000 0 q → isDeadEnd diamondGraph 50000 q = true →
            accumulatedLength diamondGraph q ≤
              accumulatedLength diamondGraph [0, 4, 6]))) :=
  ⟨(anyPath_result diamondGraph 0 100 (by decide) (by decide)).1 _ (le_refl _),
    by decide, by decide, by decide,
    (anyPath_result diamondGraph 0 100 (by decide) (by decide)).2 9 [0, 4] (by decide),
    by decide, by decide,
    (anyPath_result diamondGraph 0 50000 (by decide) (by decide)).2 9 [0, 4, 6] (by decide)⟩

end ABruijn
